import Mathlib

/-!
# Verification of the Polyfills repository's structured-clone codec

This file gives a shallow embedding of the two polyfills the claims are
about:

* the `@ungap/structured-clone` serializer/deserializer
  (`src/unnamed/part_000`), embedded as `pairF` / `serializeW` (the
  encoder) and `unpairF` / `deserializeW` (the decoder) over an explicit
  heap of JavaScript objects, so that reference identity, sharing and
  cycles are represented faithfully;
* the `Object.fromEntries` polyfill
  (`src/scripts/12.1/Object.fromEntries.js`), embedded as `fromEntries`.

Modelling conventions:

* A JavaScript value is either a primitive (`JSPrim`) or a reference
  (`JSVal.ref`) into a heap (`List JSObj`); heap addresses model object
  identity.  JavaScript numbers are modelled as `Int` (the codec never
  computes with numbers, it carries them verbatim; float-specific values
  such as NaN are outside the model).  Each distinct function or symbol
  value is modelled as a primitive carrying an identifier, since the
  codec never looks inside them.
* A `Date` is represented by its ISO-8601 rendering (the string
  `toISOString` returns); `toISOString` is injective on valid dates, so
  this carries exactly the information the codec reads and writes.
* Bigints are `Int`; `value.toString()` is `intToDec` and the `BigInt`
  string constructor is `parseBigInt`, both implemented and related by a
  proved round-trip lemma.
* The serializer's recursion is driven by a fuel parameter; the source
  terminates on cyclic inputs because every composite is registered in
  the identity map before its children are visited, and the adequacy
  lemmas below prove that the fuel chosen by `serializeW`/`deserializeW`
  is never exhausted, which is the formal counterpart of termination.
* Errors carry exactly the data the codec reads (the class tag used as
  `name`, and `message`); decoding an error record assumes the global
  environment defines the named constructor, as the source does with
  `new env[name](message)`.
-/

namespace Polyfills

/-- Decimal digit to character, as produced by `toString()`. -/
def digitToChar : Nat → Char
  | 0 => '0' | 1 => '1' | 2 => '2' | 3 => '3' | 4 => '4'
  | 5 => '5' | 6 => '6' | 7 => '7' | 8 => '8' | _ => '9'

/-- Is the character a decimal digit? -/
def isDigitC (c : Char) : Bool := 48 ≤ c.toNat && c.toNat ≤ 57

/-- Little-endian digit characters of `n` (fuel-driven; `fuel ≥ n` is enough). -/
def natDecAux : Nat → Nat → List Char
  | 0, _ => []
  | _, 0 => []
  | fuel+1, n => digitToChar (n % 10) :: natDecAux fuel (n / 10)

/-- `n.toString()` for a natural number. -/
def natToDec (n : Nat) : String :=
  if n = 0 then "0" else ⟨(natDecAux n n).reverse⟩

/-- `b.toString()` for a bigint, as JavaScript renders it. -/
def intToDec : Int → String
  | .ofNat n => natToDec n
  | .negSucc m => "-" ++ natToDec (m + 1)

/-- Value of a little-endian digit-character list. -/
def decValue : List Char → Nat
  | [] => 0
  | c :: cs => (c.toNat - 48) + 10 * decValue cs

/-- Parse a most-significant-first digit string into a natural number. -/
def parseNatDec (cs : List Char) : Option Nat :=
  if cs.isEmpty then none
  else if cs.all isDigitC then some (decValue cs.reverse) else none

/-- Character-list worker for `parseBigInt`. -/
def parseBigIntAux : List Char → Option Int
  | [] => none
  | c :: rest =>
    if c = '-' then (parseNatDec rest).map (fun k => -(k : Int))
    else (parseNatDec (c :: rest)).map (fun k => (k : Int))

/-- The `BigInt(string)` conversion, for the decimal strings the encoder
emits (canonical renderings; exotic inputs accepted by JavaScript, such
as whitespace or the empty string, are not needed by the codec). -/
def parseBigInt (s : String) : Option Int := parseBigIntAux s.data

theorem digitToChar_toNat {d : Nat} (h : d < 10) :
    (digitToChar d).toNat = 48 + d := by
  interval_cases d <;> decide

theorem isDigitC_digitToChar {d : Nat} (h : d < 10) :
    isDigitC (digitToChar d) = true := by
  interval_cases d <;> decide

theorem decValue_natDecAux {fuel n : Nat} (h : n ≤ fuel) :
    decValue (natDecAux fuel n) = n := by
  induction fuel generalizing n with
  | zero => simp_all [natDecAux, decValue]
  | succ fuel ih =>
    cases n with
    | zero => simp [natDecAux, decValue]
    | succ m =>
      have hlt : (m + 1) / 10 ≤ fuel := by
        have := Nat.div_lt_self (Nat.succ_pos m) (by norm_num : 1 < 10)
        omega
      have hdig : (digitToChar ((m + 1) % 10)).toNat = 48 + (m + 1) % 10 :=
        digitToChar_toNat (Nat.mod_lt _ (by norm_num))
      simp only [natDecAux, decValue, ih hlt, hdig]
      omega

theorem natDecAux_all_digits : ∀ (fuel n : Nat),
    (natDecAux fuel n).all isDigitC = true := by
  intro fuel
  induction fuel with
  | zero => intro n; simp [natDecAux]
  | succ fuel ih =>
    intro n
    cases n with
    | zero => simp [natDecAux]
    | succ m =>
      simp only [natDecAux, List.all_cons, Bool.and_eq_true]
      exact ⟨isDigitC_digitToChar (Nat.mod_lt _ (by norm_num)), ih _⟩

theorem natDecAux_ne_nil {n : Nat} (h : 0 < n) : natDecAux n n ≠ [] := by
  cases n with
  | zero => omega
  | succ m => simp [natDecAux]

theorem parseNatDec_natToDec (n : Nat) :
    parseNatDec (natToDec n).data = some n := by
  by_cases h : n = 0
  · subst h; decide
  · have hpos : 0 < n := Nat.pos_of_ne_zero h
    have hdata : (natToDec n).data = (natDecAux n n).reverse := by
      simp [natToDec, h]
    rcases hrev : (natDecAux n n).reverse with _ | ⟨c, cs⟩
    · exact absurd (List.reverse_eq_nil_iff.mp hrev) (natDecAux_ne_nil hpos)
    · have hdigs : (c :: cs).all isDigitC = true := by
        rw [← hrev, List.all_eq_true]
        intro x hx
        have hall := natDecAux_all_digits n n
        rw [List.all_eq_true] at hall
        exact hall x (List.mem_reverse.mp hx)
      have hval : decValue (c :: cs).reverse = n := by
        rw [← hrev, List.reverse_reverse]
        exact decValue_natDecAux (Nat.le_refl n)
      rw [hdata, hrev, parseNatDec]
      simp only [List.isEmpty_cons, Bool.false_eq_true, if_false, hdigs, if_true]
      exact congrArg some hval

theorem natToDec_head_digit (n : Nat) :
    ∃ c cs, (natToDec n).data = c :: cs ∧ isDigitC c = true := by
  by_cases h : n = 0
  · subst h; exact ⟨'0', [], by decide, by decide⟩
  · have hpos : 0 < n := Nat.pos_of_ne_zero h
    have hdata : (natToDec n).data = (natDecAux n n).reverse := by
      simp [natToDec, h]
    rcases hrev : (natDecAux n n).reverse with _ | ⟨c, cs⟩
    · exact absurd (List.reverse_eq_nil_iff.mp hrev) (natDecAux_ne_nil hpos)
    · refine ⟨c, cs, by rw [hdata, hrev], ?_⟩
      have hmem : c ∈ natDecAux n n := by
        have : c ∈ (natDecAux n n).reverse := by
          rw [hrev]; exact List.mem_cons_self _ _
        exact List.mem_reverse.mp this
      have hall := natDecAux_all_digits n n
      rw [List.all_eq_true] at hall
      exact hall c hmem

/-- The decimal round-trip at the heart of bigint serialization:
`BigInt(b.toString()) === b`. -/
theorem parseBigInt_intToDec (b : Int) : parseBigInt (intToDec b) = some b := by
  cases b with
  | ofNat n =>
    rcases natToDec_head_digit n with ⟨c, cs, hdata, hdig⟩
    have hc : c ≠ '-' := by
      intro hc; subst hc; simp [isDigitC] at hdig
    have hn := parseNatDec_natToDec n
    rw [hdata] at hn
    rw [intToDec, parseBigInt, hdata, parseBigIntAux, if_neg hc, hn]
    rfl
  | negSucc m =>
    have hdata : ("-" ++ natToDec (m + 1)).data
        = '-' :: (natToDec (m + 1)).data := by
      simp
    rw [intToDec, parseBigInt, hdata, parseBigIntAux, if_pos rfl,
      parseNatDec_natToDec (m + 1)]
    simp [Int.negSucc_eq]

/-! ## The JavaScript value model

A value is a primitive or a reference into a heap; the heap address is
the model of object identity.  `JSObj` lists exactly the object kinds
the codec's `typeOf` classification distinguishes. -/

/-- JavaScript primitive values.  `func`/`symbol` carry an identity tag:
the codec never looks inside them, only detects their `typeof`. -/
inductive JSPrim where
  | undef
  | null
  | bool (b : Bool)
  | num (n : Int)
  | str (s : String)
  | bigint (b : Int)
  | func (id : Nat)
  | symbol (id : Nat)
deriving DecidableEq, Repr

/-- A JavaScript value: a primitive, or a reference to a heap object. -/
inductive JSVal where
  | prim (p : JSPrim)
  | ref (a : Nat)
deriving DecidableEq, Repr

/-- Heap objects, one constructor per branch of the source's `typeOf`
classification.  `obj`'s `toJSONVal` models a `toJSON` method (typically
inherited) returning the given value; `none` means the object does not
implement `toJSON`.  `typedArr` carries the element list that spreading
(`[...value]`) yields; `dataView` carries the bytes of its whole
underlying buffer plus the view window. -/
inductive JSObj where
  | arr (elems : List JSVal)
  | obj (props : List (String × JSVal)) (toJSONVal : Option JSVal)
  | date (iso : String)
  | regexp (source flags : String)
  | mapObj (entries : List (JSVal × JSVal))
  | setObj (elems : List JSVal)
  | errObj (name message : String)
  | boxedBool (b : Bool)
  | boxedNum (n : Int)
  | boxedStr (s : String)
  | boxedBig (b : Int)
  | typedArr (tag : String) (elems : List Int)
  | arrayBuffer (bytes : List Int)
  | dataView (bytes : List Int) (byteOffset byteLength : Nat)
deriving DecidableEq, Repr

/-! ## The wire format

One constructor per record shape the serializer emits: numeric tags
VOID/PRIMITIVE/ARRAY/OBJECT/DATE/REGEXP/MAP/SET/ERROR/BIGINT, plus the
string-tagged records for typed arrays / binary buffers and boxed
primitive wrappers. -/

/-- A wire record: a `[tag, payload]` pair of the serialized sequence. -/
inductive Record where
  | void
  | primitive (p : JSPrim)
  | arrayRec (idxs : List Nat)
  | objectRec (entries : List (Nat × Nat))
  | dateRec (iso : String)
  | regexpRec (source flags : String)
  | mapRec (entries : List (Nat × Nat))
  | setRec (idxs : List Nat)
  | errorRec (name message : String)
  | bigintRec (s : String)
  | typedRec (tag : String) (elems : List Int)
  | boxedBoolRec (b : Bool)
  | boxedNumRec (n : Int)
  | boxedStrRec (s : String)
  | boxedBigRec (s : String)
deriving DecidableEq, Repr

/-! ## Encoder -/

/-- Serializer errors.  `typeNotSerializable` is the strict-mode
`TypeError`; `outOfFuel` is a model artifact (the adequacy lemmas show
the fuel `serializeW` supplies never runs out); `dangling` flags a
reference outside the heap (impossible for well-formed inputs). -/
inductive SErr where
  | typeNotSerializable
  | outOfFuel
  | dangling
deriving DecidableEq, Repr

/-- The serializer's identity-map lookup (`$.has`/`$.get`): association
list keyed by value, primitives by value equality, references by
address, as a JavaScript `Map`'s SameValueZero keys behave. -/
def alookup : List (JSVal × Nat) → JSVal → Option Nat
  | [], _ => none
  | (k, i) :: rest, v => if k = v then some i else alookup rest v

/-- Serializer state: the identity map `$` and the output sequence `_`. -/
structure SSt where
  idmap : List (JSVal × Nat)
  out : List Record
deriving DecidableEq, Repr

/-- The serializer's `as`: append the record, assign the fresh slot, and
register the value in the identity map. -/
def SSt.push (s : SSt) (r : Record) (v : JSVal) : Nat × SSt :=
  (s.out.length, ⟨(v, s.out.length) :: s.idmap, s.out ++ [r]⟩)

/-- Replace slot `i`'s placeholder by its final record (the source
mutates the already-pushed array/entry list in place). -/
def SSt.patch (s : SSt) (i : Nat) (r : Record) : SSt :=
  ⟨s.idmap, s.out.set i r⟩

/-- The source's `shouldSkip`: function- and symbol-typed values. -/
def shouldSkip : JSVal → Bool
  | .prim (.func _) => true
  | .prim (.symbol _) => true
  | _ => false

/-- Encode a list of child values left to right, threading state. -/
def encList (f : JSVal → SSt → Except SErr (Nat × SSt)) :
    List JSVal → SSt → Except SErr (List Nat × SSt)
  | [], s => .ok ([], s)
  | v :: rest, s =>
    match f v s with
    | .error e => .error e
    | .ok (i, s1) =>
      match encList f rest s1 with
      | .error e => .error e
      | .ok (is, s2) => .ok (i :: is, s2)

/-- Encode an object's own enumerable properties: key first, then value,
skipping function/symbol values in relaxed mode only (the source's
`strict \|\| !shouldSkip(...)` guard). -/
def encProps (strict : Bool) (f : JSVal → SSt → Except SErr (Nat × SSt)) :
    List (String × JSVal) → SSt → Except SErr (List (Nat × Nat) × SSt)
  | [], s => .ok ([], s)
  | (k, v) :: rest, s =>
    if strict || !shouldSkip v then
      match f (.prim (.str k)) s with
      | .error e => .error e
      | .ok (ki, s1) =>
        match f v s1 with
        | .error e => .error e
        | .ok (vi, s2) =>
          match encProps strict f rest s2 with
          | .error e => .error e
          | .ok (es, s3) => .ok ((ki, vi) :: es, s3)
    else encProps strict f rest s

/-- Encode `Map` entries; an entry is skipped in relaxed mode when its
key or its value is a function/symbol. -/
def encEntries (strict : Bool) (f : JSVal → SSt → Except SErr (Nat × SSt)) :
    List (JSVal × JSVal) → SSt → Except SErr (List (Nat × Nat) × SSt)
  | [], s => .ok ([], s)
  | (k, v) :: rest, s =>
    if strict || !(shouldSkip k || shouldSkip v) then
      match f k s with
      | .error e => .error e
      | .ok (ki, s1) =>
        match f v s1 with
        | .error e => .error e
        | .ok (vi, s2) =>
          match encEntries strict f rest s2 with
          | .error e => .error e
          | .ok (es, s3) => .ok ((ki, vi) :: es, s3)
    else encEntries strict f rest s

/-- Encode `Set` elements, skipping function/symbol elements in relaxed
mode. -/
def encElems (strict : Bool) (f : JSVal → SSt → Except SErr (Nat × SSt)) :
    List JSVal → SSt → Except SErr (List Nat × SSt)
  | [], s => .ok ([], s)
  | v :: rest, s =>
    if strict || !shouldSkip v then
      match f v s with
      | .error e => .error e
      | .ok (i, s1) =>
        match encElems strict f rest s1 with
        | .error e => .error e
        | .ok (is, s2) => .ok (i :: is, s2)
    else encElems strict f rest s

/-- The serializer's `pair`, fuel-driven.  Matches the source case for
case: identity-map hit first; primitives (bigint via `toString`,
function/symbol erroring in strict mode and coerced to `null`
otherwise, `undefined` as VOID); typed arrays / `ArrayBuffer` /
`DataView` as string-tagged byte/element lists (`DataView` spreads
`new Uint8Array(value.buffer)`, the whole buffer, ignoring the view
window); boxed wrappers; `toJSON` collapse for plain objects in `json`
mode; and the four composites, each of which pushes its placeholder
record and registers itself before its children are encoded. -/
def pairF (strict json : Bool) (H : List JSObj) :
    Nat → JSVal → SSt → Except SErr (Nat × SSt)
  | 0, _, _ => .error .outOfFuel
  | fuel+1, v, s =>
    match alookup s.idmap v with
    | some i => .ok (i, s)
    | none =>
      match v with
      | .prim p =>
        match p with
        | .bigint b => .ok (s.push (.bigintRec (intToDec b)) v)
        | .func _ =>
          if strict then .error .typeNotSerializable
          else .ok (s.push (.primitive .null) v)
        | .symbol _ =>
          if strict then .error .typeNotSerializable
          else .ok (s.push (.primitive .null) v)
        | .undef => .ok (s.push .void v)
        | _ => .ok (s.push (.primitive p) v)
      | .ref a =>
        match H[a]? with
        | none => .error .dangling
        | some o =>
          match o with
          | .typedArr tag elems => .ok (s.push (.typedRec tag elems) v)
          | .arrayBuffer bytes => .ok (s.push (.typedRec "ArrayBuffer" bytes) v)
          | .dataView bytes _ _ => .ok (s.push (.typedRec "DataView" bytes) v)
          | .date iso => .ok (s.push (.dateRec iso) v)
          | .regexp src fl => .ok (s.push (.regexpRec src fl) v)
          | .errObj name msg => .ok (s.push (.errorRec name msg) v)
          | .boxedBool b => .ok (s.push (.boxedBoolRec b) v)
          | .boxedNum n => .ok (s.push (.boxedNumRec n) v)
          | .boxedStr str => .ok (s.push (.boxedStrRec str) v)
          | .boxedBig b => .ok (s.push (.boxedBigRec (intToDec b)) v)
          | .arr elems =>
            let (i, s1) := s.push (.arrayRec []) v
            match encList (pairF strict json H fuel) elems s1 with
            | .error e => .error e
            | .ok (idxs, s2) => .ok (i, s2.patch i (.arrayRec idxs))
          | .obj props tj =>
            match json, tj with
            | true, some r => pairF strict json H fuel r s
            | _, _ =>
              let (i, s1) := s.push (.objectRec []) v
              match encProps strict (pairF strict json H fuel) props s1 with
              | .error e => .error e
              | .ok (es, s2) => .ok (i, s2.patch i (.objectRec es))
          | .mapObj entries =>
            let (i, s1) := s.push (.mapRec []) v
            match encEntries strict (pairF strict json H fuel) entries s1 with
            | .error e => .error e
            | .ok (es, s2) => .ok (i, s2.patch i (.mapRec es))
          | .setObj elems =>
            let (i, s1) := s.push (.setRec []) v
            match encElems strict (pairF strict json H fuel) elems s1 with
            | .error e => .error e
            | .ok (is, s2) => .ok (i, s2.patch i (.setRec is))

/-- Fuel supplied to the encoder: each recursion level either registers
a fresh heap address or is terminal, so heap size plus slack suffices
(proved by the adequacy lemma below). -/
def encFuel (H : List JSObj) : Nat := H.length + 2

/-- `serialize(value, {json, lossy})`, also exposing the root's slot:
runs `pair` from an empty identity map and empty output,
with `strict = !(json \|\| lossy)`. -/
def serializeW (H : List JSObj) (v : JSVal) (json lossy : Bool) :
    Except SErr (Nat × SSt) :=
  pairF (!(json || lossy)) json H (encFuel H) v ⟨[], []⟩

/-- The wire sequence `serialize` returns. -/
def serialize (H : List JSObj) (v : JSVal) (json lossy : Bool) :
    Except SErr (List Record) :=
  (serializeW H v json lossy).map (fun p => p.2.out)

/-! ## Decoder -/

/-- Deserializer errors.  `outOfFuel` is again a model artifact;
`badSlot` is a reference outside the sequence; `badBigInt` a bigint
payload `BigInt()` would reject. -/
inductive DErr where
  | outOfFuel
  | badSlot
  | badBigInt
deriving DecidableEq, Repr

/-- The deserializer's memo lookup (slot id to reconstructed value). -/
def mlookup : List (Nat × JSVal) → Nat → Option JSVal
  | [], _ => none
  | (k, v) :: rest, i => if k = i then some v else mlookup rest i

/-- Deserializer state: the memo `$` and the output heap the
reconstructed objects live in. -/
structure DSt where
  memo : List (Nat × JSVal)
  heap : List JSObj
deriving DecidableEq, Repr

/-- The deserializer's `as` for primitive results: record the memo entry
for the slot. -/
def DSt.reg (s : DSt) (i : Nat) (v : JSVal) : JSVal × DSt :=
  (v, ⟨(i, v) :: s.memo, s.heap⟩)

/-- Allocate a fresh object and memoize the slot, returning the value. -/
def DSt.alloc (s : DSt) (i : Nat) (o : JSObj) : JSVal × DSt :=
  (.ref s.heap.length, ⟨(i, .ref s.heap.length) :: s.memo, s.heap ++ [o]⟩)

/-- Allocate a fresh object and memoize the slot, returning the address
(used by composites, which patch the object afterwards). -/
def DSt.allocA (s : DSt) (i : Nat) (o : JSObj) : Nat × DSt :=
  (s.heap.length, ⟨(i, .ref s.heap.length) :: s.memo, s.heap ++ [o]⟩)

/-- Allocate WITHOUT memoizing the slot.  This mirrors the source's
`ArrayBuffer`/`DataView` cases, which call `as(out, value)` instead of
`as(out, index)`: the memo entry is keyed by the payload array, a key
an integer slot lookup can never hit, so the slot stays unmemoized. -/
def DSt.allocStray (s : DSt) (o : JSObj) : JSVal × DSt :=
  (.ref s.heap.length, ⟨s.memo, s.heap ++ [o]⟩)

/-- Overwrite the (already allocated) object at `a` with its final,
populated contents, as the source's in-place mutation does. -/
def DSt.patch (s : DSt) (a : Nat) (o : JSObj) : DSt :=
  ⟨s.memo, s.heap.set a o⟩

/-- `ToPropertyKey` for decoded object keys (`object[unpair(key)] = ...`).
The encoder only ever emits string keys for objects, so only the first
case arises when decoding encoder output; the rest give JavaScript's
coercions in spirit. -/
def propKeyOf : JSVal → String
  | .prim (.str s) => s
  | .prim (.num n) => intToDec n
  | .prim (.bool true) => "true"
  | .prim (.bool false) => "false"
  | .prim .null => "null"
  | .prim .undef => "undefined"
  | .prim (.bigint b) => intToDec b
  | .prim (.func _) => "function"
  | .prim (.symbol _) => "symbol"
  | .ref _ => "object"

/-- JavaScript property assignment `object[key] = value`: overwrite in
place when the key exists, append otherwise. -/
def objAssign : List (String × JSVal) → String → JSVal → List (String × JSVal)
  | [], k, v => [(k, v)]
  | (k0, v0) :: rest, k, v =>
    if k0 = k then (k0, v) :: rest else (k0, v0) :: objAssign rest k v

/-- `Map.prototype.set`: overwrite the value of an existing key
(SameValueZero), append otherwise. -/
def mapAssign : List (JSVal × JSVal) → JSVal → JSVal → List (JSVal × JSVal)
  | [], k, v => [(k, v)]
  | (k0, v0) :: rest, k, v =>
    if k0 = k then (k0, v) :: rest else (k0, v0) :: mapAssign rest k v

/-- Membership in a `Set`'s element list (SameValueZero). -/
def containsVal : List JSVal → JSVal → Bool
  | [], _ => false
  | x :: xs, v => if x = v then true else containsVal xs v

/-- `Set.prototype.add`: no-op on an existing element, append otherwise. -/
def setAdd (l : List JSVal) (v : JSVal) : List JSVal :=
  if containsVal l v then l else l ++ [v]

/-- Decode a list of child slots left to right. -/
def decList (g : Nat → DSt → Except DErr (JSVal × DSt)) :
    List Nat → DSt → Except DErr (List JSVal × DSt)
  | [], s => .ok ([], s)
  | i :: rest, s =>
    match g i s with
    | .error e => .error e
    | .ok (v, s1) =>
      match decList g rest s1 with
      | .error e => .error e
      | .ok (vs, s2) => .ok (v :: vs, s2)

/-- Decode a list of (key slot, value slot) pairs, key first. -/
def decPairs (g : Nat → DSt → Except DErr (JSVal × DSt)) :
    List (Nat × Nat) → DSt → Except DErr (List (JSVal × JSVal) × DSt)
  | [], s => .ok ([], s)
  | (ki, vi) :: rest, s =>
    match g ki s with
    | .error e => .error e
    | .ok (k, s1) =>
      match g vi s1 with
      | .error e => .error e
      | .ok (v, s2) =>
        match decPairs g rest s2 with
        | .error e => .error e
        | .ok (ps, s3) => .ok ((k, v) :: ps, s3)

/-- The deserializer's `unpair`, fuel-driven.  Memo hit first; composite
containers allocate and memoize their empty instance before their
children are resolved; `ArrayBuffer`/`DataView` reproduce the source's
mis-keyed `as(..., value)` registration (see `DSt.allocStray`): a fresh
buffer on every reference.  Decoded `DataView`s span their whole fresh
buffer (`new DataView(buffer)`: offset 0, full length). -/
def unpairF (W : List Record) : Nat → Nat → DSt → Except DErr (JSVal × DSt)
  | 0, _, _ => .error .outOfFuel
  | fuel+1, i, s =>
    match mlookup s.memo i with
    | some v => .ok (v, s)
    | none =>
      match W[i]? with
      | none => .error .badSlot
      | some r =>
        match r with
        | .void => .ok (s.reg i (.prim .undef))
        | .primitive p => .ok (s.reg i (.prim p))
        | .dateRec iso => .ok (s.alloc i (.date iso))
        | .regexpRec src fl => .ok (s.alloc i (.regexp src fl))
        | .errorRec name msg => .ok (s.alloc i (.errObj name msg))
        | .bigintRec str =>
          match parseBigInt str with
          | none => .error .badBigInt
          | some b => .ok (s.reg i (.prim (.bigint b)))
        | .boxedBoolRec b => .ok (s.alloc i (.boxedBool b))
        | .boxedNumRec n => .ok (s.alloc i (.boxedNum n))
        | .boxedStrRec str => .ok (s.alloc i (.boxedStr str))
        | .boxedBigRec str =>
          match parseBigInt str with
          | none => .error .badBigInt
          | some b => .ok (s.alloc i (.boxedBig b))
        | .typedRec tag elems =>
          if tag = "ArrayBuffer" then .ok (s.allocStray (.arrayBuffer elems))
          else if tag = "DataView" then
            .ok (s.allocStray (.dataView elems 0 elems.length))
          else .ok (s.alloc i (.typedArr tag elems))
        | .arrayRec idxs =>
          let (addr, s1) := s.allocA i (.arr [])
          match decList (unpairF W fuel) idxs s1 with
          | .error e => .error e
          | .ok (vs, s2) => .ok (.ref addr, s2.patch addr (.arr vs))
        | .objectRec entries =>
          let (addr, s1) := s.allocA i (.obj [] none)
          match decPairs (unpairF W fuel) entries s1 with
          | .error e => .error e
          | .ok (ps, s2) =>
            .ok (.ref addr, s2.patch addr
              (.obj (ps.foldl (fun acc p => objAssign acc (propKeyOf p.1) p.2) []) none))
        | .mapRec entries =>
          let (addr, s1) := s.allocA i (.mapObj [])
          match decPairs (unpairF W fuel) entries s1 with
          | .error e => .error e
          | .ok (ps, s2) =>
            .ok (.ref addr, s2.patch addr
              (.mapObj (ps.foldl (fun acc p => mapAssign acc p.1 p.2) [])))
        | .setRec idxs =>
          let (addr, s1) := s.allocA i (.setObj [])
          match decList (unpairF W fuel) idxs s1 with
          | .error e => .error e
          | .ok (vs, s2) => .ok (.ref addr, s2.patch addr (.setObj (vs.foldl setAdd [])))

/-- Fuel supplied to the decoder; adequate by the decode adequacy lemma. -/
def decFuel (W : List Record) : Nat := W.length + 2

/-- `deserialize(serialized)`: decode slot 0 from empty memo and heap,
returning the root value and the heap of reconstructed objects. -/
def deserializeW (W : List Record) : Except DErr (JSVal × DSt) :=
  unpairF W (decFuel W) 0 ⟨[], []⟩

/-! ## Deep structural equality, well-formedness, reachability -/

/-- Pointwise comparison of two lists. -/
def all2 {α β : Type} (f : α → β → Bool) : List α → List β → Bool
  | [], [] => true
  | x :: xs, y :: ys => f x y && all2 f xs ys
  | _, _ => false

/-- One level of structural comparison of heap objects, children
compared by `rec2`.  An `obj`'s `toJSONVal` is behavioral (a prototype
method), not data, so it does not participate in structural equality. -/
def deepEqObjF (rec2 : JSVal → JSVal → Bool) : JSObj → JSObj → Bool
  | .arr xs, .arr ys => all2 rec2 xs ys
  | .obj ps _, .obj qs _ =>
      all2 (fun p q => p.1 == q.1 && rec2 p.2 q.2) ps qs
  | .date i1, .date i2 => i1 == i2
  | .regexp s1 f1, .regexp s2 f2 => s1 == s2 && f1 == f2
  | .mapObj es, .mapObj fs =>
      all2 (fun p q => rec2 p.1 q.1 && rec2 p.2 q.2) es fs
  | .setObj xs, .setObj ys => all2 rec2 xs ys
  | .errObj n1 m1, .errObj n2 m2 => n1 == n2 && m1 == m2
  | .boxedBool b1, .boxedBool b2 => b1 == b2
  | .boxedNum n1, .boxedNum n2 => n1 == n2
  | .boxedStr s1, .boxedStr s2 => s1 == s2
  | .boxedBig b1, .boxedBig b2 => b1 == b2
  | .typedArr t1 e1, .typedArr t2 e2 => t1 == t2 && e1 == e2
  | .arrayBuffer b1, .arrayBuffer b2 => b1 == b2
  | .dataView b1 o1 l1, .dataView b2 o2 l2 => b1 == b2 && o1 == o2 && l1 == l2
  | _, _ => false

/-- Deep structural equality between a value of heap `H1` and a value of
heap `H2`, to depth `n` (depth 0 compares nothing).  For possibly-cyclic
graphs, agreement at every finite depth (`DeepEq`) is the structural
equality of the spec. -/
def deepEqValF (H1 H2 : List JSObj) : Nat → JSVal → JSVal → Bool
  | 0, _, _ => true
  | _+1, .prim p, .prim q => p == q
  | n+1, .ref a, .ref b =>
    match H1[a]?, H2[b]? with
    | some o1, some o2 => deepEqObjF (deepEqValF H1 H2 n) o1 o2
    | _, _ => false
  | _+1, _, _ => false

/-- Deep structural equality: agreement at every finite depth. -/
def DeepEq (H1 : List JSObj) (v1 : JSVal) (H2 : List JSObj) (v2 : JSVal) : Prop :=
  ∀ n, deepEqValF H1 H2 n v1 v2 = true

/-- Does the value stay inside a heap of `hlen` objects? -/
def valOKb (hlen : Nat) : JSVal → Bool
  | .ref a => a < hlen
  | .prim _ => true

/-- No duplicates, by the given equality test. -/
def nodupB {α : Type} (eqb : α → α → Bool) : List α → Bool
  | [] => true
  | x :: xs => !(xs.any (eqb x)) && nodupB eqb xs

/-- Well-formedness of one heap object: children in range, and the key
sets JavaScript guarantees distinct (object property names, `Map` keys,
`Set` elements) are duplicate-free. -/
def objOKb (hlen : Nat) : JSObj → Bool
  | .arr es => es.all (valOKb hlen)
  | .obj ps tj =>
      ps.all (fun p => valOKb hlen p.2) &&
      nodupB (fun a b => a == b) (ps.map Prod.fst) &&
      (match tj with
       | none => true
       | some r => valOKb hlen r)
  | .mapObj es =>
      es.all (fun p => valOKb hlen p.1 && valOKb hlen p.2) &&
      nodupB (fun a b => a == b) (es.map Prod.fst)
  | .setObj es => es.all (valOKb hlen) && nodupB (fun a b => a == b) es
  | _ => true

/-- Well-formed heap: every object is well-formed for the heap's size. -/
def heapWFb (H : List JSObj) : Bool := H.all (objOKb H.length)

/-- Is this primitive a function or symbol? -/
def primFnSym : JSPrim → Bool
  | .func _ => true
  | .symbol _ => true
  | _ => false

/-- The value is not a function/symbol primitive. -/
def valFnFree : JSVal → Bool
  | .prim p => !primFnSym p
  | .ref _ => true

/-- No function/symbol child anywhere in the object. -/
def objFnFree : JSObj → Bool
  | .arr es => es.all valFnFree
  | .obj ps _ => ps.all (fun p => valFnFree p.2)
  | .mapObj es => es.all (fun p => valFnFree p.1 && valFnFree p.2)
  | .setObj es => es.all valFnFree
  | _ => true

/-- No function/symbol value stored anywhere in the heap. -/
def heapFnFree (H : List JSObj) : Bool := H.all objFnFree

/-- No plain object of the heap implements `toJSON` (vacuously true in
strict mode, where the `toJSON` branch is dead). -/
def objNoToJSON : JSObj → Bool
  | .obj _ (some _) => false
  | _ => true

/-- Does the `DataView` span its whole underlying buffer? -/
def dvFullWindow : JSObj → Bool
  | .dataView bytes off len => off == 0 && len == bytes.length
  | _ => true

/-- Every `DataView` of the heap spans its whole buffer. -/
def heapDVFull (H : List JSObj) : Bool := H.all dvFullWindow

/-- The child values the strict-mode encoder visits: array elements,
object property keys (as strings) and values, `Map` keys and values,
`Set` elements.  Leaf kinds have none. -/
def childVals : JSObj → List JSVal
  | .arr es => es
  | .obj ps _ => ps.foldr (fun p acc => .prim (.str p.1) :: p.2 :: acc) []
  | .mapObj es => es.foldr (fun p acc => p.1 :: p.2 :: acc) []
  | .setObj es => es
  | _ => []

/-- Reachability along the edges the encoder traverses. -/
inductive Reaches (H : List JSObj) : JSVal → JSVal → Prop
  | refl (v : JSVal) : Reaches H v v
  | step {a : Nat} {o : JSObj} {w u : JSVal} :
      H[a]? = some o → w ∈ childVals o → Reaches H w u → Reaches H (.ref a) u

/-! ## C8: exact bigint round-trip through the decimal string payload -/

/-- C8: for every bigint `b`, the serializer emits a single BIGINT-tagged
record whose payload is the decimal rendering `b.toString()`, and
deserializing it returns exactly `b` (`decode(encode(10n)) === 10n` at
arbitrary precision). -/
theorem bigint_roundtrip_exact (b : Int) :
    serialize [] (.prim (.bigint b)) false false
      = .ok [.bigintRec (intToDec b)] ∧
    deserializeW [.bigintRec (intToDec b)]
      = .ok (.prim (.bigint b), ⟨[(0, .prim (.bigint b))], []⟩) := by
  constructor
  · rfl
  · simp [deserializeW, decFuel, unpairF, mlookup, DSt.reg, parseBigInt_intToDec b]

/-! ## C9: DataView/ArrayBuffer wire format -/

/-- C9: a `DataView` is encoded as a record tagged `"DataView"` whose
payload is the byte list of the entire underlying buffer — the same for
every view window `(off, len)` — and decoding yields a `DataView` over a
fresh buffer holding exactly those bytes (offset 0, full length).  An
`ArrayBuffer` is likewise encoded as its full byte list and decoded to a
fresh buffer with the same bytes. -/
theorem dataView_arrayBuffer_bytes (bytes : List Int) (off len : Nat) :
    serialize [.dataView bytes off len] (.ref 0) false false
      = .ok [.typedRec "DataView" bytes] ∧
    deserializeW [.typedRec "DataView" bytes]
      = .ok (.ref 0, ⟨[], [.dataView bytes 0 bytes.length]⟩) ∧
    serialize [.arrayBuffer bytes] (.ref 0) false false
      = .ok [.typedRec "ArrayBuffer" bytes] ∧
    deserializeW [.typedRec "ArrayBuffer" bytes]
      = .ok (.ref 0, ⟨[], [.arrayBuffer bytes]⟩) := by
  refine ⟨rfl, ?_, rfl, ?_⟩
  · simp [deserializeW, decFuel, unpairF, mlookup, DSt.allocStray]
  · simp [deserializeW, decFuel, unpairF, mlookup, DSt.allocStray]

/-! ## C6: `toJSON` collapse applies to plain objects only -/

/-- A sample ISO rendering (what `Date.prototype.toJSON` returns). -/
def isoEx : String := "2020-01-01T00:00:00.000Z"

/-- C6 counterexample: with `json: true`, a `Date` — which implements
`toJSON`, returning its ISO string — is NOT collapsed: the emitted
record is the DATE record of the original value, which differs from the
record that encoding `value.toJSON()` (the ISO string primitive) emits.
The DATE branch of `pair` runs before the `toJSON` check is ever
reached. -/
theorem date_not_collapsed_in_json_mode :
    serialize [.date isoEx] (.ref 0) true false = .ok [.dateRec isoEx] ∧
    serialize [] (.prim (.str isoEx)) true false
      = .ok [.primitive (.str isoEx)] ∧
    Record.dateRec isoEx ≠ Record.primitive (.str isoEx) := by
  refine ⟨rfl, rfl, by decide⟩

/-- C6 as amended: the `toJSON` collapse happens exactly for values
classified as plain objects (the OBJECT branch): for such a value the
emitted encoding is that of `value.toJSON()`, while specially-classified
kinds (e.g. `Date`) are encoded by their own branch even in `json`
mode. -/
theorem toJSON_collapse_plain_object (strict : Bool) (H : List JSObj)
    (fuel : Nat) (a : Nat) (props : List (String × JSVal)) (r : JSVal)
    (s : SSt) (hobj : H[a]? = some (.obj props (some r)))
    (hmemo : alookup s.idmap (.ref a) = none) :
    pairF strict true H (fuel+1) (.ref a) s = pairF strict true H fuel r s
      ∧ ∀ iso : String,
        serialize [.date iso] (.ref 0) true false = .ok [.dateRec iso] := by
  constructor
  · simp [pairF, hmemo, hobj]
  · intro iso; rfl

/-- Witness for `toJSON_collapse_plain_object` at a concrete object
whose `toJSON` returns the number 7. -/
theorem toJSON_collapse_plain_object_witness :
    ((([.obj [] (some (.prim (.num 7)))] : List JSObj)[0]?
        = some (.obj [] (some (.prim (.num 7))))) ∧
      alookup (SSt.mk [] []).idmap (.ref 0) = none) ∧
    (pairF false true [.obj [] (some (.prim (.num 7)))] 2 (.ref 0) ⟨[], []⟩
        = pairF false true [.obj [] (some (.prim (.num 7)))] 1
            (.prim (.num 7)) ⟨[], []⟩
      ∧ ∀ iso : String,
        serialize [.date iso] (.ref 0) true false = .ok [.dateRec iso]) :=
  ⟨⟨rfl, rfl⟩,
    toJSON_collapse_plain_object false [.obj [] (some (.prim (.num 7)))]
      1 0 [] (.prim (.num 7)) ⟨[], []⟩ rfl rfl⟩

/-! ## C10: the `Object.fromEntries` polyfill -/

/-- An iterator value consumed by the `Object.fromEntries` polyfill:
either a non-object (for which `Object(entry) !== entry`, so the
polyfill throws), or an entry object whose `entry[0]` is the key and
`entry[1]` the value. -/
inductive FEntry where
  | primEntry (p : JSPrim)
  | entry (k : JSVal) (v : JSVal)
deriving DecidableEq, Repr

/-- The polyfill's only error: a malformed (non-object) iterator value,
surfaced as a `TypeError`. -/
inductive FromEntriesErr where
  | notAnEntry
deriving DecidableEq, Repr

/-- The `reduce` body: check the entry is an object, then assign
`obj[entry[0]] = entry[1]` (property-key coercion via `propKeyOf`). -/
def fromEntriesAux (acc : List (String × JSVal)) :
    List FEntry → Except FromEntriesErr (List (String × JSVal))
  | [] => .ok acc
  | .primEntry _ :: _ => .error .notAnEntry
  | .entry k v :: rest => fromEntriesAux (objAssign acc (propKeyOf k) v) rest

/-- The `Object.fromEntries` polyfill: reduce over the iterable with an
empty accumulator object. -/
def fromEntries (l : List FEntry) : Except FromEntriesErr (List (String × JSVal)) :=
  fromEntriesAux [] l

/-- Keys already present in a property list. -/
def objKeys (ps : List (String × JSVal)) : List String := ps.map Prod.fst

theorem objAssign_fresh {ps : List (String × JSVal)} {k : String} {v : JSVal}
    (h : k ∉ objKeys ps) : objAssign ps k v = ps ++ [(k, v)] := by
  induction ps with
  | nil => rfl
  | cons hd tl ih =>
    simp only [objKeys, List.map_cons, List.mem_cons] at h
    push_neg at h
    simp only [objAssign]
    rw [if_neg (fun hc => h.1 hc.symm), ih h.2]
    rfl

theorem fromEntriesAux_error {l : List FEntry} (acc : List (String × JSVal))
    (h : ∃ p, FEntry.primEntry p ∈ l) :
    fromEntriesAux acc l = .error .notAnEntry := by
  induction l generalizing acc with
  | nil => rcases h with ⟨p, hp⟩; cases hp
  | cons hd tl ih =>
    cases hd with
    | primEntry p => rfl
    | entry k v =>
      rcases h with ⟨p, hp⟩
      rcases List.mem_cons.mp hp with hc | hm
      · cases hc
      · exact ih _ ⟨p, hm⟩

theorem fromEntriesAux_wellFormed (entries : List (JSVal × JSVal))
    (acc : List (String × JSVal))
    (hnodup : (objKeys acc ++ entries.map (fun e => propKeyOf e.1)).Nodup) :
    fromEntriesAux acc (entries.map (fun e => FEntry.entry e.1 e.2))
      = .ok (acc ++ entries.map (fun e => (propKeyOf e.1, e.2))) := by
  induction entries generalizing acc with
  | nil => simp [fromEntriesAux]
  | cons hd tl ih =>
    simp only [List.map_cons, fromEntriesAux]
    have hfresh : propKeyOf hd.1 ∉ objKeys acc := by
      intro hmem
      have := List.Nodup.not_mem
        ((List.nodup_append.mp hnodup).2.1)
        (a := propKeyOf hd.1)
      have hdis := (List.nodup_append.mp hnodup).2.2
      exact absurd (List.mem_cons_self _ _)
        (hdis hmem)
    rw [objAssign_fresh hfresh]
    have hnodup' : (objKeys (acc ++ [(propKeyOf hd.1, hd.2)])
        ++ tl.map (fun e => propKeyOf e.1)).Nodup := by
      have : objKeys (acc ++ [(propKeyOf hd.1, hd.2)])
          = objKeys acc ++ [propKeyOf hd.1] := by
        simp [objKeys]
      rw [this, List.append_assoc]
      simpa using hnodup
    rw [ih _ hnodup']
    simp

/-- C10: the `Object.fromEntries` polyfill throws a `TypeError` whenever
the iterable contains a non-object iterator value, and on a list of
proper `[key, value]` entry objects (with distinct coerced keys, as a
`Map`'s entry list yields) it returns the object mapping each key to
its paired value, in order. -/
theorem fromEntries_spec (l : List FEntry) (entries : List (JSVal × JSVal)) :
    ((∃ p, FEntry.primEntry p ∈ l) → fromEntries l = .error .notAnEntry) ∧
    ((entries.map (fun e => propKeyOf e.1)).Nodup →
      fromEntries (entries.map (fun e => FEntry.entry e.1 e.2))
        = .ok (entries.map (fun e => (propKeyOf e.1, e.2)))) := by
  constructor
  · intro h
    exact fromEntriesAux_error [] h
  · intro h
    have := fromEntriesAux_wellFormed entries [] (by simpa [objKeys] using h)
    simpa [fromEntries] using this

/-- Witness for `fromEntries_spec`: a list containing the primitive
`null` makes the polyfill throw, and the proper entry list
`[["a", 1], ["b", 2]]` builds the expected object. -/
theorem fromEntries_spec_witness :
    fromEntries [FEntry.entry (.prim (.str "x")) (.prim (.num 1)),
        FEntry.primEntry .null] = .error .notAnEntry ∧
    fromEntries ([((.prim (.str "a") : JSVal), (.prim (.num 1) : JSVal)),
        ((.prim (.str "b") : JSVal), (.prim (.num 2) : JSVal))].map
          (fun e => FEntry.entry e.1 e.2))
      = .ok ([((.prim (.str "a") : JSVal), (.prim (.num 1) : JSVal)),
        ((.prim (.str "b") : JSVal), (.prim (.num 2) : JSVal))].map
          (fun e => (propKeyOf e.1, e.2))) :=
  ⟨(fromEntries_spec [FEntry.entry (.prim (.str "x")) (.prim (.num 1)),
        FEntry.primEntry .null] []).1 ⟨.null, by decide⟩,
   (fromEntries_spec []
      [((.prim (.str "a") : JSVal), (.prim (.num 1) : JSVal)),
        ((.prim (.str "b") : JSVal), (.prim (.num 2) : JSVal))]).2
      (by decide)⟩

/-! ## JSON text transport (`stringify`/`parse`)

The source composes `JSON.stringify`/`JSON.parse` with the codec in
relaxed `json`+`lossy` mode.  The wire sequence is plain JSON data
(nested arrays, numbers, strings, two small objects), modelled by the
`Json` type below with a printer mirroring `JSON.stringify`'s compact
output and a parser for it. -/

mutual
/-- A JSON value (numbers restricted to integers: every number the wire
format contains is an integer tag, slot id, element or integral payload
in the claims' scope). -/
inductive Json where
  | jnull
  | jbool (b : Bool)
  | jnum (n : Int)
  | jstr (s : String)
  | jarr (items : JsonList)
  | jobj (fields : JsonFields)

/-- A list of JSON values (mutual with `Json` to keep recursion
structural). -/
inductive JsonList where
  | nil
  | cons (hd : Json) (tl : JsonList)

/-- The fields of a JSON object, in order. -/
inductive JsonFields where
  | nil
  | cons (k : String) (v : Json) (tl : JsonFields)
end

/-- Embed an ordinary list of JSON values. -/
def JsonList.ofList : List Json → JsonList
  | [] => .nil
  | x :: xs => .cons x (JsonList.ofList xs)

/-- `JSON.stringify` string escaping (the escapes our payloads can
need; other control characters do not occur in the wire strings). -/
def escapeChar (c : Char) : List Char :=
  if c = '"' then ['\\', '"']
  else if c = '\\' then ['\\', '\\']
  else if c = '\n' then ['\\', 'n']
  else if c = '\r' then ['\\', 'r']
  else if c = '\t' then ['\\', 't']
  else [c]

/-- Print a JSON string literal with quotes and escapes. -/
def printJStr (s : String) : String :=
  "\"" ++ ⟨s.data.foldr (fun c acc => escapeChar c ++ acc) []⟩ ++ "\""

mutual
/-- `JSON.stringify` (compact form, as called with one argument). -/
def printJson : Json → String
  | .jnull => "null"
  | .jbool true => "true"
  | .jbool false => "false"
  | .jnum n => intToDec n
  | .jstr s => printJStr s
  | .jarr items => "[" ++ printJsonList items ++ "]"
  | .jobj fields => "\x7b" ++ printJsonFields fields ++ "\x7d"

/-- Comma-separated array items. -/
def printJsonList : JsonList → String
  | .nil => ""
  | .cons x .nil => printJson x
  | .cons x (.cons y tl) => printJson x ++ "," ++ printJsonList (.cons y tl)

/-- Comma-separated `"key":value` fields. -/
def printJsonFields : JsonFields → String
  | .nil => ""
  | .cons k v .nil => printJStr k ++ ":" ++ printJson v
  | .cons k v (.cons k2 v2 tl) =>
    printJStr k ++ ":" ++ printJson v ++ "," ++ printJsonFields (.cons k2 v2 tl)
end

/-- Skip JSON whitespace. -/
def skipWs : List Char → List Char
  | c :: rest =>
    if c = ' ' || c = '\n' || c = '\t' || c = '\r' then skipWs rest
    else c :: rest
  | [] => []

/-- Parse a string body up to the closing quote, decoding escapes. -/
def parseJStrBody : Nat → List Char → Option (List Char × List Char)
  | 0, _ => none
  | _+1, [] => none
  | fuel+1, c :: rest =>
    if c = '"' then some ([], rest)
    else if c = '\\' then
      match rest with
      | [] => none
      | e :: rest2 =>
        let dec :=
          if e = 'n' then some '\n'
          else if e = 't' then some '\t'
          else if e = 'r' then some '\r'
          else if e = '"' then some '"'
          else if e = '\\' then some '\\'
          else if e = '/' then some '/'
          else none
        match dec with
        | none => none
        | some ch =>
          match parseJStrBody fuel rest2 with
          | none => none
          | some (cs, rem) => some (ch :: cs, rem)
    else
      match parseJStrBody fuel rest with
      | none => none
      | some (cs, rem) => some (c :: cs, rem)

/-- Take a maximal run of decimal digits. -/
def takeDigits : List Char → (List Char × List Char)
  | [] => ([], [])
  | c :: rest =>
    if isDigitC c then
      let (ds, rem) := takeDigits rest
      (c :: ds, rem)
    else ([], c :: rest)

/-- Parse a JSON integer (optional minus sign, digit run). -/
def parseJNum : List Char → Option (Int × List Char)
  | '-' :: rest =>
    let (ds, rem) := takeDigits rest
    if ds.isEmpty then none else some (-(decValue ds.reverse : Int), rem)
  | cs =>
    let (ds, rem) := takeDigits cs
    if ds.isEmpty then none else some ((decValue ds.reverse : Int), rem)

mutual
/-- Parse one JSON value (fuel-driven recursive descent). -/
def parseJVal : Nat → List Char → Option (Json × List Char)
  | 0, _ => none
  | fuel+1, cs =>
    match skipWs cs with
    | [] => none
    | c :: rest =>
      if c = 'n' then
        match rest with
        | 'u' :: 'l' :: 'l' :: rem => some (.jnull, rem)
        | _ => none
      else if c = 't' then
        match rest with
        | 'r' :: 'u' :: 'e' :: rem => some (.jbool true, rem)
        | _ => none
      else if c = 'f' then
        match rest with
        | 'a' :: 'l' :: 's' :: 'e' :: rem => some (.jbool false, rem)
        | _ => none
      else if c = '"' then
        match parseJStrBody (rest.length + 1) rest with
        | none => none
        | some (content, rem) => some (.jstr ⟨content⟩, rem)
      else if c = '[' then
        match skipWs rest with
        | ']' :: rem => some (.jarr .nil, rem)
        | cs2 =>
          match parseJVal fuel cs2 with
          | none => none
          | some (v, rem) =>
            match parseJArrTail fuel rem with
            | none => none
            | some (items, rem2) => some (.jarr (.cons v items), rem2)
      else if c.toNat = 123 then
        match skipWs rest with
        | [] => none
        | c2 :: rem2 =>
          if c2.toNat = 125 then some (.jobj .nil, rem2)
          else
            match parseJField fuel (c2 :: rem2) with
            | none => none
            | some (k, v, rem3) =>
              match parseJObjTail fuel rem3 with
              | none => none
              | some (fs, rem4) => some (.jobj (.cons k v fs), rem4)
      else
        match parseJNum (c :: rest) with
        | none => none
        | some (n, rem) => some (.jnum n, rem)

/-- Parse the remaining array items (`,` separated, `]` terminated). -/
def parseJArrTail : Nat → List Char → Option (JsonList × List Char)
  | 0, _ => none
  | fuel+1, cs =>
    match skipWs cs with
    | ']' :: rem => some (.nil, rem)
    | ',' :: rem =>
      match parseJVal fuel rem with
      | none => none
      | some (v, rem2) =>
        match parseJArrTail fuel rem2 with
        | none => none
        | some (items, rem3) => some (.cons v items, rem3)
    | _ => none

/-- Parse one `"key":value` field. -/
def parseJField : Nat → List Char → Option (String × Json × List Char)
  | 0, _ => none
  | fuel+1, cs =>
    match skipWs cs with
    | '"' :: rest =>
      match parseJStrBody (rest.length + 1) rest with
      | none => none
      | some (content, rem) =>
        match skipWs rem with
        | ':' :: rem2 =>
          match parseJVal fuel rem2 with
          | none => none
          | some (v, rem3) => some (⟨content⟩, v, rem3)
        | _ => none
    | _ => none

/-- Parse the remaining object fields. -/
def parseJObjTail : Nat → List Char → Option (JsonFields × List Char)
  | 0, _ => none
  | fuel+1, cs =>
    match skipWs cs with
    | [] => none
    | c :: rem =>
      if c.toNat = 125 then some (.nil, rem)
      else if c = ',' then
        match parseJField fuel rem with
        | none => none
        | some (k, v, rem2) =>
          match parseJObjTail fuel rem2 with
          | none => none
          | some (fs, rem3) => some (.cons k v fs, rem3)
      else none
end

/-- `JSON.parse`: one value consuming the whole input. -/
def parseJson (s : String) : Option Json :=
  match parseJVal (s.length + 1) s.data with
  | some (j, rem) => if (skipWs rem).isEmpty then some j else none
  | none => none

/-- How `JSON.stringify` renders wire-record primitive payloads
(`undefined` inside an array becomes `null`; bigint/function/symbol
payloads never occur in emitted records). -/
def primToJson : JSPrim → Json
  | .null => .jnull
  | .bool b => .jbool b
  | .num n => .jnum n
  | .str s => .jstr s
  | .undef => .jnull
  | .bigint _ => .jnull
  | .func _ => .jnull
  | .symbol _ => .jnull

/-- The JSON shape of one wire record (`[tag, payload]`, with the
payload shapes of the source: index lists, index-pair lists,
`{source, flags}` and `{name, message}` objects, strings, scalars). -/
def recordToJson : Record → Json
  | .void => .jarr (.ofList [.jnum (-1)])
  | .primitive p => .jarr (.ofList [.jnum 0, primToJson p])
  | .arrayRec idxs =>
    .jarr (.ofList [.jnum 1, .jarr (.ofList (idxs.map (fun i => .jnum i)))])
  | .objectRec entries =>
    .jarr (.ofList [.jnum 2, .jarr (.ofList (entries.map
      (fun e => .jarr (.ofList [.jnum e.1, .jnum e.2]))))])
  | .dateRec iso => .jarr (.ofList [.jnum 3, .jstr iso])
  | .regexpRec src fl =>
    .jarr (.ofList [.jnum 4,
      .jobj (.cons "source" (.jstr src) (.cons "flags" (.jstr fl) .nil))])
  | .mapRec entries =>
    .jarr (.ofList [.jnum 5, .jarr (.ofList (entries.map
      (fun e => .jarr (.ofList [.jnum e.1, .jnum e.2]))))])
  | .setRec idxs =>
    .jarr (.ofList [.jnum 6, .jarr (.ofList (idxs.map (fun i => .jnum i)))])
  | .errorRec n m =>
    .jarr (.ofList [.jnum 7,
      .jobj (.cons "name" (.jstr n) (.cons "message" (.jstr m) .nil))])
  | .bigintRec s => .jarr (.ofList [.jnum 8, .jstr s])
  | .typedRec tag elems =>
    .jarr (.ofList [.jstr tag, .jarr (.ofList (elems.map (fun i => .jnum i)))])
  | .boxedBoolRec b => .jarr (.ofList [.jstr "Boolean", .jbool b])
  | .boxedNumRec n => .jarr (.ofList [.jstr "Number", .jnum n])
  | .boxedStrRec s => .jarr (.ofList [.jstr "String", .jstr s])
  | .boxedBigRec s => .jarr (.ofList [.jstr "BigInt", .jstr s])

/-- The whole wire sequence as JSON data. -/
def wireToJson (W : List Record) : Json := .jarr (.ofList (W.map recordToJson))

/-- Read an index list back from parsed JSON. -/
def jsonNats : JsonList → Option (List Nat)
  | .nil => some []
  | .cons (.jnum n) tl =>
    if n < 0 then none else (jsonNats tl).map (fun l => n.toNat :: l)
  | .cons _ _ => none

/-- Read an element list back from parsed JSON. -/
def jsonInts : JsonList → Option (List Int)
  | .nil => some []
  | .cons (.jnum n) tl => (jsonInts tl).map (fun l => n :: l)
  | .cons _ _ => none

/-- Read an index-pair list back from parsed JSON. -/
def jsonNatPairs : JsonList → Option (List (Nat × Nat))
  | .nil => some []
  | .cons (.jarr (.cons (.jnum a) (.cons (.jnum b) .nil))) tl =>
    if a < 0 || b < 0 then none
    else (jsonNatPairs tl).map (fun l => (a.toNat, b.toNat) :: l)
  | .cons _ _ => none

/-- Rebuild one wire record from its parsed JSON shape (how the
deserializer destructures `const [type, value] = _[index]` after
`JSON.parse`). -/
def jsonToRecord (j : Json) : Option Record :=
  match j with
  | .jarr (.cons (.jnum n) .nil) => if n = -1 then some .void else none
  | .jarr (.cons tag (.cons payload .nil)) =>
    match tag with
    | .jnum t =>
      if t = 0 then
        match payload with
        | .jnull => some (.primitive .null)
        | .jbool b => some (.primitive (.bool b))
        | .jnum n => some (.primitive (.num n))
        | .jstr s => some (.primitive (.str s))
        | _ => none
      else if t = 1 then
        match payload with
        | .jarr items => (jsonNats items).map (fun l => Record.arrayRec l)
        | _ => none
      else if t = 2 then
        match payload with
        | .jarr items => (jsonNatPairs items).map (fun l => Record.objectRec l)
        | _ => none
      else if t = 3 then
        match payload with
        | .jstr s => some (.dateRec s)
        | _ => none
      else if t = 4 then
        match payload with
        | .jobj (.cons "source" (.jstr src) (.cons "flags" (.jstr fl) .nil)) =>
          some (.regexpRec src fl)
        | _ => none
      else if t = 5 then
        match payload with
        | .jarr items => (jsonNatPairs items).map (fun l => Record.mapRec l)
        | _ => none
      else if t = 6 then
        match payload with
        | .jarr items => (jsonNats items).map (fun l => Record.setRec l)
        | _ => none
      else if t = 7 then
        match payload with
        | .jobj (.cons "name" (.jstr n) (.cons "message" (.jstr m) .nil)) =>
          some (.errorRec n m)
        | _ => none
      else if t = 8 then
        match payload with
        | .jstr s => some (.bigintRec s)
        | _ => none
      else none
    | .jstr tname =>
      if tname = "Boolean" then
        match payload with
        | .jbool b => some (.boxedBoolRec b)
        | _ => none
      else if tname = "Number" then
        match payload with
        | .jnum n => some (.boxedNumRec n)
        | _ => none
      else if tname = "String" then
        match payload with
        | .jstr s => some (.boxedStrRec s)
        | _ => none
      else if tname = "BigInt" then
        match payload with
        | .jstr s => some (.boxedBigRec s)
        | _ => none
      else
        match payload with
        | .jarr items => (jsonInts items).map (fun l => Record.typedRec tname l)
        | _ => none
    | _ => none
  | _ => none

/-- Rebuild the wire sequence from parsed JSON. -/
def jsonToWireAux : JsonList → Option (List Record)
  | .nil => some []
  | .cons j tl =>
    match jsonToRecord j with
    | none => none
    | some r => (jsonToWireAux tl).map (fun l => r :: l)

/-- Rebuild the wire sequence from a parsed JSON document. -/
def jsonToWire : Json → Option (List Record)
  | .jarr items => jsonToWireAux items
  | _ => none

/-- The source's `stringify`: serialize with the fixed relaxed options
`{json: true, lossy: true}`, then `JSON.stringify` the wire sequence. -/
def stringifyJS (H : List JSObj) (v : JSVal) : Except SErr String :=
  (serialize H v true true).map (fun W => printJson (wireToJson W))

/-- The source's `parse`: `JSON.parse`, then deserialize slot 0. -/
def parseJS (str : String) : Option (JSVal × DSt) :=
  match parseJson str with
  | none => none
  | some j =>
    match jsonToWire j with
    | none => none
    | some W =>
      match deserializeW W with
      | .error _ => none
      | .ok res => some res

/-! ## Relaxed mode never raises TypeNotSerializable -/

theorem encList_ne_error {f : JSVal → SSt → Except SErr (Nat × SSt)} {e : SErr}
    (hf : ∀ v s, f v s ≠ .error e) :
    ∀ (l : List JSVal) (s : SSt), encList f l s ≠ .error e := by
  intro l
  induction l with
  | nil => intro s h; simp [encList] at h
  | cons hd tl ih =>
    intro s h
    rw [encList] at h
    cases hf1 : f hd s with
    | error e1 =>
      simp only [hf1] at h
      injection h with h2
      subst h2
      exact hf hd s hf1
    | ok p =>
      obtain ⟨i, s1⟩ := p
      simp only [hf1] at h
      cases hl : encList f tl s1 with
      | error e2 =>
        simp only [hl] at h
        injection h with h2
        subst h2
        exact ih s1 hl
      | ok q =>
        simp only [hl] at h
        exact Except.noConfusion h

theorem encElems_ne_error {strict : Bool}
    {f : JSVal → SSt → Except SErr (Nat × SSt)} {e : SErr}
    (hf : ∀ v s, f v s ≠ .error e) :
    ∀ (l : List JSVal) (s : SSt), encElems strict f l s ≠ .error e := by
  intro l
  induction l with
  | nil => intro s h; simp [encElems] at h
  | cons hd tl ih =>
    intro s h
    rw [encElems] at h
    cases hc : (strict || !shouldSkip hd) with
    | false =>
      simp only [hc, Bool.false_eq_true, if_false] at h
      exact ih s h
    | true =>
      simp only [hc, if_true] at h
      cases hf1 : f hd s with
      | error e1 =>
        simp only [hf1] at h
        injection h with h2; subst h2
        exact hf hd s hf1
      | ok p =>
        obtain ⟨i, s1⟩ := p
        simp only [hf1] at h
        cases hl : encElems strict f tl s1 with
        | error e2 =>
          simp only [hl] at h
          injection h with h2; subst h2
          exact ih s1 hl
        | ok q =>
          simp only [hl] at h
          exact Except.noConfusion h

theorem encProps_ne_error {strict : Bool}
    {f : JSVal → SSt → Except SErr (Nat × SSt)} {e : SErr}
    (hf : ∀ v s, f v s ≠ .error e) :
    ∀ (l : List (String × JSVal)) (s : SSt), encProps strict f l s ≠ .error e := by
  intro l
  induction l with
  | nil => intro s h; simp [encProps] at h
  | cons hd tl ih =>
    obtain ⟨k, v⟩ := hd
    intro s h
    rw [encProps] at h
    cases hc : (strict || !shouldSkip v) with
    | false =>
      simp only [hc, Bool.false_eq_true, if_false] at h
      exact ih s h
    | true =>
      simp only [hc, if_true] at h
      cases hf1 : f (.prim (.str k)) s with
      | error e1 =>
        simp only [hf1] at h
        injection h with h2; subst h2
        exact hf _ s hf1
      | ok p =>
        obtain ⟨ki, s1⟩ := p
        simp only [hf1] at h
        cases hf2 : f v s1 with
        | error e2 =>
          simp only [hf2] at h
          injection h with h2; subst h2
          exact hf _ s1 hf2
        | ok q =>
          obtain ⟨vi, s2⟩ := q
          simp only [hf2] at h
          cases hl : encProps strict f tl s2 with
          | error e3 =>
            simp only [hl] at h
            injection h with h2; subst h2
            exact ih s2 hl
          | ok r =>
            simp only [hl] at h
            exact Except.noConfusion h

theorem encEntries_ne_error {strict : Bool}
    {f : JSVal → SSt → Except SErr (Nat × SSt)} {e : SErr}
    (hf : ∀ v s, f v s ≠ .error e) :
    ∀ (l : List (JSVal × JSVal)) (s : SSt), encEntries strict f l s ≠ .error e := by
  intro l
  induction l with
  | nil => intro s h; simp [encEntries] at h
  | cons hd tl ih =>
    obtain ⟨k, v⟩ := hd
    intro s h
    rw [encEntries] at h
    cases hc : (strict || !(shouldSkip k || shouldSkip v)) with
    | false =>
      simp only [hc, Bool.false_eq_true, if_false] at h
      exact ih s h
    | true =>
      simp only [hc, if_true] at h
      cases hf1 : f k s with
      | error e1 =>
        simp only [hf1] at h
        injection h with h2; subst h2
        exact hf _ s hf1
      | ok p =>
        obtain ⟨ki, s1⟩ := p
        simp only [hf1] at h
        cases hf2 : f v s1 with
        | error e2 =>
          simp only [hf2] at h
          injection h with h2; subst h2
          exact hf _ s1 hf2
        | ok q =>
          obtain ⟨vi, s2⟩ := q
          simp only [hf2] at h
          cases hl : encEntries strict f tl s2 with
          | error e3 =>
            simp only [hl] at h
            injection h with h2; subst h2
            exact ih s2 hl
          | ok r =>
            simp only [hl] at h
            exact Except.noConfusion h

/-- With `strict = false` (any `json`/`lossy` combination other than the
default), `pair` never raises TypeNotSerializable: the only `throw` in
the source is behind the `strict` guard. -/
theorem pairF_ne_tns (json : Bool) (H : List JSObj) :
    ∀ (fuel : Nat) (v : JSVal) (s : SSt),
      pairF false json H fuel v s ≠ .error .typeNotSerializable := by
  intro fuel
  induction fuel with
  | zero => intro v s h; simp [pairF] at h
  | succ fuel ih =>
    intro v s h
    cases v with
    | prim p =>
      cases hm : alookup s.idmap (JSVal.prim p) with
      | some i =>
        cases p <;> simp only [pairF, hm] at h <;> exact Except.noConfusion h
      | none =>
        cases p <;> simp only [pairF, hm] at h <;> simp_all
    | ref a =>
      simp only [pairF] at h
      cases hm : alookup s.idmap (JSVal.ref a) with
      | some i => simp only [hm] at h; exact Except.noConfusion h
      | none =>
        simp only [hm] at h
        cases hO : H[a]? with
        | none =>
          simp only [hO] at h
          injection h with h2; exact SErr.noConfusion h2
        | some o =>
          simp only [hO] at h
          cases o with
          | arr elems =>
            simp only [SSt.push] at h
            cases hl : encList (pairF false json H fuel) elems
                ⟨(JSVal.ref a, s.out.length) :: s.idmap, s.out ++ [.arrayRec []]⟩ with
            | error e =>
              simp only [hl] at h
              injection h with h2; subst h2
              exact encList_ne_error (fun v s => ih v s) _ _ hl
            | ok q =>
              simp only [hl] at h
              exact Except.noConfusion h
          | obj props tj =>
            cases json with
            | false =>
              simp only [SSt.push] at h
              cases hl : encProps false (pairF false false H fuel) props
                  ⟨(JSVal.ref a, s.out.length) :: s.idmap, s.out ++ [.objectRec []]⟩ with
              | error e =>
                simp only [hl] at h
                injection h with h2; subst h2
                exact encProps_ne_error (fun v s => ih v s) _ _ hl
              | ok q =>
                simp only [hl] at h
                exact Except.noConfusion h
            | true =>
              cases tj with
              | some r =>
                exact ih r s h
              | none =>
                simp only [SSt.push] at h
                cases hl : encProps false (pairF false true H fuel) props
                    ⟨(JSVal.ref a, s.out.length) :: s.idmap, s.out ++ [.objectRec []]⟩ with
                | error e =>
                  simp only [hl] at h
                  injection h with h2; subst h2
                  exact encProps_ne_error (fun v s => ih v s) _ _ hl
                | ok q =>
                  simp only [hl] at h
                  exact Except.noConfusion h
          | mapObj entries =>
            simp only [SSt.push] at h
            cases hl : encEntries false (pairF false json H fuel) entries
                ⟨(JSVal.ref a, s.out.length) :: s.idmap, s.out ++ [.mapRec []]⟩ with
            | error e =>
              simp only [hl] at h
              injection h with h2; subst h2
              exact encEntries_ne_error (fun v s => ih v s) _ _ hl
            | ok q =>
              simp only [hl] at h
              exact Except.noConfusion h
          | setObj elems =>
            simp only [SSt.push] at h
            cases hl : encElems false (pairF false json H fuel) elems
                ⟨(JSVal.ref a, s.out.length) :: s.idmap, s.out ++ [.setRec []]⟩ with
            | error e =>
              simp only [hl] at h
              injection h with h2; subst h2
              exact encElems_ne_error (fun v s => ih v s) _ _ hl
            | ok q =>
              simp only [hl] at h
              exact Except.noConfusion h
          | date iso => simp only [SSt.push] at h; exact Except.noConfusion h
          | regexp src fl => simp only [SSt.push] at h; exact Except.noConfusion h
          | errObj n m => simp only [SSt.push] at h; exact Except.noConfusion h
          | boxedBool b => simp only [SSt.push] at h; exact Except.noConfusion h
          | boxedNum n => simp only [SSt.push] at h; exact Except.noConfusion h
          | boxedStr st => simp only [SSt.push] at h; exact Except.noConfusion h
          | boxedBig b => simp only [SSt.push] at h; exact Except.noConfusion h
          | typedArr tag elems => simp only [SSt.push] at h; exact Except.noConfusion h
          | arrayBuffer bytes => simp only [SSt.push] at h; exact Except.noConfusion h
          | dataView bytes off len => simp only [SSt.push] at h; exact Except.noConfusion h

/-! ## C7: the stringify/parse pair -/

/-- C7: `stringify` always runs the codec in relaxed `json`+`lossy`
mode, so it never raises TypeNotSerializable for any input; and
`parse(stringify(new Map([[1, "a"]])))` round-trips through the JSON
text `[[5,[[1,2]]],[0,1],[0,"a"]]` to a `Map` whose single entry maps
the number `1` to the string `"a"`. -/
theorem stringify_parse_relaxed :
    (∀ (H : List JSObj) (v : JSVal),
      stringifyJS H v ≠ .error .typeNotSerializable) ∧
    stringifyJS [.mapObj [(.prim (.num 1), .prim (.str "a"))]] (.ref 0)
      = .ok "[[5,[[1,2]]],[0,1],[0,\"a\"]]" ∧
    parseJS "[[5,[[1,2]]],[0,1],[0,\"a\"]]"
      = some (.ref 0,
          ⟨[(2, .prim (.str "a")), (1, .prim (.num 1)), (0, .ref 0)],
           [.mapObj [(.prim (.num 1), .prim (.str "a"))]]⟩) := by
  refine ⟨?_, rfl, rfl⟩
  intro H v h
  have h1 : serialize H v true true = .error .typeNotSerializable := by
    unfold stringifyJS at h
    cases hs : serialize H v true true with
    | error e =>
      rw [hs] at h
      injection h with h2
      rw [h2]
    | ok W =>
      rw [hs] at h
      exact Except.noConfusion h
  have h2 : serializeW H v true true = .error .typeNotSerializable := by
    unfold serialize at h1
    cases hs : serializeW H v true true with
    | error e =>
      rw [hs] at h1
      injection h1 with h3
      rw [h3]
    | ok p =>
      rw [hs] at h1
      exact Except.noConfusion h1
  unfold serializeW at h2
  exact pairF_ne_tns true H (encFuel H) v ⟨[], []⟩ h2


/-! ## Encoder execution invariants -/

/-- `s'` extends `s`: identity-map lookups are preserved (the map only
grows, and only with keys absent so far), and already-assigned output
slots keep their contents (a frame's patch touches only its own slot,
pushed by itself). -/
def SExt (s s' : SSt) : Prop :=
  (∀ x j, alookup s.idmap x = some j → alookup s'.idmap x = some j) ∧
  s.out.length ≤ s'.out.length ∧
  (∀ j, j < s.out.length → s'.out[j]? = s.out[j]?)

theorem SExt.refl (s : SSt) : SExt s s :=
  ⟨fun _ _ h => h, le_refl _, fun _ _ => rfl⟩

theorem SExt.trans {s1 s2 s3 : SSt} (h1 : SExt s1 s2) (h2 : SExt s2 s3) :
    SExt s1 s3 :=
  ⟨fun x j h => h2.1 x j (h1.1 x j h), le_trans h1.2.1 h2.2.1,
   fun j hj => by rw [h2.2.2 j (lt_of_lt_of_le hj h1.2.1), h1.2.2 j hj]⟩

theorem alookup_cons_self {m : List (JSVal × Nat)} {v : JSVal} {n : Nat} :
    alookup ((v, n) :: m) v = some n := by simp [alookup]

theorem alookup_cons_split {m : List (JSVal × Nat)} {v x : JSVal} {n j : Nat}
    (h : alookup ((v, n) :: m) x = some j) :
    (x = v ∧ j = n) ∨ alookup m x = some j := by
  simp only [alookup] at h
  split at h
  · rename_i hv
    injection h with h1
    exact Or.inl ⟨hv.symm, h1.symm⟩
  · exact Or.inr h

/-- Every identity-map entry points below the end of the output. -/
abbrev RangeOK (s : SSt) : Prop :=
  ∀ x j, alookup s.idmap x = some j → j < s.out.length

/-- The slot ids a record's payload references. -/
def recRefs : Record → List Nat
  | .arrayRec idxs => idxs
  | .objectRec es => es.foldr (fun p acc => p.1 :: p.2 :: acc) []
  | .mapRec es => es.foldr (fun p acc => p.1 :: p.2 :: acc) []
  | .setRec idxs => idxs
  | _ => []

/-- Every slot id referenced by any emitted record is a valid index. -/
abbrev RefsOK (s : SSt) : Prop :=
  ∀ (k : Nat) (r : Record), s.out[k]? = some r → ∀ j ∈ recRefs r, j < s.out.length

/-- Every assigned slot is the slot of some registered value. -/
abbrev SurjOK (s : SSt) : Prop :=
  ∀ k, k < s.out.length → ∃ x, alookup s.idmap x = some k

/-- No two registered values share a slot (each push binds a fresh
slot). -/
abbrev InjOK (s : SSt) : Prop :=
  ∀ x y j, alookup s.idmap x = some j → alookup s.idmap y = some j → x = y

/-- The encoder's state invariant. -/
abbrev SInv (s : SSt) : Prop := RangeOK s ∧ RefsOK s ∧ SurjOK s ∧ InjOK s

theorem SInv_empty : SInv ⟨[], []⟩ := by
  refine ⟨?_, ?_, ?_, ?_⟩
  · intro x j h; simp [alookup] at h
  · intro k r h; simp at h
  · intro k hk; simp at hk
  · intro x y j h; simp [alookup] at h

theorem SExt_push {s : SSt} (r : Record) (v : JSVal)
    (hnone : alookup s.idmap v = none) :
    SExt s ⟨(v, s.out.length) :: s.idmap, s.out ++ [r]⟩ := by
  refine ⟨?_, ?_, ?_⟩
  · intro x j h
    by_cases hvx : v = x
    · subst hvx; rw [hnone] at h; exact Option.noConfusion h
    · simp only [alookup, if_neg hvx]
      exact h
  · simp
  · intro j hj
    exact List.getElem?_append_left hj

theorem SInv_push {s : SSt} {r : Record} {v : JSVal}
    (hinv : SInv s) (hun : alookup s.idmap v = none) (hrefs : recRefs r = []) :
    SInv ⟨(v, s.out.length) :: s.idmap, s.out ++ [r]⟩ := by
  refine ⟨?_, ?_, ?_, ?_⟩
  · intro x j h
    simp only [alookup] at h
    split at h
    · injection h with h1; subst h1; simp
    · have := hinv.1 x j h
      simp only [List.length_append, List.length_singleton]
      omega
  · intro k rec h j hj
    simp only [List.length_append, List.length_singleton]
    by_cases hk : k < s.out.length
    · rw [List.getElem?_append_left hk] at h
      have := hinv.2.1 k rec h j hj
      omega
    · have hkk : k = s.out.length := by
        by_contra hne
        have : s.out.length + 1 ≤ k := by omega
        rw [List.getElem?_eq_none (by simpa using this)] at h
        exact Option.noConfusion h
      subst hkk
      rw [List.getElem?_concat_length] at h
      injection h with h1
      subst h1
      rw [hrefs] at hj
      exact absurd hj (List.not_mem_nil j)
  · intro k hk
    simp only [List.length_append, List.length_singleton] at hk
    by_cases hkl : k < s.out.length
    · obtain ⟨x, hx⟩ := hinv.2.2.1 k hkl
      refine ⟨x, ?_⟩
      simp only [alookup]
      split
      · rename_i hvx
        subst hvx
        rw [hun] at hx
        exact Option.noConfusion hx
      · exact hx
    · have hkk : k = s.out.length := by omega
      subst hkk
      exact ⟨v, by simp [alookup]⟩
  · intro x y j hx hy
    rcases alookup_cons_split hx with ⟨hxv, hxj⟩ | hx2 <;>
      rcases alookup_cons_split hy with ⟨hyv, hyj⟩ | hy2
    · rw [hxv, hyv]
    · subst hxj
      have := hinv.1 y _ hy2
      omega
    · subst hyj
      have := hinv.1 x _ hx2
      omega
    · exact hinv.2.2.2 x y j hx2 hy2

theorem SExt_patch {s s2 : SSt} (hext : SExt s s2) (i : Nat) (rec : Record)
    (hi : s.out.length ≤ i) : SExt s (s2.patch i rec) := by
  refine ⟨hext.1, ?_, ?_⟩
  · simp only [SSt.patch, List.length_set]
    exact hext.2.1
  · intro j hj
    simp only [SSt.patch]
    rw [List.getElem?_set_ne (by omega)]
    exact hext.2.2 j hj

theorem SInv_patch {s2 : SSt} (hinv : SInv s2) (i : Nat) (rec : Record)
    (hrefs : ∀ j ∈ recRefs rec, j < s2.out.length) :
    SInv (s2.patch i rec) := by
  refine ⟨?_, ?_, ?_, ?_⟩
  · intro x j h
    simp only [SSt.patch, List.length_set]
    exact hinv.1 x j h
  · intro k r h j hj
    simp only [SSt.patch, List.length_set] at h ⊢
    by_cases hk : k = i
    · subst hk
      by_cases hlt : k < s2.out.length
      · rw [List.getElem?_set_self (by omega)] at h
        injection h with h1
        subst h1
        exact hrefs j hj
      · rw [List.getElem?_set, if_pos rfl, if_neg hlt] at h
        exact Option.noConfusion h
    · rw [List.getElem?_set_ne (by omega)] at h
      exact hinv.2.1 k r h j hj
  · intro k hk
    simp only [SSt.patch, List.length_set] at hk
    exact hinv.2.2.1 k hk
  · intro x y j hx hy
    exact hinv.2.2.2 x y j hx hy



/-- Bound the flattened slot references of an entry list. -/
theorem pairRefs_bound {es : List (Nat × Nat)} {L : Nat}
    (his : ∀ q ∈ es, q.1 < L ∧ q.2 < L) :
    ∀ j ∈ es.foldr (fun p acc => p.1 :: p.2 :: acc) [], j < L := by
  induction es with
  | nil => simp
  | cons q tl ih =>
    intro j hj
    simp only [List.foldr_cons, List.mem_cons] at hj
    rcases hj with hj1 | hj2 | hj3
    · subst hj1; exact (his q (List.mem_cons_self _ _)).1
    · subst hj2; exact (his q (List.mem_cons_self _ _)).2
    · exact ih (fun q2 hq2 => his q2 (List.mem_cons_of_mem _ hq2)) j hj3

/-- Frame specification of one encoding step (satisfied by `pairF` at
every fuel): on success the state extends, the invariant is preserved,
and the returned slot is in range. -/
def EncStepFrame (f : JSVal → SSt → Except SErr (Nat × SSt)) : Prop :=
  ∀ v s i s', f v s = .ok (i, s') → SInv s →
    SExt s s' ∧ SInv s' ∧ i < s'.out.length

theorem encList_frame {f : JSVal → SSt → Except SErr (Nat × SSt)}
    (hf : EncStepFrame f) :
    ∀ (l : List JSVal) (s : SSt) (is : List Nat) (s' : SSt),
      encList f l s = .ok (is, s') → SInv s →
        SExt s s' ∧ SInv s' ∧ ∀ j ∈ is, j < s'.out.length := by
  intro l
  induction l with
  | nil =>
    intro s is s' h hinv
    rw [encList] at h
    cases h
    exact ⟨SExt.refl s, hinv, by simp⟩
  | cons hd tl ih =>
    intro s is s' h hinv
    rw [encList] at h
    cases hf1 : f hd s with
    | error e => simp only [hf1] at h; exact Except.noConfusion h
    | ok p =>
      obtain ⟨i, s1⟩ := p
      simp only [hf1] at h
      cases hl : encList f tl s1 with
      | error e => simp only [hl] at h; exact Except.noConfusion h
      | ok q =>
        obtain ⟨is2, s2⟩ := q
        simp only [hl] at h
        cases h
        obtain ⟨hext1, hinv1, hi1⟩ := hf hd s _ _ hf1 hinv
        obtain ⟨hext2, hinv2, his2⟩ := ih s1 _ _ hl hinv1
        refine ⟨hext1.trans hext2, hinv2, ?_⟩
        intro j hj
        rcases List.mem_cons.mp hj with hj1 | hj2
        · subst hj1; exact lt_of_lt_of_le hi1 hext2.2.1
        · exact his2 j hj2

theorem encElems_frame {strict : Bool}
    {f : JSVal → SSt → Except SErr (Nat × SSt)} (hf : EncStepFrame f) :
    ∀ (l : List JSVal) (s : SSt) (is : List Nat) (s' : SSt),
      encElems strict f l s = .ok (is, s') → SInv s →
        SExt s s' ∧ SInv s' ∧ ∀ j ∈ is, j < s'.out.length := by
  intro l
  induction l with
  | nil =>
    intro s is s' h hinv
    rw [encElems] at h
    cases h
    exact ⟨SExt.refl s, hinv, by simp⟩
  | cons hd tl ih =>
    intro s is s' h hinv
    rw [encElems] at h
    cases hc : (strict || !shouldSkip hd) with
    | false =>
      simp only [hc, Bool.false_eq_true, if_false] at h
      exact ih s is s' h hinv
    | true =>
      simp only [hc, if_true] at h
      cases hf1 : f hd s with
      | error e => simp only [hf1] at h; exact Except.noConfusion h
      | ok p =>
        obtain ⟨i, s1⟩ := p
        simp only [hf1] at h
        cases hl : encElems strict f tl s1 with
        | error e => simp only [hl] at h; exact Except.noConfusion h
        | ok q =>
          obtain ⟨is2, s2⟩ := q
          simp only [hl] at h
          cases h
          obtain ⟨hext1, hinv1, hi1⟩ := hf hd s _ _ hf1 hinv
          obtain ⟨hext2, hinv2, his2⟩ := ih s1 _ _ hl hinv1
          refine ⟨hext1.trans hext2, hinv2, ?_⟩
          intro j hj
          rcases List.mem_cons.mp hj with hj1 | hj2
          · subst hj1; exact lt_of_lt_of_le hi1 hext2.2.1
          · exact his2 j hj2

theorem encProps_frame {strict : Bool}
    {f : JSVal → SSt → Except SErr (Nat × SSt)} (hf : EncStepFrame f) :
    ∀ (l : List (String × JSVal)) (s : SSt) (es : List (Nat × Nat)) (s' : SSt),
      encProps strict f l s = .ok (es, s') → SInv s →
        SExt s s' ∧ SInv s' ∧
          ∀ q ∈ es, q.1 < s'.out.length ∧ q.2 < s'.out.length := by
  intro l
  induction l with
  | nil =>
    intro s es s' h hinv
    rw [encProps] at h
    cases h
    exact ⟨SExt.refl s, hinv, by simp⟩
  | cons hd tl ih =>
    obtain ⟨k, v⟩ := hd
    intro s es s' h hinv
    rw [encProps] at h
    cases hc : (strict || !shouldSkip v) with
    | false =>
      simp only [hc, Bool.false_eq_true, if_false] at h
      exact ih s es s' h hinv
    | true =>
      simp only [hc, if_true] at h
      cases hf1 : f (.prim (.str k)) s with
      | error e => simp only [hf1] at h; exact Except.noConfusion h
      | ok p =>
        obtain ⟨ki, s1⟩ := p
        simp only [hf1] at h
        cases hf2 : f v s1 with
        | error e => simp only [hf2] at h; exact Except.noConfusion h
        | ok q =>
          obtain ⟨vi, s2⟩ := q
          simp only [hf2] at h
          cases hl : encProps strict f tl s2 with
          | error e => simp only [hl] at h; exact Except.noConfusion h
          | ok r =>
            obtain ⟨es3, s3⟩ := r
            simp only [hl] at h
            cases h
            obtain ⟨hext1, hinv1, hi1⟩ := hf _ s _ _ hf1 hinv
            obtain ⟨hext2, hinv2, hi2⟩ := hf _ s1 _ _ hf2 hinv1
            obtain ⟨hext3, hinv3, his3⟩ := ih s2 _ _ hl hinv2
            refine ⟨(hext1.trans hext2).trans hext3, hinv3, ?_⟩
            intro q hq
            rcases List.mem_cons.mp hq with hq1 | hq2
            · subst hq1
              exact ⟨lt_of_lt_of_le hi1 (le_trans hext2.2.1 hext3.2.1),
                lt_of_lt_of_le hi2 hext3.2.1⟩
            · exact his3 q hq2

theorem encEntries_frame {strict : Bool}
    {f : JSVal → SSt → Except SErr (Nat × SSt)} (hf : EncStepFrame f) :
    ∀ (l : List (JSVal × JSVal)) (s : SSt) (es : List (Nat × Nat)) (s' : SSt),
      encEntries strict f l s = .ok (es, s') → SInv s →
        SExt s s' ∧ SInv s' ∧
          ∀ q ∈ es, q.1 < s'.out.length ∧ q.2 < s'.out.length := by
  intro l
  induction l with
  | nil =>
    intro s es s' h hinv
    rw [encEntries] at h
    cases h
    exact ⟨SExt.refl s, hinv, by simp⟩
  | cons hd tl ih =>
    obtain ⟨k, v⟩ := hd
    intro s es s' h hinv
    rw [encEntries] at h
    cases hc : (strict || !(shouldSkip k || shouldSkip v)) with
    | false =>
      simp only [hc, Bool.false_eq_true, if_false] at h
      exact ih s es s' h hinv
    | true =>
      simp only [hc, if_true] at h
      cases hf1 : f k s with
      | error e => simp only [hf1] at h; exact Except.noConfusion h
      | ok p =>
        obtain ⟨ki, s1⟩ := p
        simp only [hf1] at h
        cases hf2 : f v s1 with
        | error e => simp only [hf2] at h; exact Except.noConfusion h
        | ok q =>
          obtain ⟨vi, s2⟩ := q
          simp only [hf2] at h
          cases hl : encEntries strict f tl s2 with
          | error e => simp only [hl] at h; exact Except.noConfusion h
          | ok r =>
            obtain ⟨es3, s3⟩ := r
            simp only [hl] at h
            cases h
            obtain ⟨hext1, hinv1, hi1⟩ := hf _ s _ _ hf1 hinv
            obtain ⟨hext2, hinv2, hi2⟩ := hf _ s1 _ _ hf2 hinv1
            obtain ⟨hext3, hinv3, his3⟩ := ih s2 _ _ hl hinv2
            refine ⟨(hext1.trans hext2).trans hext3, hinv3, ?_⟩
            intro q hq
            rcases List.mem_cons.mp hq with hq1 | hq2
            · subst hq1
              exact ⟨lt_of_lt_of_le hi1 (le_trans hext2.2.1 hext3.2.1),
                lt_of_lt_of_le hi2 hext3.2.1⟩
            · exact his3 q hq2

/-- `pair` satisfies the frame specification in every mode. -/
theorem pairF_frame (strict json : Bool) (H : List JSObj) :
    ∀ fuel, EncStepFrame (pairF strict json H fuel) := by
  intro fuel
  induction fuel with
  | zero => intro v s i s' h hinv; simp [pairF] at h
  | succ fuel ih =>
    intro v s i s' h hinv
    cases v with
    | prim p =>
      cases hm : alookup s.idmap (JSVal.prim p) with
      | some k =>
        cases p <;> simp only [pairF, hm] at h <;> cases h <;>
          exact ⟨SExt.refl s, hinv, hinv.1 _ _ hm⟩
      | none =>
        cases p with
        | bigint b =>
          simp only [pairF, hm, SSt.push] at h
          cases h
          exact ⟨SExt_push _ _ hm, SInv_push hinv hm rfl, by simp⟩
        | func id =>
          cases strict with
          | true => simp only [pairF, hm] at h; simp at h
          | false =>
            simp only [pairF, hm, SSt.push] at h
            simp only [Bool.false_eq_true, if_false] at h
            cases h
            exact ⟨SExt_push _ _ hm, SInv_push hinv hm rfl, by simp⟩
        | symbol id =>
          cases strict with
          | true => simp only [pairF, hm] at h; simp at h
          | false =>
            simp only [pairF, hm, SSt.push] at h
            simp only [Bool.false_eq_true, if_false] at h
            cases h
            exact ⟨SExt_push _ _ hm, SInv_push hinv hm rfl, by simp⟩
        | undef =>
          simp only [pairF, hm, SSt.push] at h
          cases h
          exact ⟨SExt_push _ _ hm, SInv_push hinv hm rfl, by simp⟩
        | null =>
          simp only [pairF, hm, SSt.push] at h
          cases h
          exact ⟨SExt_push _ _ hm, SInv_push hinv hm rfl, by simp⟩
        | bool b =>
          simp only [pairF, hm, SSt.push] at h
          cases h
          exact ⟨SExt_push _ _ hm, SInv_push hinv hm rfl, by simp⟩
        | num n =>
          simp only [pairF, hm, SSt.push] at h
          cases h
          exact ⟨SExt_push _ _ hm, SInv_push hinv hm rfl, by simp⟩
        | str st =>
          simp only [pairF, hm, SSt.push] at h
          cases h
          exact ⟨SExt_push _ _ hm, SInv_push hinv hm rfl, by simp⟩
    | ref a =>
      simp only [pairF] at h
      cases hm : alookup s.idmap (JSVal.ref a) with
      | some k =>
        simp only [hm] at h
        cases h
        exact ⟨SExt.refl s, hinv, hinv.1 _ _ hm⟩
      | none =>
        simp only [hm] at h
        cases hO : H[a]? with
        | none => simp only [hO] at h; exact Except.noConfusion h
        | some o =>
          simp only [hO] at h
          cases o with
          | arr elems =>
            simp only [SSt.push] at h
            cases hl : encList (pairF strict json H fuel) elems
                ⟨(JSVal.ref a, s.out.length) :: s.idmap,
                 s.out ++ [.arrayRec []]⟩ with
            | error e => simp only [hl] at h; exact Except.noConfusion h
            | ok q =>
              obtain ⟨idxs, s2⟩ := q
              simp only [hl] at h
              cases h
              obtain ⟨hext2, hinv2, his⟩ :=
                encList_frame ih elems _ idxs s2 hl (SInv_push hinv hm rfl)
              have hext1 : SExt s ⟨(JSVal.ref a, s.out.length) :: s.idmap,
                  s.out ++ [.arrayRec []]⟩ := SExt_push _ _ hm
              have hlen : s.out.length < s2.out.length := by
                have := hext2.2.1
                simp only [List.length_append, List.length_singleton] at this
                omega
              refine ⟨SExt_patch (hext1.trans hext2) _ _ (le_refl _),
                SInv_patch hinv2 _ _ (by simpa [recRefs] using his), ?_⟩
              simpa [SSt.patch] using hlen
          | obj props tj =>
            have hobjcase : (match json, tj with
                | true, some r => pairF strict json H fuel r s
                | _, _ =>
                  match s.push (.objectRec []) (JSVal.ref a) with
                  | (i, s1) =>
                    match encProps strict (pairF strict json H fuel) props s1 with
                    | .error e => .error e
                    | .ok (es, s2) => .ok (i, s2.patch i (.objectRec es))) =
                .ok (i, s') := h
            cases hjson : json with
            | true =>
              cases htj : tj with
              | some r =>
                subst hjson; subst htj
                exact ih r s i s' hobjcase hinv
              | none =>
                subst hjson; subst htj
                simp only [SSt.push] at hobjcase
                cases hl : encProps strict (pairF strict true H fuel) props
                    ⟨(JSVal.ref a, s.out.length) :: s.idmap,
                     s.out ++ [.objectRec []]⟩ with
                | error e => simp only [hl] at hobjcase; exact Except.noConfusion hobjcase
                | ok q =>
                  obtain ⟨es, s2⟩ := q
                  simp only [hl] at hobjcase
                  cases hobjcase
                  obtain ⟨hext2, hinv2, his⟩ :=
                    encProps_frame ih props _ es s2 hl (SInv_push hinv hm rfl)
                  have hext1 : SExt s ⟨(JSVal.ref a, s.out.length) :: s.idmap,
                      s.out ++ [.objectRec []]⟩ := SExt_push _ _ hm
                  have hlen : s.out.length < s2.out.length := by
                    have := hext2.2.1
                    simp only [List.length_append, List.length_singleton] at this
                    omega
                  refine ⟨SExt_patch (hext1.trans hext2) _ _ (le_refl _),
                    SInv_patch hinv2 _ _ ?_, by simpa [SSt.patch] using hlen⟩
                  intro j hj
                  simp only [recRefs] at hj
                  exact pairRefs_bound his j hj
            | false =>
              subst hjson
              simp only [SSt.push] at hobjcase
              cases hl : encProps strict (pairF strict false H fuel) props
                  ⟨(JSVal.ref a, s.out.length) :: s.idmap,
                   s.out ++ [.objectRec []]⟩ with
              | error e => simp only [hl] at hobjcase; exact Except.noConfusion hobjcase
              | ok q =>
                obtain ⟨es, s2⟩ := q
                simp only [hl] at hobjcase
                cases hobjcase
                obtain ⟨hext2, hinv2, his⟩ :=
                  encProps_frame ih props _ es s2 hl (SInv_push hinv hm rfl)
                have hext1 : SExt s ⟨(JSVal.ref a, s.out.length) :: s.idmap,
                    s.out ++ [.objectRec []]⟩ := SExt_push _ _ hm
                have hlen : s.out.length < s2.out.length := by
                  have := hext2.2.1
                  simp only [List.length_append, List.length_singleton] at this
                  omega
                refine ⟨SExt_patch (hext1.trans hext2) _ _ (le_refl _),
                  SInv_patch hinv2 _ _ ?_, by simpa [SSt.patch] using hlen⟩
                intro j hj
                simp only [recRefs] at hj
                exact pairRefs_bound his j hj
          | mapObj entries =>
            simp only [SSt.push] at h
            cases hl : encEntries strict (pairF strict json H fuel) entries
                ⟨(JSVal.ref a, s.out.length) :: s.idmap,
                 s.out ++ [.mapRec []]⟩ with
            | error e => simp only [hl] at h; exact Except.noConfusion h
            | ok q =>
              obtain ⟨es, s2⟩ := q
              simp only [hl] at h
              cases h
              obtain ⟨hext2, hinv2, his⟩ :=
                encEntries_frame ih entries _ es s2 hl (SInv_push hinv hm rfl)
              have hext1 : SExt s ⟨(JSVal.ref a, s.out.length) :: s.idmap,
                  s.out ++ [.mapRec []]⟩ := SExt_push _ _ hm
              have hlen : s.out.length < s2.out.length := by
                have := hext2.2.1
                simp only [List.length_append, List.length_singleton] at this
                omega
              refine ⟨SExt_patch (hext1.trans hext2) _ _ (le_refl _),
                SInv_patch hinv2 _ _ ?_, by simpa [SSt.patch] using hlen⟩
              intro j hj
              simp only [recRefs] at hj
              exact pairRefs_bound his j hj
          | setObj elems =>
            simp only [SSt.push] at h
            cases hl : encElems strict (pairF strict json H fuel) elems
                ⟨(JSVal.ref a, s.out.length) :: s.idmap,
                 s.out ++ [.setRec []]⟩ with
            | error e => simp only [hl] at h; exact Except.noConfusion h
            | ok q =>
              obtain ⟨idxs, s2⟩ := q
              simp only [hl] at h
              cases h
              obtain ⟨hext2, hinv2, his⟩ :=
                encElems_frame ih elems _ idxs s2 hl (SInv_push hinv hm rfl)
              have hext1 : SExt s ⟨(JSVal.ref a, s.out.length) :: s.idmap,
                  s.out ++ [.setRec []]⟩ := SExt_push _ _ hm
              have hlen : s.out.length < s2.out.length := by
                have := hext2.2.1
                simp only [List.length_append, List.length_singleton] at this
                omega
              refine ⟨SExt_patch (hext1.trans hext2) _ _ (le_refl _),
                SInv_patch hinv2 _ _ (by simpa [recRefs] using his), ?_⟩
              simpa [SSt.patch] using hlen
          | date iso =>
            simp only [SSt.push] at h
            cases h
            exact ⟨SExt_push _ _ hm, SInv_push hinv hm rfl, by simp⟩
          | regexp src fl =>
            simp only [SSt.push] at h
            cases h
            exact ⟨SExt_push _ _ hm, SInv_push hinv hm rfl, by simp⟩
          | errObj n m =>
            simp only [SSt.push] at h
            cases h
            exact ⟨SExt_push _ _ hm, SInv_push hinv hm rfl, by simp⟩
          | boxedBool b =>
            simp only [SSt.push] at h
            cases h
            exact ⟨SExt_push _ _ hm, SInv_push hinv hm rfl, by simp⟩
          | boxedNum n =>
            simp only [SSt.push] at h
            cases h
            exact ⟨SExt_push _ _ hm, SInv_push hinv hm rfl, by simp⟩
          | boxedStr st =>
            simp only [SSt.push] at h
            cases h
            exact ⟨SExt_push _ _ hm, SInv_push hinv hm rfl, by simp⟩
          | boxedBig b =>
            simp only [SSt.push] at h
            cases h
            exact ⟨SExt_push _ _ hm, SInv_push hinv hm rfl, by simp⟩
          | typedArr tag elems =>
            simp only [SSt.push] at h
            cases h
            exact ⟨SExt_push _ _ hm, SInv_push hinv hm rfl, by simp⟩
          | arrayBuffer bytes =>
            simp only [SSt.push] at h
            cases h
            exact ⟨SExt_push _ _ hm, SInv_push hinv hm rfl, by simp⟩
          | dataView bytes off len =>
            simp only [SSt.push] at h
            cases h
            exact ⟨SExt_push _ _ hm, SInv_push hinv hm rfl, by simp⟩

/-! ## C5: wire well-formedness -/

/-- From an empty state, `pair` always assigns the root slot 0 (the
first `as` pushes at index 0; under a `toJSON` collapse the collapsed
record still lands at slot 0). -/
theorem pairF_root_zero (strict json : Bool) (H : List JSObj) :
    ∀ (fuel : Nat) (v : JSVal) (i : Nat) (s' : SSt),
      pairF strict json H fuel v ⟨[], []⟩ = .ok (i, s') → i = 0 := by
  intro fuel
  induction fuel with
  | zero => intro v i s' h; simp [pairF] at h
  | succ fuel ih =>
    intro v i s' h
    cases v with
    | prim p =>
      cases p <;> cases strict <;> simp_all [pairF, alookup, SSt.push]
    | ref a =>
      simp only [pairF, alookup] at h
      cases hO : H[a]? with
      | none => simp only [hO] at h; exact Except.noConfusion h
      | some o =>
        cases o with
        | arr elems =>
          simp only [hO, SSt.push] at h
          split at h
          · exact Except.noConfusion h
          · cases h; rfl
        | obj props tj =>
          cases json with
          | true =>
            cases tj with
            | some r =>
              simp only [hO] at h
              exact ih r i s' h
            | none =>
              simp only [hO, SSt.push] at h
              split at h
              · exact Except.noConfusion h
              · cases h; rfl
          | false =>
            simp only [hO, SSt.push] at h
            split at h
            · exact Except.noConfusion h
            · cases h; rfl
        | mapObj entries =>
          simp only [hO, SSt.push] at h
          split at h
          · exact Except.noConfusion h
          · cases h; rfl
        | setObj elems =>
          simp only [hO, SSt.push] at h
          split at h
          · exact Except.noConfusion h
          · cases h; rfl
        | date iso => simp only [hO, SSt.push] at h; cases h; rfl
        | regexp src fl => simp only [hO, SSt.push] at h; cases h; rfl
        | errObj n m => simp only [hO, SSt.push] at h; cases h; rfl
        | boxedBool b => simp only [hO, SSt.push] at h; cases h; rfl
        | boxedNum n => simp only [hO, SSt.push] at h; cases h; rfl
        | boxedStr st => simp only [hO, SSt.push] at h; cases h; rfl
        | boxedBig b => simp only [hO, SSt.push] at h; cases h; rfl
        | typedArr tag elems => simp only [hO, SSt.push] at h; cases h; rfl
        | arrayBuffer bytes => simp only [hO, SSt.push] at h; cases h; rfl
        | dataView bytes off len => simp only [hO, SSt.push] at h; cases h; rfl

/-- C5: whenever `serialize(v, opts)` succeeds (any options), the wire
sequence is well-formed: the root value's record sits at slot 0 (the
sequence is nonempty and the slot `pair` assigned the root is 0), and
every slot id appearing in any record's payload is a valid index into
the sequence — no dangling references. -/
theorem serialize_wire_wellformed (H : List JSObj) (v : JSVal)
    (json lossy : Bool) (i : Nat) (s' : SSt)
    (hok : serializeW H v json lossy = .ok (i, s')) :
    i = 0 ∧ 0 < s'.out.length ∧
      ∀ (k : Nat) (r : Record), s'.out[k]? = some r →
        ∀ j ∈ recRefs r, j < s'.out.length := by
  have hroot := pairF_root_zero (!(json || lossy)) json H (encFuel H) v i s' hok
  obtain ⟨hext, hinv, hilt⟩ :=
    pairF_frame (!(json || lossy)) json H (encFuel H) v ⟨[], []⟩ i s' hok SInv_empty
  exact ⟨hroot, lt_of_le_of_lt (Nat.zero_le i) hilt, hinv.2.1⟩

/-- Witness for `serialize_wire_wellformed` at `{x: 1}`. -/
theorem serialize_wire_wellformed_witness :
    serializeW [.obj [("x", .prim (.num 1))] none] (.ref 0) false false
      = .ok (0, ⟨[(.prim (.num 1), 2), (.prim (.str "x"), 1), (.ref 0, 0)],
          [.objectRec [(1, 2)], .primitive (.str "x"), .primitive (.num 1)]⟩) ∧
    (0 = 0 ∧
      0 < (SSt.mk [(.prim (.num 1), 2), (.prim (.str "x"), 1), (.ref 0, 0)]
        [.objectRec [(1, 2)], .primitive (.str "x"),
         .primitive (.num 1)]).out.length ∧
      ∀ (k : Nat) (r : Record),
        (SSt.mk [(.prim (.num 1), 2), (.prim (.str "x"), 1), (.ref 0, 0)]
          [.objectRec [(1, 2)], .primitive (.str "x"),
           .primitive (.num 1)]).out[k]? = some r →
          ∀ j ∈ recRefs r,
            j < (SSt.mk [(.prim (.num 1), 2), (.prim (.str "x"), 1), (.ref 0, 0)]
              [.objectRec [(1, 2)], .primitive (.str "x"),
               .primitive (.num 1)]).out.length) :=
  ⟨rfl, serialize_wire_wellformed [.obj [("x", .prim (.num 1))] none]
    (.ref 0) false false 0 _ rfl⟩

/-! ## Encoder adequacy: the supplied fuel never runs out -/

/-- Count of heap addresses not yet in the identity map.  Every
composite step registers a fresh address before recursing, so this
strictly decreases with depth — the termination measure behind the
source's cycle safety. -/
def unregCount (H : List JSObj) (s : SSt) : Nat :=
  (List.range H.length).countP (fun a => (alookup s.idmap (.ref a)).isNone)

/-- A step result that is either success or the strict-mode TypeError
(never fuel exhaustion or a dangling reference). -/
def okOrTNS {α : Type} (r : Except SErr α) : Prop :=
  (∃ p, r = .ok p) ∨ r = .error .typeNotSerializable

theorem countP_lt_of_flip {α : Type} {l : List α} {p q : α → Bool}
    (hmono : ∀ a ∈ l, p a = true → q a = true) {a : α} (ha : a ∈ l)
    (hqa : q a = true) (hpa : p a = false) :
    l.countP p < l.countP q := by
  induction l with
  | nil => cases ha
  | cons hd tl ih =>
    rw [List.countP_cons, List.countP_cons]
    rcases List.mem_cons.mp ha with h1 | h2
    · subst h1
      rw [hpa, hqa]
      simp only [Bool.false_eq_true, if_false, if_true]
      have := List.countP_mono_left (fun x hx hp => hmono x (List.mem_cons_of_mem _ hx) hp)
      omega
    · have hle := ih (fun x hx hp => hmono x (List.mem_cons_of_mem _ hx) hp) h2
      by_cases hp : p hd = true
      · rw [hp, hmono hd (List.mem_cons_self _ _) hp]
        omega
      · rw [Bool.not_eq_true] at hp
        rw [hp]
        simp only [Bool.false_eq_true, if_false]
        split <;> omega

theorem unregCount_le_of_ext (H : List JSObj) (s s' : SSt)
    (hext : ∀ x j, alookup s.idmap x = some j → alookup s'.idmap x = some j) :
    unregCount H s' ≤ unregCount H s := by
  apply List.countP_mono_left
  intro a _ hnone
  rw [Option.isNone_iff_eq_none] at hnone ⊢
  cases hs : alookup s.idmap (JSVal.ref a) with
  | none => rfl
  | some j => rw [hext _ _ hs] at hnone; exact Option.noConfusion hnone

theorem unregCount_push (H : List JSObj) (s : SSt) (a n : Nat)
    (out' : List Record) (ha : a < H.length)
    (hnone : alookup s.idmap (.ref a) = none) :
    unregCount H ⟨(JSVal.ref a, n) :: s.idmap, out'⟩ + 1 ≤ unregCount H s := by
  have hlt : (List.range H.length).countP
      (fun b => (alookup ((JSVal.ref a, n) :: s.idmap) (.ref b)).isNone)
      < (List.range H.length).countP
      (fun b => (alookup s.idmap (.ref b)).isNone) := by
    apply countP_lt_of_flip (a := a)
    · intro b _ hb
      rw [Option.isNone_iff_eq_none] at hb ⊢
      simp only [alookup] at hb
      split at hb
      · exact Option.noConfusion hb
      · exact hb
    · exact List.mem_range.mpr ha
    · rw [Option.isNone_iff_eq_none, hnone]
    · simp [alookup]
  exact hlt

/-- The object a valid reference points at is well-formed. -/
theorem heapWFb_obj {H : List JSObj} {a : Nat} {o : JSObj}
    (hwf : heapWFb H = true) (hO : H[a]? = some o) :
    objOKb H.length o = true := by
  rw [heapWFb, List.all_eq_true] at hwf
  exact hwf o (List.getElem?_mem hO)

theorem encList_total {H : List JSObj} {B : Nat}
    {f : JSVal → SSt → Except SErr (Nat × SSt)} (hframe : EncStepFrame f)
    (hf : ∀ v s, SInv s → valOKb H.length v = true →
      B ≥ 1 + unregCount H s → okOrTNS (f v s)) :
    ∀ (l : List JSVal) (s : SSt), SInv s →
      (∀ v ∈ l, valOKb H.length v = true) →
      B ≥ 1 + unregCount H s → okOrTNS (encList f l s) := by
  intro l
  induction l with
  | nil => intro s _ _ _; exact Or.inl ⟨([], s), rfl⟩
  | cons hd tl ih =>
    intro s hinv hvals hB
    rcases hf hd s hinv (hvals hd (List.mem_cons_self _ _)) hB with ⟨⟨i, s1⟩, hok⟩ | htns
    · obtain ⟨hext, hinv1, _⟩ := hframe hd s i s1 hok hinv
      have hB1 : B ≥ 1 + unregCount H s1 :=
        le_trans (by have := unregCount_le_of_ext H s s1 hext.1; omega) hB
      rcases ih s1 hinv1 (fun v hv => hvals v (List.mem_cons_of_mem _ hv)) hB1 with
        ⟨⟨is2, s2⟩, hok2⟩ | htns2
      · refine Or.inl ⟨(i :: is2, s2), ?_⟩
        simp only [encList, hok, hok2]
      · refine Or.inr ?_
        simp only [encList, hok, htns2]
    · refine Or.inr ?_
      simp only [encList, htns]

theorem encElems_total (strict : Bool) {H : List JSObj} {B : Nat}
    {f : JSVal → SSt → Except SErr (Nat × SSt)} (hframe : EncStepFrame f)
    (hf : ∀ v s, SInv s → valOKb H.length v = true →
      B ≥ 1 + unregCount H s → okOrTNS (f v s)) :
    ∀ (l : List JSVal) (s : SSt), SInv s →
      (∀ v ∈ l, valOKb H.length v = true) →
      B ≥ 1 + unregCount H s → okOrTNS (encElems strict f l s) := by
  intro l
  induction l with
  | nil => intro s _ _ _; exact Or.inl ⟨([], s), rfl⟩
  | cons hd tl ih =>
    intro s hinv hvals hB
    cases hc : (strict || !shouldSkip hd) with
    | false =>
      rcases ih s hinv (fun v hv => hvals v (List.mem_cons_of_mem _ hv)) hB with
        ⟨p, hok⟩ | htns
      · refine Or.inl ⟨p, ?_⟩
        simp only [encElems, hc, Bool.false_eq_true, if_false, hok]
      · refine Or.inr ?_
        simp only [encElems, hc, Bool.false_eq_true, if_false, htns]
    | true =>
      rcases hf hd s hinv (hvals hd (List.mem_cons_self _ _)) hB with ⟨⟨i, s1⟩, hok⟩ | htns
      · obtain ⟨hext, hinv1, _⟩ := hframe hd s i s1 hok hinv
        have hB1 : B ≥ 1 + unregCount H s1 :=
          le_trans (by have := unregCount_le_of_ext H s s1 hext.1; omega) hB
        rcases ih s1 hinv1 (fun v hv => hvals v (List.mem_cons_of_mem _ hv)) hB1 with
          ⟨⟨is2, s2⟩, hok2⟩ | htns2
        · refine Or.inl ⟨(i :: is2, s2), ?_⟩
          simp only [encElems, hc, if_true, hok, hok2]
        · refine Or.inr ?_
          simp only [encElems, hc, if_true, hok, htns2]
      · refine Or.inr ?_
        simp only [encElems, hc, if_true, htns]

theorem encProps_total (strict : Bool) {H : List JSObj} {B : Nat}
    {f : JSVal → SSt → Except SErr (Nat × SSt)} (hframe : EncStepFrame f)
    (hf : ∀ v s, SInv s → valOKb H.length v = true →
      B ≥ 1 + unregCount H s → okOrTNS (f v s)) :
    ∀ (l : List (String × JSVal)) (s : SSt), SInv s →
      (∀ p ∈ l, valOKb H.length p.2 = true) →
      B ≥ 1 + unregCount H s → okOrTNS (encProps strict f l s) := by
  intro l
  induction l with
  | nil => intro s _ _ _; exact Or.inl ⟨([], s), rfl⟩
  | cons hd tl ih =>
    obtain ⟨k, v⟩ := hd
    intro s hinv hvals hB
    cases hc : (strict || !shouldSkip v) with
    | false =>
      rcases ih s hinv (fun p hp => hvals p (List.mem_cons_of_mem _ hp)) hB with
        ⟨p, hok⟩ | htns
      · refine Or.inl ⟨p, ?_⟩
        simp only [encProps, hc, Bool.false_eq_true, if_false, hok]
      · refine Or.inr ?_
        simp only [encProps, hc, Bool.false_eq_true, if_false, htns]
    | true =>
      rcases hf (.prim (.str k)) s hinv rfl hB with ⟨⟨ki, s1⟩, hok1⟩ | htns1
      · obtain ⟨hext1, hinv1, _⟩ := hframe _ s ki s1 hok1 hinv
        have hB1 : B ≥ 1 + unregCount H s1 :=
          le_trans (by have := unregCount_le_of_ext H s s1 hext1.1; omega) hB
        rcases hf v s1 hinv1 (hvals (k, v) (List.mem_cons_self _ _)) hB1 with
          ⟨⟨vi, s2⟩, hok2⟩ | htns2
        · obtain ⟨hext2, hinv2, _⟩ := hframe _ s1 vi s2 hok2 hinv1
          have hB2 : B ≥ 1 + unregCount H s2 :=
            le_trans (by have := unregCount_le_of_ext H s1 s2 hext2.1; omega) hB1
          rcases ih s2 hinv2 (fun p hp => hvals p (List.mem_cons_of_mem _ hp)) hB2 with
            ⟨⟨es3, s3⟩, hok3⟩ | htns3
          · refine Or.inl ⟨((ki, vi) :: es3, s3), ?_⟩
            simp only [encProps, hc, if_true, hok1, hok2, hok3]
          · refine Or.inr ?_
            simp only [encProps, hc, if_true, hok1, hok2, htns3]
        · refine Or.inr ?_
          simp only [encProps, hc, if_true, hok1, htns2]
      · refine Or.inr ?_
        simp only [encProps, hc, if_true, htns1]

theorem encEntries_total (strict : Bool) {H : List JSObj} {B : Nat}
    {f : JSVal → SSt → Except SErr (Nat × SSt)} (hframe : EncStepFrame f)
    (hf : ∀ v s, SInv s → valOKb H.length v = true →
      B ≥ 1 + unregCount H s → okOrTNS (f v s)) :
    ∀ (l : List (JSVal × JSVal)) (s : SSt), SInv s →
      (∀ p ∈ l, valOKb H.length p.1 = true ∧ valOKb H.length p.2 = true) →
      B ≥ 1 + unregCount H s → okOrTNS (encEntries strict f l s) := by
  intro l
  induction l with
  | nil => intro s _ _ _; exact Or.inl ⟨([], s), rfl⟩
  | cons hd tl ih =>
    obtain ⟨k, v⟩ := hd
    intro s hinv hvals hB
    cases hc : (strict || !(shouldSkip k || shouldSkip v)) with
    | false =>
      rcases ih s hinv (fun p hp => hvals p (List.mem_cons_of_mem _ hp)) hB with
        ⟨p, hok⟩ | htns
      · refine Or.inl ⟨p, ?_⟩
        simp only [encEntries, hc, Bool.false_eq_true, if_false, hok]
      · refine Or.inr ?_
        simp only [encEntries, hc, Bool.false_eq_true, if_false, htns]
    | true =>
      rcases hf k s hinv (hvals (k, v) (List.mem_cons_self _ _)).1 hB with
        ⟨⟨ki, s1⟩, hok1⟩ | htns1
      · obtain ⟨hext1, hinv1, _⟩ := hframe _ s ki s1 hok1 hinv
        have hB1 : B ≥ 1 + unregCount H s1 :=
          le_trans (by have := unregCount_le_of_ext H s s1 hext1.1; omega) hB
        rcases hf v s1 hinv1 (hvals (k, v) (List.mem_cons_self _ _)).2 hB1 with
          ⟨⟨vi, s2⟩, hok2⟩ | htns2
        · obtain ⟨hext2, hinv2, _⟩ := hframe _ s1 vi s2 hok2 hinv1
          have hB2 : B ≥ 1 + unregCount H s2 :=
            le_trans (by have := unregCount_le_of_ext H s1 s2 hext2.1; omega) hB1
          rcases ih s2 hinv2 (fun p hp => hvals p (List.mem_cons_of_mem _ hp)) hB2 with
            ⟨⟨es3, s3⟩, hok3⟩ | htns3
          · refine Or.inl ⟨((ki, vi) :: es3, s3), ?_⟩
            simp only [encEntries, hc, if_true, hok1, hok2, hok3]
          · refine Or.inr ?_
            simp only [encEntries, hc, if_true, hok1, hok2, htns3]
        · refine Or.inr ?_
          simp only [encEntries, hc, if_true, hok1, htns2]
      · refine Or.inr ?_
        simp only [encEntries, hc, if_true, htns1]


/-- Adequacy of the encoder's fuel: with `json = false` (any strictness)
on a well-formed heap, `pair` never runs out of fuel and never reports a
dangling reference as long as `fuel ≥ 1 + unregCount`: each composite
registers a fresh address before recursing, so the measure decreases. -/
theorem pairF_total (strict : Bool) (H : List JSObj) (hwf : heapWFb H = true) :
    ∀ (fuel : Nat) (v : JSVal) (s : SSt), SInv s → valOKb H.length v = true →
      fuel ≥ 1 + unregCount H s →
      okOrTNS (pairF strict false H fuel v s) := by
  intro fuel
  induction fuel with
  | zero => intro v s _ _ hge; omega
  | succ fuel ih =>
    intro v s hinv hval hge
    cases v with
    | prim p =>
      cases hm : alookup s.idmap (JSVal.prim p) with
      | some k =>
        cases p <;> simp only [okOrTNS, pairF, hm] <;> exact Or.inl ⟨_, rfl⟩
      | none =>
        cases p with
        | func id =>
          cases strict with
          | true => simp only [okOrTNS, pairF, hm, if_true]; exact Or.inr trivial
          | false =>
            simp only [okOrTNS, pairF, hm, Bool.false_eq_true, if_false]
            exact Or.inl ⟨_, rfl⟩
        | symbol id =>
          cases strict with
          | true => simp only [okOrTNS, pairF, hm, if_true]; exact Or.inr trivial
          | false =>
            simp only [okOrTNS, pairF, hm, Bool.false_eq_true, if_false]
            exact Or.inl ⟨_, rfl⟩
        | undef => simp only [okOrTNS, pairF, hm]; exact Or.inl ⟨_, rfl⟩
        | null => simp only [okOrTNS, pairF, hm]; exact Or.inl ⟨_, rfl⟩
        | bool b => simp only [okOrTNS, pairF, hm]; exact Or.inl ⟨_, rfl⟩
        | num n => simp only [okOrTNS, pairF, hm]; exact Or.inl ⟨_, rfl⟩
        | str st => simp only [okOrTNS, pairF, hm]; exact Or.inl ⟨_, rfl⟩
        | bigint b => simp only [okOrTNS, pairF, hm]; exact Or.inl ⟨_, rfl⟩
    | ref a =>
      have ha : a < H.length := by simpa [valOKb] using hval
      obtain ⟨o, hO⟩ : ∃ o, H[a]? = some o := ⟨_, List.getElem?_eq_getElem ha⟩
      have hobjOK := heapWFb_obj hwf hO
      cases hm : alookup s.idmap (JSVal.ref a) with
      | some k => simp only [okOrTNS, pairF, hm]; exact Or.inl ⟨_, rfl⟩
      | none =>
        cases o with
        | arr elems =>
          have hvals : ∀ w ∈ elems, valOKb H.length w = true := by
            simp only [objOKb, List.all_eq_true] at hobjOK
            exact hobjOK
          have hc := unregCount_push H s a s.out.length
            (s.out ++ [Record.arrayRec []]) ha hm
          have hinv1 : SInv ⟨(JSVal.ref a, s.out.length) :: s.idmap,
              s.out ++ [Record.arrayRec []]⟩ := SInv_push hinv hm rfl
          rcases encList_total (H := H) (B := fuel)
              (pairF_frame strict false H fuel)
              (fun v s hi hv hb => ih v s hi hv hb) elems _ hinv1 hvals
              (by omega) with ⟨⟨idxs, s2⟩, hok⟩ | htns
          · simp only [okOrTNS, pairF, hm, hO, SSt.push, hok]; exact Or.inl ⟨_, rfl⟩
          · simp only [okOrTNS, pairF, hm, hO, SSt.push, htns]; exact Or.inr trivial
        | obj props tj =>
          have hvals : ∀ p ∈ props, valOKb H.length p.2 = true := by
            simp only [objOKb] at hobjOK
            simp only [Bool.and_eq_true, List.all_eq_true] at hobjOK
            exact fun p hp => hobjOK.1.1 p hp
          have hc := unregCount_push H s a s.out.length
            (s.out ++ [Record.objectRec []]) ha hm
          have hinv1 : SInv ⟨(JSVal.ref a, s.out.length) :: s.idmap,
              s.out ++ [Record.objectRec []]⟩ := SInv_push hinv hm rfl
          rcases encProps_total strict (H := H) (B := fuel)
              (pairF_frame strict false H fuel)
              (fun v s hi hv hb => ih v s hi hv hb) props _ hinv1 hvals
              (by omega) with ⟨⟨es, s2⟩, hok⟩ | htns
          · simp only [okOrTNS, pairF, hm, hO, SSt.push, hok]; exact Or.inl ⟨_, rfl⟩
          · simp only [okOrTNS, pairF, hm, hO, SSt.push, htns]; exact Or.inr trivial
        | mapObj entries =>
          have hvals : ∀ p ∈ entries,
              valOKb H.length p.1 = true ∧ valOKb H.length p.2 = true := by
            simp only [objOKb] at hobjOK
            simp only [Bool.and_eq_true, List.all_eq_true] at hobjOK
            exact fun p hp => hobjOK.1 p hp
          have hc := unregCount_push H s a s.out.length
            (s.out ++ [Record.mapRec []]) ha hm
          have hinv1 : SInv ⟨(JSVal.ref a, s.out.length) :: s.idmap,
              s.out ++ [Record.mapRec []]⟩ := SInv_push hinv hm rfl
          rcases encEntries_total strict (H := H) (B := fuel)
              (pairF_frame strict false H fuel)
              (fun v s hi hv hb => ih v s hi hv hb) entries _ hinv1 hvals
              (by omega) with ⟨⟨es, s2⟩, hok⟩ | htns
          · simp only [okOrTNS, pairF, hm, hO, SSt.push, hok]; exact Or.inl ⟨_, rfl⟩
          · simp only [okOrTNS, pairF, hm, hO, SSt.push, htns]; exact Or.inr trivial
        | setObj elems =>
          have hvals : ∀ w ∈ elems, valOKb H.length w = true := by
            simp only [objOKb] at hobjOK
            simp only [Bool.and_eq_true, List.all_eq_true] at hobjOK
            exact fun w hw => hobjOK.1 w hw
          have hc := unregCount_push H s a s.out.length
            (s.out ++ [Record.setRec []]) ha hm
          have hinv1 : SInv ⟨(JSVal.ref a, s.out.length) :: s.idmap,
              s.out ++ [Record.setRec []]⟩ := SInv_push hinv hm rfl
          rcases encElems_total strict (H := H) (B := fuel)
              (pairF_frame strict false H fuel)
              (fun v s hi hv hb => ih v s hi hv hb) elems _ hinv1 hvals
              (by omega) with ⟨⟨idxs, s2⟩, hok⟩ | htns
          · simp only [okOrTNS, pairF, hm, hO, SSt.push, hok]; exact Or.inl ⟨_, rfl⟩
          · simp only [okOrTNS, pairF, hm, hO, SSt.push, htns]; exact Or.inr trivial
        | date iso => simp only [okOrTNS, pairF, hm, hO]; exact Or.inl ⟨_, rfl⟩
        | regexp src fl => simp only [okOrTNS, pairF, hm, hO]; exact Or.inl ⟨_, rfl⟩
        | errObj n m => simp only [okOrTNS, pairF, hm, hO]; exact Or.inl ⟨_, rfl⟩
        | boxedBool b => simp only [okOrTNS, pairF, hm, hO]; exact Or.inl ⟨_, rfl⟩
        | boxedNum n => simp only [okOrTNS, pairF, hm, hO]; exact Or.inl ⟨_, rfl⟩
        | boxedStr st => simp only [okOrTNS, pairF, hm, hO]; exact Or.inl ⟨_, rfl⟩
        | boxedBig b => simp only [okOrTNS, pairF, hm, hO]; exact Or.inl ⟨_, rfl⟩
        | typedArr tag elems => simp only [okOrTNS, pairF, hm, hO]; exact Or.inl ⟨_, rfl⟩
        | arrayBuffer bytes => simp only [okOrTNS, pairF, hm, hO]; exact Or.inl ⟨_, rfl⟩
        | dataView bytes off len => simp only [okOrTNS, pairF, hm, hO]; exact Or.inl ⟨_, rfl⟩


/-! ## Strict-mode wire correspondence -/

theorem lt_length_of_getElem?_some {α : Type} {l : List α} {n : Nat} {a : α}
    (h : l[n]? = some a) : n < l.length := by
  by_contra hc
  rw [List.getElem?_eq_none (by omega)] at h
  exact Option.noConfusion h

/-- What it means for slot `i` to hold the correct record for value `x`,
relative to an identity map `m` and output `out` (strict mode: object
properties are complete, function/symbol values are never registered,
`toJSON` plays no role). -/
def EncEntry (H : List JSObj) (m : List (JSVal × Nat)) (out : List Record) :
    JSVal → Nat → Prop
  | .prim .undef, i => out[i]? = some .void
  | .prim (.bigint b), i => out[i]? = some (.bigintRec (intToDec b))
  | .prim (.func _), _ => False
  | .prim (.symbol _), _ => False
  | .prim p, i => out[i]? = some (.primitive p)
  | .ref a, i =>
    ∃ o, H[a]? = some o ∧
      match o with
      | .arr elems => ∃ idxs, out[i]? = some (.arrayRec idxs) ∧
          List.Forall₂ (fun e j => alookup m e = some j) elems idxs
      | .obj props _ => ∃ es, out[i]? = some (.objectRec es) ∧
          List.Forall₂ (fun p q =>
            alookup m (.prim (.str p.1)) = some q.1 ∧
            alookup m p.2 = some q.2) props es
      | .mapObj entries => ∃ es, out[i]? = some (.mapRec es) ∧
          List.Forall₂ (fun p q =>
            alookup m p.1 = some q.1 ∧ alookup m p.2 = some q.2) entries es
      | .setObj elems => ∃ idxs, out[i]? = some (.setRec idxs) ∧
          List.Forall₂ (fun e j => alookup m e = some j) elems idxs
      | .date iso => out[i]? = some (.dateRec iso)
      | .regexp src fl => out[i]? = some (.regexpRec src fl)
      | .errObj n msg => out[i]? = some (.errorRec n msg)
      | .boxedBool b => out[i]? = some (.boxedBoolRec b)
      | .boxedNum n => out[i]? = some (.boxedNumRec n)
      | .boxedStr st => out[i]? = some (.boxedStrRec st)
      | .boxedBig b => out[i]? = some (.boxedBigRec (intToDec b))
      | .typedArr tag elems => out[i]? = some (.typedRec tag elems)
      | .arrayBuffer bytes => out[i]? = some (.typedRec "ArrayBuffer" bytes)
      | .dataView bytes _ _ => out[i]? = some (.typedRec "DataView" bytes)

theorem EncEntry_lt {H : List JSObj} {m : List (JSVal × Nat)}
    {out : List Record} {x : JSVal} {i : Nat}
    (he : EncEntry H m out x i) : i < out.length := by
  cases x with
  | prim p =>
    cases p <;>
      first
        | (simp only [EncEntry] at he; exact lt_length_of_getElem?_some he)
        | exact absurd he not_false
  | ref a =>
    simp only [EncEntry] at he
    obtain ⟨o, hO, ho⟩ := he
    cases o <;> simp only at ho <;>
      first
        | exact lt_length_of_getElem?_some ho
        | (obtain ⟨w, hw, _⟩ := ho; exact lt_length_of_getElem?_some hw)

theorem EncEntry_mono {H : List JSObj} {m m' : List (JSVal × Nat)}
    {out out' : List Record} {x : JSVal} {i : Nat}
    (he : EncEntry H m out x i)
    (hm : ∀ y k, alookup m y = some k → alookup m' y = some k)
    (hout : out'[i]? = out[i]?) : EncEntry H m' out' x i := by
  cases x with
  | prim p =>
    cases p <;> simp only [EncEntry] at he ⊢ <;> rw [hout] <;> exact he
  | ref a =>
    simp only [EncEntry] at he ⊢
    obtain ⟨o, hO, ho⟩ := he
    refine ⟨o, hO, ?_⟩
    cases o <;> simp only at ho ⊢
    case arr elems =>
      obtain ⟨idxs, hrec, hall⟩ := ho
      exact ⟨idxs, by rw [hout]; exact hrec,
        hall.imp (fun u w h2 => hm _ _ h2)⟩
    case obj props tj =>
      obtain ⟨es, hrec, hall⟩ := ho
      exact ⟨es, by rw [hout]; exact hrec,
        hall.imp (fun u w h2 => ⟨hm _ _ h2.1, hm _ _ h2.2⟩)⟩
    case mapObj entries =>
      obtain ⟨es, hrec, hall⟩ := ho
      exact ⟨es, by rw [hout]; exact hrec,
        hall.imp (fun u w h2 => ⟨hm _ _ h2.1, hm _ _ h2.2⟩)⟩
    case setObj elems =>
      obtain ⟨idxs, hrec, hall⟩ := ho
      exact ⟨idxs, by rw [hout]; exact hrec,
        hall.imp (fun u w h2 => hm _ _ h2)⟩
    all_goals rw [hout]; exact ho

theorem forall2_mem_left {α β : Type} {R : α → β → Prop} {l1 : List α}
    {l2 : List β} (h : List.Forall₂ R l1 l2) {x : α} (hx : x ∈ l1) :
    ∃ y, y ∈ l2 ∧ R x y := by
  induction h with
  | nil => cases hx
  | cons hr htl ih =>
    rcases List.mem_cons.mp hx with h1 | h2
    · subst h1; exact ⟨_, List.mem_cons_self _ _, hr⟩
    · obtain ⟨y, hy, hxy⟩ := ih h2
      exact ⟨y, List.mem_cons_of_mem _ hy, hxy⟩

theorem mem_childVals_obj {ps : List (String × JSVal)} {tj : Option JSVal}
    {w : JSVal} (hw : w ∈ childVals (.obj ps tj)) :
    ∃ p ∈ ps, w = .prim (.str p.1) ∨ w = p.2 := by
  simp only [childVals] at hw
  induction ps with
  | nil => cases hw
  | cons hd tl ih =>
    simp only [List.foldr_cons, List.mem_cons] at hw
    rcases hw with h1 | h2 | h3
    · exact ⟨hd, List.mem_cons_self _ _, Or.inl h1⟩
    · exact ⟨hd, List.mem_cons_self _ _, Or.inr h2⟩
    · obtain ⟨p, hp, hor⟩ := ih h3
      exact ⟨p, List.mem_cons_of_mem _ hp, hor⟩

theorem mem_childVals_map {es : List (JSVal × JSVal)} {w : JSVal}
    (hw : w ∈ childVals (.mapObj es)) :
    ∃ p ∈ es, w = p.1 ∨ w = p.2 := by
  simp only [childVals] at hw
  induction es with
  | nil => cases hw
  | cons hd tl ih =>
    simp only [List.foldr_cons, List.mem_cons] at hw
    rcases hw with h1 | h2 | h3
    · exact ⟨hd, List.mem_cons_self _ _, Or.inl h1⟩
    · exact ⟨hd, List.mem_cons_self _ _, Or.inr h2⟩
    · obtain ⟨p, hp, hor⟩ := ih h3
      exact ⟨p, List.mem_cons_of_mem _ hp, hor⟩

/-- Strict-mode specification of one encoding step: on success the value
is registered at the returned slot, and every identity-map entry is
either inherited or a fresh, wire-correct one. -/
def PairStr (H : List JSObj) (f : JSVal → SSt → Except SErr (Nat × SSt)) : Prop :=
  ∀ v s i s', f v s = .ok (i, s') → SInv s →
    alookup s'.idmap v = some i ∧
    (∀ x j, alookup s'.idmap x = some j →
      alookup s.idmap x = some j ∨
        (s.out.length ≤ j ∧ EncEntry H s'.idmap s'.out x j))

theorem encList_entries {H : List JSObj}
    {f : JSVal → SSt → Except SErr (Nat × SSt)} (hframe : EncStepFrame f)
    (hstr : PairStr H f) :
    ∀ (l : List JSVal) (s : SSt) (is : List Nat) (s' : SSt),
      encList f l s = .ok (is, s') → SInv s →
        List.Forall₂ (fun v i => alookup s'.idmap v = some i) l is ∧
        (∀ x j, alookup s'.idmap x = some j →
          alookup s.idmap x = some j ∨
            (s.out.length ≤ j ∧ EncEntry H s'.idmap s'.out x j)) := by
  intro l
  induction l with
  | nil =>
    intro s is s' h hinv
    rw [encList] at h
    cases h
    exact ⟨.nil, fun x j hx => Or.inl hx⟩
  | cons hd tl ih =>
    intro s is s' h hinv
    rw [encList] at h
    cases hf1 : f hd s with
    | error e => simp only [hf1] at h; exact Except.noConfusion h
    | ok p =>
      obtain ⟨i, s1⟩ := p
      simp only [hf1] at h
      cases hl : encList f tl s1 with
      | error e => simp only [hl] at h; exact Except.noConfusion h
      | ok q =>
        obtain ⟨is2, s2⟩ := q
        simp only [hl] at h
        cases h
        obtain ⟨hext1, hinv1, _⟩ := hframe hd s _ _ hf1 hinv
        obtain ⟨hreg1, hnew1⟩ := hstr hd s _ _ hf1 hinv
        obtain ⟨hext2, hinv2, _⟩ := encList_frame hframe tl s1 _ _ hl hinv1
        obtain ⟨hall2, hnew2⟩ := ih s1 _ _ hl hinv1
        refine ⟨.cons (hext2.1 _ _ hreg1) hall2, ?_⟩
        intro x j hx
        rcases hnew2 x j hx with hold | ⟨hge, he⟩
        · rcases hnew1 x j hold with hold0 | ⟨hge0, he0⟩
          · exact Or.inl hold0
          · exact Or.inr ⟨hge0, EncEntry_mono he0
              (fun y k hy => hext2.1 y k hy) (hext2.2.2 j (EncEntry_lt he0))⟩
        · exact Or.inr ⟨le_trans hext1.2.1 hge, he⟩

theorem encElems_entries {H : List JSObj}
    {f : JSVal → SSt → Except SErr (Nat × SSt)} (hframe : EncStepFrame f)
    (hstr : PairStr H f) :
    ∀ (l : List JSVal) (s : SSt) (is : List Nat) (s' : SSt),
      encElems true f l s = .ok (is, s') → SInv s →
        List.Forall₂ (fun v i => alookup s'.idmap v = some i) l is ∧
        (∀ x j, alookup s'.idmap x = some j →
          alookup s.idmap x = some j ∨
            (s.out.length ≤ j ∧ EncEntry H s'.idmap s'.out x j)) := by
  intro l
  induction l with
  | nil =>
    intro s is s' h hinv
    rw [encElems] at h
    cases h
    exact ⟨.nil, fun x j hx => Or.inl hx⟩
  | cons hd tl ih =>
    intro s is s' h hinv
    rw [encElems, if_pos (by simp)] at h
    cases hf1 : f hd s with
    | error e => simp only [hf1] at h; exact Except.noConfusion h
    | ok p =>
      obtain ⟨i, s1⟩ := p
      simp only [hf1] at h
      cases hl : encElems true f tl s1 with
      | error e => simp only [hl] at h; exact Except.noConfusion h
      | ok q =>
        obtain ⟨is2, s2⟩ := q
        simp only [hl] at h
        cases h
        obtain ⟨hext1, hinv1, _⟩ := hframe hd s _ _ hf1 hinv
        obtain ⟨hreg1, hnew1⟩ := hstr hd s _ _ hf1 hinv
        obtain ⟨hext2, hinv2, _⟩ := encElems_frame hframe tl s1 _ _ hl hinv1
        obtain ⟨hall2, hnew2⟩ := ih s1 _ _ hl hinv1
        refine ⟨.cons (hext2.1 _ _ hreg1) hall2, ?_⟩
        intro x j hx
        rcases hnew2 x j hx with hold | ⟨hge, he⟩
        · rcases hnew1 x j hold with hold0 | ⟨hge0, he0⟩
          · exact Or.inl hold0
          · exact Or.inr ⟨hge0, EncEntry_mono he0
              (fun y k hy => hext2.1 y k hy) (hext2.2.2 j (EncEntry_lt he0))⟩
        · exact Or.inr ⟨le_trans hext1.2.1 hge, he⟩

theorem encProps_entries {H : List JSObj}
    {f : JSVal → SSt → Except SErr (Nat × SSt)} (hframe : EncStepFrame f)
    (hstr : PairStr H f) :
    ∀ (l : List (String × JSVal)) (s : SSt) (es : List (Nat × Nat)) (s' : SSt),
      encProps true f l s = .ok (es, s') → SInv s →
        List.Forall₂ (fun p q =>
          alookup s'.idmap (.prim (.str p.1)) = some q.1 ∧
          alookup s'.idmap p.2 = some q.2) l es ∧
        (∀ x j, alookup s'.idmap x = some j →
          alookup s.idmap x = some j ∨
            (s.out.length ≤ j ∧ EncEntry H s'.idmap s'.out x j)) := by
  intro l
  induction l with
  | nil =>
    intro s es s' h hinv
    rw [encProps] at h
    cases h
    exact ⟨.nil, fun x j hx => Or.inl hx⟩
  | cons hd tl ih =>
    obtain ⟨k, v⟩ := hd
    intro s es s' h hinv
    rw [encProps, if_pos (by simp)] at h
    cases hf1 : f (.prim (.str k)) s with
    | error e => simp only [hf1] at h; exact Except.noConfusion h
    | ok p =>
      obtain ⟨ki, s1⟩ := p
      simp only [hf1] at h
      cases hf2 : f v s1 with
      | error e => simp only [hf2] at h; exact Except.noConfusion h
      | ok q =>
        obtain ⟨vi, s2⟩ := q
        simp only [hf2] at h
        cases hl : encProps true f tl s2 with
        | error e => simp only [hl] at h; exact Except.noConfusion h
        | ok r =>
          obtain ⟨es3, s3⟩ := r
          simp only [hl] at h
          cases h
          obtain ⟨hext1, hinv1, _⟩ := hframe _ s _ _ hf1 hinv
          obtain ⟨hreg1, hnew1⟩ := hstr _ s _ _ hf1 hinv
          obtain ⟨hext2, hinv2, _⟩ := hframe _ s1 _ _ hf2 hinv1
          obtain ⟨hreg2, hnew2⟩ := hstr _ s1 _ _ hf2 hinv1
          obtain ⟨hext3, hinv3, _⟩ := encProps_frame hframe tl s2 _ _ hl hinv2
          obtain ⟨hall3, hnew3⟩ := ih s2 _ _ hl hinv2
          refine ⟨.cons ⟨hext3.1 _ _ (hext2.1 _ _ hreg1), hext3.1 _ _ hreg2⟩ hall3, ?_⟩
          intro x j hx
          rcases hnew3 x j hx with hold2 | ⟨hge, he⟩
          · rcases hnew2 x j hold2 with hold1 | ⟨hge1, he1⟩
            · rcases hnew1 x j hold1 with hold0 | ⟨hge0, he0⟩
              · exact Or.inl hold0
              · exact Or.inr ⟨hge0, EncEntry_mono he0
                  (fun y kk hy => hext3.1 y kk (hext2.1 y kk hy))
                  (by rw [hext3.2.2 j (lt_of_lt_of_le (EncEntry_lt he0) hext2.2.1),
                        hext2.2.2 j (EncEntry_lt he0)])⟩
            · exact Or.inr ⟨le_trans hext1.2.1 hge1, EncEntry_mono he1
                (fun y kk hy => hext3.1 y kk hy) (hext3.2.2 j (EncEntry_lt he1))⟩
          · exact Or.inr ⟨le_trans (le_trans hext1.2.1 hext2.2.1) hge, he⟩

theorem encEntries_entries {H : List JSObj}
    {f : JSVal → SSt → Except SErr (Nat × SSt)} (hframe : EncStepFrame f)
    (hstr : PairStr H f) :
    ∀ (l : List (JSVal × JSVal)) (s : SSt) (es : List (Nat × Nat)) (s' : SSt),
      encEntries true f l s = .ok (es, s') → SInv s →
        List.Forall₂ (fun p q =>
          alookup s'.idmap p.1 = some q.1 ∧
          alookup s'.idmap p.2 = some q.2) l es ∧
        (∀ x j, alookup s'.idmap x = some j →
          alookup s.idmap x = some j ∨
            (s.out.length ≤ j ∧ EncEntry H s'.idmap s'.out x j)) := by
  intro l
  induction l with
  | nil =>
    intro s es s' h hinv
    rw [encEntries] at h
    cases h
    exact ⟨.nil, fun x j hx => Or.inl hx⟩
  | cons hd tl ih =>
    obtain ⟨k, v⟩ := hd
    intro s es s' h hinv
    rw [encEntries, if_pos (by simp)] at h
    cases hf1 : f k s with
    | error e => simp only [hf1] at h; exact Except.noConfusion h
    | ok p =>
      obtain ⟨ki, s1⟩ := p
      simp only [hf1] at h
      cases hf2 : f v s1 with
      | error e => simp only [hf2] at h; exact Except.noConfusion h
      | ok q =>
        obtain ⟨vi, s2⟩ := q
        simp only [hf2] at h
        cases hl : encEntries true f tl s2 with
        | error e => simp only [hl] at h; exact Except.noConfusion h
        | ok r =>
          obtain ⟨es3, s3⟩ := r
          simp only [hl] at h
          cases h
          obtain ⟨hext1, hinv1, _⟩ := hframe _ s _ _ hf1 hinv
          obtain ⟨hreg1, hnew1⟩ := hstr _ s _ _ hf1 hinv
          obtain ⟨hext2, hinv2, _⟩ := hframe _ s1 _ _ hf2 hinv1
          obtain ⟨hreg2, hnew2⟩ := hstr _ s1 _ _ hf2 hinv1
          obtain ⟨hext3, hinv3, _⟩ := encEntries_frame hframe tl s2 _ _ hl hinv2
          obtain ⟨hall3, hnew3⟩ := ih s2 _ _ hl hinv2
          refine ⟨.cons ⟨hext3.1 _ _ (hext2.1 _ _ hreg1), hext3.1 _ _ hreg2⟩ hall3, ?_⟩
          intro x j hx
          rcases hnew3 x j hx with hold2 | ⟨hge, he⟩
          · rcases hnew2 x j hold2 with hold1 | ⟨hge1, he1⟩
            · rcases hnew1 x j hold1 with hold0 | ⟨hge0, he0⟩
              · exact Or.inl hold0
              · exact Or.inr ⟨hge0, EncEntry_mono he0
                  (fun y kk hy => hext3.1 y kk (hext2.1 y kk hy))
                  (by rw [hext3.2.2 j (lt_of_lt_of_le (EncEntry_lt he0) hext2.2.1),
                        hext2.2.2 j (EncEntry_lt he0)])⟩
            · exact Or.inr ⟨le_trans hext1.2.1 hge1, EncEntry_mono he1
                (fun y kk hy => hext3.1 y kk hy) (hext3.2.2 j (EncEntry_lt he1))⟩
          · exact Or.inr ⟨le_trans (le_trans hext1.2.1 hext2.2.1) hge, he⟩

theorem pairStr_push {H : List JSObj} {s : SSt} {v : JSVal} {rec : Record}
    (he : EncEntry H ((v, s.out.length) :: s.idmap) (s.out ++ [rec]) v
      s.out.length) :
    alookup ((v, s.out.length) :: s.idmap) v = some s.out.length ∧
    (∀ x j, alookup ((v, s.out.length) :: s.idmap) x = some j →
      alookup s.idmap x = some j ∨
        (s.out.length ≤ j ∧
          EncEntry H ((v, s.out.length) :: s.idmap) (s.out ++ [rec]) x j)) := by
  refine ⟨alookup_cons_self, ?_⟩
  intro x j hx
  rcases alookup_cons_split hx with ⟨hxv, hjn⟩ | hold
  · subst hxv; subst hjn
    exact Or.inr ⟨le_refl _, he⟩
  · exact Or.inl hold

/-- The strict-mode encoder registers each encoded value at its slot and
creates only wire-correct identity-map entries. -/
theorem pairF_entries (H : List JSObj) :
    ∀ fuel, PairStr H (pairF true false H fuel) := by
  intro fuel
  induction fuel with
  | zero => intro v s i s' h hinv; simp [pairF] at h
  | succ fuel ih =>
    intro v s i s' h hinv
    cases v with
    | prim p =>
      cases hm : alookup s.idmap (JSVal.prim p) with
      | some k =>
        cases p <;> simp only [pairF, hm] at h <;> cases h <;>
          exact ⟨hm, fun x j hx => Or.inl hx⟩
      | none =>
        cases p with
        | func id => simp only [pairF, hm, if_true] at h; exact Except.noConfusion h
        | symbol id => simp only [pairF, hm, if_true] at h; exact Except.noConfusion h
        | undef =>
          simp only [pairF, hm, SSt.push] at h
          cases h
          exact pairStr_push (by
            simp only [EncEntry]
            exact List.getElem?_concat_length _ _)
        | null =>
          simp only [pairF, hm, SSt.push] at h
          cases h
          exact pairStr_push (by
            simp only [EncEntry]
            exact List.getElem?_concat_length _ _)
        | bool b =>
          simp only [pairF, hm, SSt.push] at h
          cases h
          exact pairStr_push (by
            simp only [EncEntry]
            exact List.getElem?_concat_length _ _)
        | num n =>
          simp only [pairF, hm, SSt.push] at h
          cases h
          exact pairStr_push (by
            simp only [EncEntry]
            exact List.getElem?_concat_length _ _)
        | str st =>
          simp only [pairF, hm, SSt.push] at h
          cases h
          exact pairStr_push (by
            simp only [EncEntry]
            exact List.getElem?_concat_length _ _)
        | bigint b =>
          simp only [pairF, hm, SSt.push] at h
          cases h
          exact pairStr_push (by
            simp only [EncEntry]
            exact List.getElem?_concat_length _ _)
    | ref a =>
      simp only [pairF] at h
      cases hm : alookup s.idmap (JSVal.ref a) with
      | some k =>
        simp only [hm] at h
        cases h
        exact ⟨hm, fun x j hx => Or.inl hx⟩
      | none =>
        simp only [hm] at h
        cases hO : H[a]? with
        | none => simp only [hO] at h; exact Except.noConfusion h
        | some o =>
          simp only [hO] at h
          cases o with
          | arr elems =>
            simp only [SSt.push] at h
            cases hl : encList (pairF true false H fuel) elems
                ⟨(JSVal.ref a, s.out.length) :: s.idmap,
                 s.out ++ [.arrayRec []]⟩ with
            | error e => simp only [hl] at h; exact Except.noConfusion h
            | ok q =>
              obtain ⟨idxs, s2⟩ := q
              simp only [hl] at h
              cases h
              have hinv1 : SInv ⟨(JSVal.ref a, s.out.length) :: s.idmap,
                  s.out ++ [Record.arrayRec []]⟩ := SInv_push hinv hm rfl
              obtain ⟨hext2, hinv2, _⟩ :=
                encList_frame (pairF_frame true false H fuel) elems _ _ _ hl hinv1
              obtain ⟨hall2, hnew2⟩ :=
                encList_entries (pairF_frame true false H fuel) ih elems _ _ _ hl hinv1
              have hlen : s.out.length + 1 ≤ s2.out.length := by
                have := hext2.2.1
                simpa using this
              have hreg : alookup s2.idmap (JSVal.ref a) = some s.out.length :=
                hext2.1 _ _ alookup_cons_self
              have hown : EncEntry H (s2.patch s.out.length (.arrayRec idxs)).idmap
                  (s2.patch s.out.length (.arrayRec idxs)).out (JSVal.ref a)
                  s.out.length := by
                simp only [EncEntry, SSt.patch]
                exact ⟨_, hO, idxs,
                  List.getElem?_set_self (by omega), hall2⟩
              refine ⟨hreg, ?_⟩
              intro x j hx
              simp only [SSt.patch] at hx
              rcases hnew2 x j hx with hold1 | ⟨hge, he⟩
              · rcases alookup_cons_split hold1 with ⟨hxv, hjl⟩ | hold0
                · subst hxv; subst hjl
                  exact Or.inr ⟨le_refl _, hown⟩
                · exact Or.inl hold0
              · simp only [List.length_append, List.length_singleton] at hge
                refine Or.inr ⟨by omega, ?_⟩
                refine EncEntry_mono he (fun y k hy => hy) ?_
                simp only [SSt.patch]
                rw [List.getElem?_set_ne (by omega)]
          | obj props tj =>
            simp only [SSt.push] at h
            cases hl : encProps true (pairF true false H fuel) props
                ⟨(JSVal.ref a, s.out.length) :: s.idmap,
                 s.out ++ [.objectRec []]⟩ with
            | error e => simp only [hl] at h; exact Except.noConfusion h
            | ok q =>
              obtain ⟨es, s2⟩ := q
              simp only [hl] at h
              cases h
              have hinv1 : SInv ⟨(JSVal.ref a, s.out.length) :: s.idmap,
                  s.out ++ [Record.objectRec []]⟩ := SInv_push hinv hm rfl
              obtain ⟨hext2, hinv2, _⟩ :=
                encProps_frame (pairF_frame true false H fuel) props _ _ _ hl hinv1
              obtain ⟨hall2, hnew2⟩ :=
                encProps_entries (pairF_frame true false H fuel) ih props _ _ _ hl hinv1
              have hlen : s.out.length + 1 ≤ s2.out.length := by
                have := hext2.2.1
                simpa using this
              have hreg : alookup s2.idmap (JSVal.ref a) = some s.out.length :=
                hext2.1 _ _ alookup_cons_self
              have hown : EncEntry H (s2.patch s.out.length (.objectRec es)).idmap
                  (s2.patch s.out.length (.objectRec es)).out (JSVal.ref a)
                  s.out.length := by
                simp only [EncEntry, SSt.patch]
                exact ⟨_, hO, es,
                  List.getElem?_set_self (by omega), hall2⟩
              refine ⟨hreg, ?_⟩
              intro x j hx
              simp only [SSt.patch] at hx
              rcases hnew2 x j hx with hold1 | ⟨hge, he⟩
              · rcases alookup_cons_split hold1 with ⟨hxv, hjl⟩ | hold0
                · subst hxv; subst hjl
                  exact Or.inr ⟨le_refl _, hown⟩
                · exact Or.inl hold0
              · simp only [List.length_append, List.length_singleton] at hge
                refine Or.inr ⟨by omega, ?_⟩
                refine EncEntry_mono he (fun y k hy => hy) ?_
                simp only [SSt.patch]
                rw [List.getElem?_set_ne (by omega)]
          | mapObj entries =>
            simp only [SSt.push] at h
            cases hl : encEntries true (pairF true false H fuel) entries
                ⟨(JSVal.ref a, s.out.length) :: s.idmap,
                 s.out ++ [.mapRec []]⟩ with
            | error e => simp only [hl] at h; exact Except.noConfusion h
            | ok q =>
              obtain ⟨es, s2⟩ := q
              simp only [hl] at h
              cases h
              have hinv1 : SInv ⟨(JSVal.ref a, s.out.length) :: s.idmap,
                  s.out ++ [Record.mapRec []]⟩ := SInv_push hinv hm rfl
              obtain ⟨hext2, hinv2, _⟩ :=
                encEntries_frame (pairF_frame true false H fuel) entries _ _ _ hl hinv1
              obtain ⟨hall2, hnew2⟩ :=
                encEntries_entries (pairF_frame true false H fuel) ih entries _ _ _ hl hinv1
              have hlen : s.out.length + 1 ≤ s2.out.length := by
                have := hext2.2.1
                simpa using this
              have hreg : alookup s2.idmap (JSVal.ref a) = some s.out.length :=
                hext2.1 _ _ alookup_cons_self
              have hown : EncEntry H (s2.patch s.out.length (.mapRec es)).idmap
                  (s2.patch s.out.length (.mapRec es)).out (JSVal.ref a)
                  s.out.length := by
                simp only [EncEntry, SSt.patch]
                exact ⟨_, hO, es,
                  List.getElem?_set_self (by omega), hall2⟩
              refine ⟨hreg, ?_⟩
              intro x j hx
              simp only [SSt.patch] at hx
              rcases hnew2 x j hx with hold1 | ⟨hge, he⟩
              · rcases alookup_cons_split hold1 with ⟨hxv, hjl⟩ | hold0
                · subst hxv; subst hjl
                  exact Or.inr ⟨le_refl _, hown⟩
                · exact Or.inl hold0
              · simp only [List.length_append, List.length_singleton] at hge
                refine Or.inr ⟨by omega, ?_⟩
                refine EncEntry_mono he (fun y k hy => hy) ?_
                simp only [SSt.patch]
                rw [List.getElem?_set_ne (by omega)]
          | setObj elems =>
            simp only [SSt.push] at h
            cases hl : encElems true (pairF true false H fuel) elems
                ⟨(JSVal.ref a, s.out.length) :: s.idmap,
                 s.out ++ [.setRec []]⟩ with
            | error e => simp only [hl] at h; exact Except.noConfusion h
            | ok q =>
              obtain ⟨idxs, s2⟩ := q
              simp only [hl] at h
              cases h
              have hinv1 : SInv ⟨(JSVal.ref a, s.out.length) :: s.idmap,
                  s.out ++ [Record.setRec []]⟩ := SInv_push hinv hm rfl
              obtain ⟨hext2, hinv2, _⟩ :=
                encElems_frame (pairF_frame true false H fuel) elems _ _ _ hl hinv1
              obtain ⟨hall2, hnew2⟩ :=
                encElems_entries (pairF_frame true false H fuel) ih elems _ _ _ hl hinv1
              have hlen : s.out.length + 1 ≤ s2.out.length := by
                have := hext2.2.1
                simpa using this
              have hreg : alookup s2.idmap (JSVal.ref a) = some s.out.length :=
                hext2.1 _ _ alookup_cons_self
              have hown : EncEntry H (s2.patch s.out.length (.setRec idxs)).idmap
                  (s2.patch s.out.length (.setRec idxs)).out (JSVal.ref a)
                  s.out.length := by
                simp only [EncEntry, SSt.patch]
                exact ⟨_, hO, idxs,
                  List.getElem?_set_self (by omega), hall2⟩
              refine ⟨hreg, ?_⟩
              intro x j hx
              simp only [SSt.patch] at hx
              rcases hnew2 x j hx with hold1 | ⟨hge, he⟩
              · rcases alookup_cons_split hold1 with ⟨hxv, hjl⟩ | hold0
                · subst hxv; subst hjl
                  exact Or.inr ⟨le_refl _, hown⟩
                · exact Or.inl hold0
              · simp only [List.length_append, List.length_singleton] at hge
                refine Or.inr ⟨by omega, ?_⟩
                refine EncEntry_mono he (fun y k hy => hy) ?_
                simp only [SSt.patch]
                rw [List.getElem?_set_ne (by omega)]
          | date iso =>
            simp only [SSt.push] at h
            cases h
            exact pairStr_push (by
              simp only [EncEntry]
              exact ⟨_, hO, List.getElem?_concat_length _ _⟩)
          | regexp src fl =>
            simp only [SSt.push] at h
            cases h
            exact pairStr_push (by
              simp only [EncEntry]
              exact ⟨_, hO, List.getElem?_concat_length _ _⟩)
          | errObj n m =>
            simp only [SSt.push] at h
            cases h
            exact pairStr_push (by
              simp only [EncEntry]
              exact ⟨_, hO, List.getElem?_concat_length _ _⟩)
          | boxedBool b =>
            simp only [SSt.push] at h
            cases h
            exact pairStr_push (by
              simp only [EncEntry]
              exact ⟨_, hO, List.getElem?_concat_length _ _⟩)
          | boxedNum n =>
            simp only [SSt.push] at h
            cases h
            exact pairStr_push (by
              simp only [EncEntry]
              exact ⟨_, hO, List.getElem?_concat_length _ _⟩)
          | boxedStr st =>
            simp only [SSt.push] at h
            cases h
            exact pairStr_push (by
              simp only [EncEntry]
              exact ⟨_, hO, List.getElem?_concat_length _ _⟩)
          | boxedBig b =>
            simp only [SSt.push] at h
            cases h
            exact pairStr_push (by
              simp only [EncEntry]
              exact ⟨_, hO, List.getElem?_concat_length _ _⟩)
          | typedArr tag elems =>
            simp only [SSt.push] at h
            cases h
            exact pairStr_push (by
              simp only [EncEntry]
              exact ⟨_, hO, List.getElem?_concat_length _ _⟩)
          | arrayBuffer bytes =>
            simp only [SSt.push] at h
            cases h
            exact pairStr_push (by
              simp only [EncEntry]
              exact ⟨_, hO, List.getElem?_concat_length _ _⟩)
          | dataView bytes off len =>
            simp only [SSt.push] at h
            cases h
            exact pairStr_push (by
              simp only [EncEntry]
              exact ⟨_, hO, List.getElem?_concat_length _ _⟩)

/-! ## C4: the strict-mode TypeError, exactly on reachable functions/symbols -/

theorem childVals_obj_key {ps : List (String × JSVal)} {tj : Option JSVal}
    {p : String × JSVal} (hp : p ∈ ps) :
    JSVal.prim (.str p.1) ∈ childVals (.obj ps tj) := by
  simp only [childVals]
  induction ps with
  | nil => cases hp
  | cons hd tl ih =>
    simp only [List.foldr_cons, List.mem_cons]
    rcases List.mem_cons.mp hp with h1 | h2
    · subst h1; exact Or.inl rfl
    · exact Or.inr (Or.inr (ih h2))

theorem childVals_obj_val {ps : List (String × JSVal)} {tj : Option JSVal}
    {p : String × JSVal} (hp : p ∈ ps) : p.2 ∈ childVals (.obj ps tj) := by
  simp only [childVals]
  induction ps with
  | nil => cases hp
  | cons hd tl ih =>
    simp only [List.foldr_cons, List.mem_cons]
    rcases List.mem_cons.mp hp with h1 | h2
    · subst h1; exact Or.inr (Or.inl rfl)
    · exact Or.inr (Or.inr (ih h2))

theorem childVals_map_key {es : List (JSVal × JSVal)} {p : JSVal × JSVal}
    (hp : p ∈ es) : p.1 ∈ childVals (.mapObj es) := by
  simp only [childVals]
  induction es with
  | nil => cases hp
  | cons hd tl ih =>
    simp only [List.foldr_cons, List.mem_cons]
    rcases List.mem_cons.mp hp with h1 | h2
    · subst h1; exact Or.inl rfl
    · exact Or.inr (Or.inr (ih h2))

theorem childVals_map_val {es : List (JSVal × JSVal)} {p : JSVal × JSVal}
    (hp : p ∈ es) : p.2 ∈ childVals (.mapObj es) := by
  simp only [childVals]
  induction es with
  | nil => cases hp
  | cons hd tl ih =>
    simp only [List.foldr_cons, List.mem_cons]
    rcases List.mem_cons.mp hp with h1 | h2
    · subst h1; exact Or.inr (Or.inl rfl)
    · exact Or.inr (Or.inr (ih h2))

/-- Everything reachable from a registered value is registered (the
wire-correct identity map is closed under children). -/
theorem registered_reaches (H : List JSObj) (m : List (JSVal × Nat))
    (out : List Record)
    (hall : ∀ x j, alookup m x = some j → EncEntry H m out x j) :
    ∀ (v w : JSVal), Reaches H v w → ∀ i, alookup m v = some i →
      ∃ j, alookup m w = some j := by
  intro v w hr
  induction hr with
  | refl u => exact fun i hi => ⟨i, hi⟩
  | step hO hw hr2 ih =>
    intro i hi
    have he := hall _ _ hi
    simp only [EncEntry] at he
    obtain ⟨o2, hO2, harm⟩ := he
    rw [hO] at hO2
    injection hO2 with ho2
    subst ho2
    rename_i a o w2 u
    cases o with
    | arr elems =>
      obtain ⟨idxs, hrec, hallreg⟩ := harm
      obtain ⟨y, _, hy⟩ := forall2_mem_left hallreg hw
      exact ih _ hy
    | obj props tj =>
      obtain ⟨es, hrec, hallreg⟩ := harm
      obtain ⟨p, hp, hor⟩ := mem_childVals_obj hw
      obtain ⟨q, _, hq⟩ := forall2_mem_left hallreg hp
      rcases hor with h1 | h2
      · subst h1; exact ih _ hq.1
      · subst h2; exact ih _ hq.2
    | mapObj entries =>
      obtain ⟨es, hrec, hallreg⟩ := harm
      obtain ⟨p, hp, hor⟩ := mem_childVals_map hw
      obtain ⟨q, _, hq⟩ := forall2_mem_left hallreg hp
      rcases hor with h1 | h2
      · subst h1; exact ih _ hq.1
      · subst h2; exact ih _ hq.2
    | setObj elems =>
      obtain ⟨idxs, hrec, hallreg⟩ := harm
      obtain ⟨y, _, hy⟩ := forall2_mem_left hallreg hw
      exact ih _ hy
    | date iso => cases hw
    | regexp src fl => cases hw
    | errObj n msg => cases hw
    | boxedBool b => cases hw
    | boxedNum n => cases hw
    | boxedStr st => cases hw
    | boxedBig b => cases hw
    | typedArr tag elems => cases hw
    | arrayBuffer bytes => cases hw
    | dataView bytes off len => cases hw

/-- If the strict-mode encoder succeeds, nothing reachable from the root
is a function or symbol. -/
theorem serialize_ok_no_fnsym (H : List JSObj) (v : JSVal) (i : Nat)
    (s' : SSt) (hok : serializeW H v false false = .ok (i, s')) :
    ∀ w, Reaches H v w → shouldSkip w = false := by
  obtain ⟨hreg, hnew⟩ :=
    pairF_entries H (encFuel H) v ⟨[], []⟩ i s' hok SInv_empty
  have hall : ∀ x j, alookup s'.idmap x = some j →
      EncEntry H s'.idmap s'.out x j := by
    intro x j hx
    rcases hnew x j hx with h0 | ⟨_, he⟩
    · simp [alookup] at h0
    · exact he
  intro w hr
  obtain ⟨j, hj⟩ := registered_reaches H s'.idmap s'.out hall v w hr i hreg
  have hw := hall w j hj
  cases w with
  | ref a => rfl
  | prim p =>
    cases p <;> first
      | rfl
      | simp only [EncEntry] at hw

theorem encList_err_reaches {f : JSVal → SSt → Except SErr (Nat × SSt)}
    (P : JSVal → Prop)
    (hf : ∀ v s, f v s = .error .typeNotSerializable → P v) :
    ∀ (l : List JSVal) (s : SSt),
      encList f l s = .error .typeNotSerializable → ∃ v ∈ l, P v := by
  intro l
  induction l with
  | nil => intro s h; simp [encList] at h
  | cons hd tl ih =>
    intro s h
    rw [encList] at h
    cases hf1 : f hd s with
    | error e =>
      simp only [hf1] at h
      injection h with h2
      subst h2
      exact ⟨hd, List.mem_cons_self _ _, hf hd s hf1⟩
    | ok p =>
      obtain ⟨i, s1⟩ := p
      simp only [hf1] at h
      cases hl : encList f tl s1 with
      | error e =>
        simp only [hl] at h
        injection h with h2
        subst h2
        obtain ⟨v, hv, hp⟩ := ih s1 hl
        exact ⟨v, List.mem_cons_of_mem _ hv, hp⟩
      | ok q =>
        simp only [hl] at h
        exact Except.noConfusion h

theorem encElems_err_reaches {f : JSVal → SSt → Except SErr (Nat × SSt)}
    (P : JSVal → Prop)
    (hf : ∀ v s, f v s = .error .typeNotSerializable → P v) :
    ∀ (l : List JSVal) (s : SSt),
      encElems true f l s = .error .typeNotSerializable → ∃ v ∈ l, P v := by
  intro l
  induction l with
  | nil => intro s h; simp [encElems] at h
  | cons hd tl ih =>
    intro s h
    rw [encElems, if_pos (by simp)] at h
    cases hf1 : f hd s with
    | error e =>
      simp only [hf1] at h
      injection h with h2
      subst h2
      exact ⟨hd, List.mem_cons_self _ _, hf hd s hf1⟩
    | ok p =>
      obtain ⟨i, s1⟩ := p
      simp only [hf1] at h
      cases hl : encElems true f tl s1 with
      | error e =>
        simp only [hl] at h
        injection h with h2
        subst h2
        obtain ⟨v, hv, hp⟩ := ih s1 hl
        exact ⟨v, List.mem_cons_of_mem _ hv, hp⟩
      | ok q =>
        simp only [hl] at h
        exact Except.noConfusion h

theorem encProps_err_reaches {f : JSVal → SSt → Except SErr (Nat × SSt)}
    (P : JSVal → Prop)
    (hf : ∀ v s, f v s = .error .typeNotSerializable → P v) :
    ∀ (l : List (String × JSVal)) (s : SSt),
      encProps true f l s = .error .typeNotSerializable →
        ∃ p ∈ l, P (.prim (.str p.1)) ∨ P p.2 := by
  intro l
  induction l with
  | nil => intro s h; simp [encProps] at h
  | cons hd tl ih =>
    obtain ⟨k, v⟩ := hd
    intro s h
    rw [encProps, if_pos (by simp)] at h
    cases hf1 : f (.prim (.str k)) s with
    | error e =>
      simp only [hf1] at h
      injection h with h2
      subst h2
      exact ⟨(k, v), List.mem_cons_self _ _, Or.inl (hf _ s hf1)⟩
    | ok p =>
      obtain ⟨ki, s1⟩ := p
      simp only [hf1] at h
      cases hf2 : f v s1 with
      | error e =>
        simp only [hf2] at h
        injection h with h2
        subst h2
        exact ⟨(k, v), List.mem_cons_self _ _, Or.inr (hf _ s1 hf2)⟩
      | ok q =>
        obtain ⟨vi, s2⟩ := q
        simp only [hf2] at h
        cases hl : encProps true f tl s2 with
        | error e =>
          simp only [hl] at h
          injection h with h2
          subst h2
          obtain ⟨p, hp, hpq⟩ := ih s2 hl
          exact ⟨p, List.mem_cons_of_mem _ hp, hpq⟩
        | ok r =>
          simp only [hl] at h
          exact Except.noConfusion h

theorem encEntries_err_reaches {f : JSVal → SSt → Except SErr (Nat × SSt)}
    (P : JSVal → Prop)
    (hf : ∀ v s, f v s = .error .typeNotSerializable → P v) :
    ∀ (l : List (JSVal × JSVal)) (s : SSt),
      encEntries true f l s = .error .typeNotSerializable →
        ∃ p ∈ l, P p.1 ∨ P p.2 := by
  intro l
  induction l with
  | nil => intro s h; simp [encEntries] at h
  | cons hd tl ih =>
    obtain ⟨k, v⟩ := hd
    intro s h
    rw [encEntries, if_pos (by simp)] at h
    cases hf1 : f k s with
    | error e =>
      simp only [hf1] at h
      injection h with h2
      subst h2
      exact ⟨(k, v), List.mem_cons_self _ _, Or.inl (hf _ s hf1)⟩
    | ok p =>
      obtain ⟨ki, s1⟩ := p
      simp only [hf1] at h
      cases hf2 : f v s1 with
      | error e =>
        simp only [hf2] at h
        injection h with h2
        subst h2
        exact ⟨(k, v), List.mem_cons_self _ _, Or.inr (hf _ s1 hf2)⟩
      | ok q =>
        obtain ⟨vi, s2⟩ := q
        simp only [hf2] at h
        cases hl : encEntries true f tl s2 with
        | error e =>
          simp only [hl] at h
          injection h with h2
          subst h2
          obtain ⟨p, hp, hpq⟩ := ih s2 hl
          exact ⟨p, List.mem_cons_of_mem _ hp, hpq⟩
        | ok r =>
          simp only [hl] at h
          exact Except.noConfusion h

/-- When the strict encoder throws TypeNotSerializable, a function or
symbol is reachable from the value being encoded. -/
theorem pairF_tns_reaches (H : List JSObj) :
    ∀ (fuel : Nat) (v : JSVal) (s : SSt),
      pairF true false H fuel v s = .error .typeNotSerializable →
        ∃ w, Reaches H v w ∧ shouldSkip w = true := by
  intro fuel
  induction fuel with
  | zero => intro v s h; simp [pairF] at h
  | succ fuel ih =>
    intro v s h
    cases v with
    | prim p =>
      cases hm : alookup s.idmap (JSVal.prim p) with
      | some i =>
        cases p <;> simp only [pairF, hm] at h <;> exact Except.noConfusion h
      | none =>
        cases p <;> simp only [pairF, hm] at h <;>
          first
            | exact ⟨_, .refl _, rfl⟩
            | exact Except.noConfusion h
    | ref a =>
      simp only [pairF] at h
      cases hm : alookup s.idmap (JSVal.ref a) with
      | some i => simp only [hm] at h; exact Except.noConfusion h
      | none =>
        simp only [hm] at h
        cases hO : H[a]? with
        | none =>
          simp only [hO] at h
          injection h with h2
          exact SErr.noConfusion h2
        | some o =>
          simp only [hO] at h
          cases o with
          | arr elems =>
            simp only [SSt.push] at h
            cases hl : encList (pairF true false H fuel) elems
                ⟨(JSVal.ref a, s.out.length) :: s.idmap,
                 s.out ++ [.arrayRec []]⟩ with
            | error e =>
              simp only [hl] at h
              injection h with h2
              subst h2
              obtain ⟨c, hc, w, hrw, hsk⟩ :=
                encList_err_reaches _ (fun v s hv => ih v s hv) elems _ hl
              exact ⟨w, .step hO hc hrw, hsk⟩
            | ok q =>
              simp only [hl] at h
              exact Except.noConfusion h
          | obj props tj =>
            simp only [SSt.push] at h
            cases hl : encProps true (pairF true false H fuel) props
                ⟨(JSVal.ref a, s.out.length) :: s.idmap,
                 s.out ++ [.objectRec []]⟩ with
            | error e =>
              simp only [hl] at h
              injection h with h2
              subst h2
              obtain ⟨p, hp, hor⟩ :=
                encProps_err_reaches _ (fun v s hv => ih v s hv) props _ hl
              rcases hor with ⟨w, hrw, hsk⟩ | ⟨w, hrw, hsk⟩
              · exact ⟨w, .step hO (childVals_obj_key hp) hrw, hsk⟩
              · exact ⟨w, .step hO (childVals_obj_val hp) hrw, hsk⟩
            | ok q =>
              simp only [hl] at h
              exact Except.noConfusion h
          | mapObj entries =>
            simp only [SSt.push] at h
            cases hl : encEntries true (pairF true false H fuel) entries
                ⟨(JSVal.ref a, s.out.length) :: s.idmap,
                 s.out ++ [.mapRec []]⟩ with
            | error e =>
              simp only [hl] at h
              injection h with h2
              subst h2
              obtain ⟨p, hp, hor⟩ :=
                encEntries_err_reaches _ (fun v s hv => ih v s hv) entries _ hl
              rcases hor with ⟨w, hrw, hsk⟩ | ⟨w, hrw, hsk⟩
              · exact ⟨w, .step hO (childVals_map_key hp) hrw, hsk⟩
              · exact ⟨w, .step hO (childVals_map_val hp) hrw, hsk⟩
            | ok q =>
              simp only [hl] at h
              exact Except.noConfusion h
          | setObj elems =>
            simp only [SSt.push] at h
            cases hl : encElems true (pairF true false H fuel) elems
                ⟨(JSVal.ref a, s.out.length) :: s.idmap,
                 s.out ++ [.setRec []]⟩ with
            | error e =>
              simp only [hl] at h
              injection h with h2
              subst h2
              obtain ⟨c, hc, w, hrw, hsk⟩ :=
                encElems_err_reaches _ (fun v s hv => ih v s hv) elems _ hl
              exact ⟨w, .step hO hc hrw, hsk⟩
            | ok q =>
              simp only [hl] at h
              exact Except.noConfusion h
          | date iso => simp only [SSt.push] at h; exact Except.noConfusion h
          | regexp src fl => simp only [SSt.push] at h; exact Except.noConfusion h
          | errObj n m => simp only [SSt.push] at h; exact Except.noConfusion h
          | boxedBool b => simp only [SSt.push] at h; exact Except.noConfusion h
          | boxedNum n => simp only [SSt.push] at h; exact Except.noConfusion h
          | boxedStr st => simp only [SSt.push] at h; exact Except.noConfusion h
          | boxedBig b => simp only [SSt.push] at h; exact Except.noConfusion h
          | typedArr tag elems => simp only [SSt.push] at h; exact Except.noConfusion h
          | arrayBuffer bytes => simp only [SSt.push] at h; exact Except.noConfusion h
          | dataView bytes off len => simp only [SSt.push] at h; exact Except.noConfusion h

/-- C4: in strict mode (neither `json` nor `lossy`), `serialize` raises
TypeNotSerializable exactly when a function- or symbol-typed value is
reachable from the root; with `json` or `lossy` set it never raises it
for any input, and `serialize(function(){}, {lossy: true})` yields a
single null-primitive record that deserializes to `null`. -/
theorem serialize_tns_iff (H : List JSObj) (v : JSVal)
    (hwf : heapWFb H = true) (hvok : valOKb H.length v = true) :
    (serializeW H v false false = .error .typeNotSerializable ↔
      ∃ w, Reaches H v w ∧ shouldSkip w = true) ∧
    (∀ (H2 : List JSObj) (u : JSVal) (json lossy : Bool),
      (json || lossy) = true →
      serializeW H2 u json lossy ≠ .error .typeNotSerializable) ∧
    serialize [] (.prim (.func 0)) false true = .ok [.primitive .null] ∧
    deserializeW [.primitive .null]
      = .ok (.prim .null, ⟨[(0, .prim .null)], []⟩) := by
  refine ⟨⟨?_, ?_⟩, ?_, rfl, rfl⟩
  · intro h
    exact pairF_tns_reaches H (encFuel H) v ⟨[], []⟩ h
  · rintro ⟨w, hrw, hsk⟩
    have hfuel : encFuel H ≥ 1 + unregCount H ⟨[], []⟩ := by
      have hle : unregCount H (⟨[], []⟩ : SSt) ≤ H.length := by
        have h2 : (List.range H.length).countP
            (fun a => (alookup ([] : List (JSVal × Nat)) (JSVal.ref a)).isNone)
            ≤ (List.range H.length).length := List.countP_le_length _
        rw [List.length_range] at h2
        exact h2
      simp only [encFuel]
      omega
    rcases pairF_total true H hwf (encFuel H) v ⟨[], []⟩ SInv_empty hvok hfuel with
      ⟨⟨i, s2⟩, hok⟩ | htns
    · have := serialize_ok_no_fnsym H v i s2 hok w hrw
      rw [hsk] at this
      exact Bool.noConfusion this
    · exact htns
  · intro H2 u json lossy hrel h
    have : serializeW H2 u json lossy
        = pairF false json H2 (encFuel H2) u ⟨[], []⟩ := by
      unfold serializeW
      rw [hrel]
      rfl
    rw [this] at h
    exact pairF_ne_tns json H2 (encFuel H2) u ⟨[], []⟩ h

/-- Witness for `serialize_tns_iff` at `{f: function(){}}`. -/
theorem serialize_tns_iff_witness :
    (heapWFb [.obj [("f", .prim (.func 0))] none] = true ∧
      valOKb ([JSObj.obj [("f", .prim (.func 0))] none] : List JSObj).length
        (.ref 0) = true) ∧
    ((serializeW [.obj [("f", .prim (.func 0))] none] (.ref 0) false false
        = .error .typeNotSerializable ↔
      ∃ w, Reaches [.obj [("f", .prim (.func 0))] none] (.ref 0) w ∧
        shouldSkip w = true) ∧
    (∀ (H2 : List JSObj) (u : JSVal) (json lossy : Bool),
      (json || lossy) = true →
      serializeW H2 u json lossy ≠ .error .typeNotSerializable) ∧
    serialize [] (.prim (.func 0)) false true = .ok [.primitive .null] ∧
    deserializeW [.primitive .null]
      = .ok (.prim .null, ⟨[(0, .prim .null)], []⟩)) :=
  ⟨⟨by decide, by decide⟩,
    serialize_tns_iff [.obj [("f", .prim (.func 0))] none] (.ref 0)
      (by decide) (by decide)⟩

/-! ## Decoder adequacy: decoding a well-formed wire never runs out of
fuel (the memo registration before recursion is `unpair`'s cycle-safety
mechanism, mirrored from the encoder) -/

/-- Decoder state extension: memo entries persist, the heap only grows,
and already-allocated cells keep their position (a composite patches
only the cell it allocated itself). -/
def DExt (s s' : DSt) : Prop :=
  (∀ i v, mlookup s.memo i = some v → mlookup s'.memo i = some v) ∧
  s.heap.length ≤ s'.heap.length ∧
  (∀ j, j < s.heap.length → s'.heap[j]? = s.heap[j]?)

theorem DExt_refl (s : DSt) : DExt s s :=
  ⟨fun _ _ h => h, le_refl _, fun _ _ => rfl⟩

theorem DExt_trans {s1 s2 s3 : DSt} (h1 : DExt s1 s2) (h2 : DExt s2 s3) :
    DExt s1 s3 :=
  ⟨fun i v h => h2.1 i v (h1.1 i v h), le_trans h1.2.1 h2.2.1,
   fun j hj => by rw [h2.2.2 j (lt_of_lt_of_le hj h1.2.1), h1.2.2 j hj]⟩

/-- Extending the memo with a fresh slot (and any heap extension)
extends the state. -/
theorem DExt_cons {s : DSt} {i : Nat} (v : JSVal) (heap2 : List JSObj)
    (hm : mlookup s.memo i = none) (hh : s.heap.length ≤ heap2.length)
    (hpre : ∀ j, j < s.heap.length → heap2[j]? = s.heap[j]?) :
    DExt s ⟨(i, v) :: s.memo, heap2⟩ := by
  refine ⟨?_, hh, hpre⟩
  intro i0 v0 h0
  simp only [mlookup]
  split
  · rename_i hii
    subst hii
    rw [hm] at h0
    exact Option.noConfusion h0
  · exact h0

/-- Appending to the heap without touching the memo extends the state
(the `ArrayBuffer`/`DataView` stray allocation). -/
theorem DExt_stray {s : DSt} (o : JSObj) : DExt s ⟨s.memo, s.heap ++ [o]⟩ :=
  ⟨fun _ _ h => h, by simp, fun j hj => List.getElem?_append_left hj⟩

/-- Patching a cell at or above the base heap length preserves
extension. -/
theorem DExt_patch {s s2 : DSt} (hext : DExt s s2) (a : Nat) (o : JSObj)
    (ha : s.heap.length ≤ a) : DExt s (s2.patch a o) := by
  refine ⟨hext.1, ?_, ?_⟩
  · simp only [DSt.patch, List.length_set]
    exact hext.2.1
  · intro j hj
    simp only [DSt.patch]
    rw [List.getElem?_set_ne (by omega)]
    exact hext.2.2 j hj

/-- Frame specification of one decoding step. -/
def DecStepFrame (g : Nat → DSt → Except DErr (JSVal × DSt)) : Prop :=
  ∀ i s v s', g i s = .ok (v, s') → DExt s s'

theorem decList_frame {g : Nat → DSt → Except DErr (JSVal × DSt)}
    (hg : DecStepFrame g) :
    ∀ (l : List Nat) (s : DSt) (vs : List JSVal) (s' : DSt),
      decList g l s = .ok (vs, s') → DExt s s' := by
  intro l
  induction l with
  | nil =>
    intro s vs s' h
    rw [decList] at h
    cases h
    exact DExt_refl s
  | cons hd tl ih =>
    intro s vs s' h
    rw [decList] at h
    cases hg1 : g hd s with
    | error e => simp only [hg1] at h; exact Except.noConfusion h
    | ok p =>
      obtain ⟨v1, s1⟩ := p
      simp only [hg1] at h
      cases hl : decList g tl s1 with
      | error e => simp only [hl] at h; exact Except.noConfusion h
      | ok q =>
        obtain ⟨vs2, s2⟩ := q
        simp only [hl] at h
        cases h
        exact DExt_trans (hg hd s v1 s1 hg1) (ih s1 vs2 _ hl)

theorem decPairs_frame {g : Nat → DSt → Except DErr (JSVal × DSt)}
    (hg : DecStepFrame g) :
    ∀ (l : List (Nat × Nat)) (s : DSt) (ps : List (JSVal × JSVal)) (s' : DSt),
      decPairs g l s = .ok (ps, s') → DExt s s' := by
  intro l
  induction l with
  | nil =>
    intro s ps s' h
    rw [decPairs] at h
    cases h
    exact DExt_refl s
  | cons hd tl ih =>
    obtain ⟨ki, vi⟩ := hd
    intro s ps s' h
    rw [decPairs] at h
    cases hg1 : g ki s with
    | error e => simp only [hg1] at h; exact Except.noConfusion h
    | ok p =>
      obtain ⟨k1, s1⟩ := p
      simp only [hg1] at h
      cases hg2 : g vi s1 with
      | error e => simp only [hg2] at h; exact Except.noConfusion h
      | ok q =>
        obtain ⟨v1, s2⟩ := q
        simp only [hg2] at h
        cases hl : decPairs g tl s2 with
        | error e => simp only [hl] at h; exact Except.noConfusion h
        | ok r =>
          obtain ⟨ps3, s3⟩ := r
          simp only [hl] at h
          cases h
          exact DExt_trans (DExt_trans (hg ki s k1 s1 hg1)
            (hg vi s1 v1 s2 hg2)) (ih s2 ps3 _ hl)

/-- `unpair` satisfies the frame specification at every fuel. -/
theorem unpairF_frame (W : List Record) :
    ∀ fuel, DecStepFrame (unpairF W fuel) := by
  intro fuel
  induction fuel with
  | zero => intro i s v s' h; simp [unpairF] at h
  | succ fuel ih =>
    intro i s v s' h
    cases hm : mlookup s.memo i with
    | some w =>
      simp only [unpairF, hm] at h
      cases h
      exact DExt_refl s
    | none =>
      simp only [unpairF, hm] at h
      cases hW : W[i]? with
      | none => simp only [hW] at h; exact Except.noConfusion h
      | some r =>
        simp only [hW] at h
        cases r with
        | void =>
          simp only [DSt.reg] at h
          cases h
          exact DExt_cons _ _ hm (le_refl _) (fun _ _ => rfl)
        | primitive p =>
          simp only [DSt.reg] at h
          cases h
          exact DExt_cons _ _ hm (le_refl _) (fun _ _ => rfl)
        | dateRec iso =>
          simp only [DSt.alloc] at h
          cases h
          exact DExt_cons _ _ hm (by simp) (fun j hj => List.getElem?_append_left hj)
        | regexpRec src fl =>
          simp only [DSt.alloc] at h
          cases h
          exact DExt_cons _ _ hm (by simp) (fun j hj => List.getElem?_append_left hj)
        | errorRec name msg =>
          simp only [DSt.alloc] at h
          cases h
          exact DExt_cons _ _ hm (by simp) (fun j hj => List.getElem?_append_left hj)
        | bigintRec st =>
          cases hb : parseBigInt st with
          | none => simp only [hb] at h; exact Except.noConfusion h
          | some b =>
            simp only [hb, DSt.reg] at h
            cases h
            exact DExt_cons _ _ hm (le_refl _) (fun _ _ => rfl)
        | boxedBoolRec b =>
          simp only [DSt.alloc] at h
          cases h
          exact DExt_cons _ _ hm (by simp) (fun j hj => List.getElem?_append_left hj)
        | boxedNumRec n =>
          simp only [DSt.alloc] at h
          cases h
          exact DExt_cons _ _ hm (by simp) (fun j hj => List.getElem?_append_left hj)
        | boxedStrRec st =>
          simp only [DSt.alloc] at h
          cases h
          exact DExt_cons _ _ hm (by simp) (fun j hj => List.getElem?_append_left hj)
        | boxedBigRec st =>
          cases hb : parseBigInt st with
          | none => simp only [hb] at h; exact Except.noConfusion h
          | some b =>
            simp only [hb, DSt.alloc] at h
            cases h
            exact DExt_cons _ _ hm (by simp) (fun j hj => List.getElem?_append_left hj)
        | typedRec tag elems =>
          simp only [DSt.allocStray, DSt.alloc] at h
          split at h
          · cases h
            exact DExt_stray _
          · split at h
            · cases h
              exact DExt_stray _
            · cases h
              exact DExt_cons _ _ hm (by simp)
                (fun j hj => List.getElem?_append_left hj)
        | arrayRec idxs =>
          simp only [DSt.allocA] at h
          cases hl : decList (unpairF W fuel) idxs
              ⟨(i, JSVal.ref s.heap.length) :: s.memo, s.heap ++ [.arr []]⟩ with
          | error e => simp only [hl] at h; exact Except.noConfusion h
          | ok q =>
            obtain ⟨vs, s2⟩ := q
            simp only [hl] at h
            cases h
            have hext1 : DExt s ⟨(i, JSVal.ref s.heap.length) :: s.memo,
                s.heap ++ [.arr []]⟩ :=
              DExt_cons _ _ hm (by simp) (fun j hj => List.getElem?_append_left hj)
            exact DExt_patch (DExt_trans hext1 (decList_frame ih idxs _ vs s2 hl))
              s.heap.length _ (le_refl _)
        | objectRec es =>
          simp only [DSt.allocA] at h
          cases hl : decPairs (unpairF W fuel) es
              ⟨(i, JSVal.ref s.heap.length) :: s.memo, s.heap ++ [.obj [] none]⟩ with
          | error e => simp only [hl] at h; exact Except.noConfusion h
          | ok q =>
            obtain ⟨ps, s2⟩ := q
            simp only [hl] at h
            cases h
            have hext1 : DExt s ⟨(i, JSVal.ref s.heap.length) :: s.memo,
                s.heap ++ [.obj [] none]⟩ :=
              DExt_cons _ _ hm (by simp) (fun j hj => List.getElem?_append_left hj)
            exact DExt_patch (DExt_trans hext1 (decPairs_frame ih es _ ps s2 hl))
              s.heap.length _ (le_refl _)
        | mapRec es =>
          simp only [DSt.allocA] at h
          cases hl : decPairs (unpairF W fuel) es
              ⟨(i, JSVal.ref s.heap.length) :: s.memo, s.heap ++ [.mapObj []]⟩ with
          | error e => simp only [hl] at h; exact Except.noConfusion h
          | ok q =>
            obtain ⟨ps, s2⟩ := q
            simp only [hl] at h
            cases h
            have hext1 : DExt s ⟨(i, JSVal.ref s.heap.length) :: s.memo,
                s.heap ++ [.mapObj []]⟩ :=
              DExt_cons _ _ hm (by simp) (fun j hj => List.getElem?_append_left hj)
            exact DExt_patch (DExt_trans hext1 (decPairs_frame ih es _ ps s2 hl))
              s.heap.length _ (le_refl _)
        | setRec idxs =>
          simp only [DSt.allocA] at h
          cases hl : decList (unpairF W fuel) idxs
              ⟨(i, JSVal.ref s.heap.length) :: s.memo, s.heap ++ [.setObj []]⟩ with
          | error e => simp only [hl] at h; exact Except.noConfusion h
          | ok q =>
            obtain ⟨vs, s2⟩ := q
            simp only [hl] at h
            cases h
            have hext1 : DExt s ⟨(i, JSVal.ref s.heap.length) :: s.memo,
                s.heap ++ [.setObj []]⟩ :=
              DExt_cons _ _ hm (by simp) (fun j hj => List.getElem?_append_left hj)
            exact DExt_patch (DExt_trans hext1 (decList_frame ih idxs _ vs s2 hl))
              s.heap.length _ (le_refl _)

/-- Count of wire slots not yet memoized: the decoder's termination
measure (every container memoizes its own slot before recursing into
its children). -/
def unmemoCount (W : List Record) (s : DSt) : Nat :=
  (List.range W.length).countP (fun i => (mlookup s.memo i).isNone)

theorem unmemoCount_le_of_dext (W : List Record) (s s' : DSt)
    (hext : ∀ i v, mlookup s.memo i = some v → mlookup s'.memo i = some v) :
    unmemoCount W s' ≤ unmemoCount W s := by
  apply List.countP_mono_left
  intro a _ hnone
  rw [Option.isNone_iff_eq_none] at hnone ⊢
  cases hs : mlookup s.memo a with
  | none => rfl
  | some w => rw [hext _ _ hs] at hnone; exact Option.noConfusion hnone

theorem unmemoCount_cons (W : List Record) (s : DSt) (i : Nat) (v : JSVal)
    (heap2 : List JSObj) (hi : i < W.length)
    (hnone : mlookup s.memo i = none) :
    unmemoCount W ⟨(i, v) :: s.memo, heap2⟩ + 1 ≤ unmemoCount W s := by
  have hlt : (List.range W.length).countP
      (fun b => (mlookup ((i, v) :: s.memo) b).isNone)
      < (List.range W.length).countP
      (fun b => (mlookup s.memo b).isNone) := by
    apply countP_lt_of_flip (a := i)
    · intro b _ hb
      rw [Option.isNone_iff_eq_none] at hb ⊢
      simp only [mlookup] at hb
      split at hb
      · exact Option.noConfusion hb
      · exact hb
    · exact List.mem_range.mpr hi
    · rw [Option.isNone_iff_eq_none, hnone]
    · simp [mlookup]
  exact hlt

theorem unmemoCount_le (W : List Record) (s : DSt) :
    unmemoCount W s ≤ W.length := by
  have h2 : (List.range W.length).countP
      (fun i => (mlookup s.memo i).isNone) ≤ (List.range W.length).length :=
    List.countP_le_length _
  rw [List.length_range] at h2
  exact h2

/-- A key slot and a value slot of a keyed record are both among the
record's references. -/
theorem mem_pairRefs {es : List (Nat × Nat)} {q : Nat × Nat} (hq : q ∈ es) :
    q.1 ∈ es.foldr (fun p acc => p.1 :: p.2 :: acc) [] ∧
    q.2 ∈ es.foldr (fun p acc => p.1 :: p.2 :: acc) [] := by
  induction es with
  | nil => cases hq
  | cons hd tl ih =>
    simp only [List.foldr_cons, List.mem_cons]
    rcases List.mem_cons.mp hq with h1 | h2
    · subst h1
      exact ⟨Or.inl rfl, Or.inr (Or.inl rfl)⟩
    · obtain ⟨ha, hb⟩ := ih h2
      exact ⟨Or.inr (Or.inr ha), Or.inr (Or.inr hb)⟩

/-- Wire well-formedness the decoder needs: every referenced slot id is
a valid index. -/
def wireRefsOK (W : List Record) : Prop :=
  ∀ (k : Nat) (r : Record), W[k]? = some r → ∀ j ∈ recRefs r, j < W.length

/-- Every big-integer payload in the wire parses back. -/
def wireBigOK (W : List Record) : Prop :=
  ∀ (k : Nat) (st : String),
    (W[k]? = some (.bigintRec st) ∨ W[k]? = some (.boxedBigRec st)) →
    ∃ b, parseBigInt st = some b

theorem decList_total {W : List Record} {B : Nat}
    {g : Nat → DSt → Except DErr (JSVal × DSt)} (hframe : DecStepFrame g)
    (hg : ∀ j s, j < W.length → B ≥ 1 + unmemoCount W s →
      ∃ p, g j s = .ok p) :
    ∀ (l : List Nat) (s : DSt), (∀ j ∈ l, j < W.length) →
      B ≥ 1 + unmemoCount W s → ∃ p, decList g l s = .ok p := by
  intro l
  induction l with
  | nil => intro s _ _; exact ⟨([], s), rfl⟩
  | cons hd tl ih =>
    intro s hmem hB
    obtain ⟨⟨v1, s1⟩, hok⟩ := hg hd s (hmem hd (List.mem_cons_self _ _)) hB
    have hB1 : B ≥ 1 + unmemoCount W s1 :=
      le_trans (by
        have := unmemoCount_le_of_dext W s s1 (hframe hd s v1 s1 hok).1
        omega) hB
    obtain ⟨⟨vs, s2⟩, hok2⟩ :=
      ih s1 (fun j hj => hmem j (List.mem_cons_of_mem _ hj)) hB1
    exact ⟨(v1 :: vs, s2), by simp only [decList, hok, hok2]⟩

theorem decPairs_total {W : List Record} {B : Nat}
    {g : Nat → DSt → Except DErr (JSVal × DSt)} (hframe : DecStepFrame g)
    (hg : ∀ j s, j < W.length → B ≥ 1 + unmemoCount W s →
      ∃ p, g j s = .ok p) :
    ∀ (l : List (Nat × Nat)) (s : DSt),
      (∀ q ∈ l, q.1 < W.length ∧ q.2 < W.length) →
      B ≥ 1 + unmemoCount W s → ∃ p, decPairs g l s = .ok p := by
  intro l
  induction l with
  | nil => intro s _ _; exact ⟨([], s), rfl⟩
  | cons hd tl ih =>
    obtain ⟨ki, vi⟩ := hd
    intro s hmem hB
    obtain ⟨⟨k1, s1⟩, hok1⟩ := hg ki s (hmem _ (List.mem_cons_self _ _)).1 hB
    have hB1 : B ≥ 1 + unmemoCount W s1 :=
      le_trans (by
        have := unmemoCount_le_of_dext W s s1 (hframe ki s k1 s1 hok1).1
        omega) hB
    obtain ⟨⟨v1, s2⟩, hok2⟩ := hg vi s1 (hmem _ (List.mem_cons_self _ _)).2 hB1
    have hB2 : B ≥ 1 + unmemoCount W s2 :=
      le_trans (by
        have := unmemoCount_le_of_dext W s1 s2 (hframe vi s1 v1 s2 hok2).1
        omega) hB1
    obtain ⟨⟨ps, s3⟩, hok3⟩ :=
      ih s2 (fun q hq => hmem q (List.mem_cons_of_mem _ hq)) hB2
    exact ⟨((k1, v1) :: ps, s3), by simp only [decPairs, hok1, hok2, hok3]⟩

/-- Decode adequacy: with fuel at least one more than the number of
unmemoized slots, decoding any valid slot of a well-formed wire
succeeds. -/
theorem unpairF_total (W : List Record) (hrefs : wireRefsOK W)
    (hbig : wireBigOK W) :
    ∀ (fuel i : Nat) (s : DSt), i < W.length →
      fuel ≥ 1 + unmemoCount W s → ∃ p, unpairF W fuel i s = .ok p := by
  intro fuel
  induction fuel with
  | zero => intro i s _ hge; omega
  | succ fuel ih =>
    intro i s hi hge
    cases hm : mlookup s.memo i with
    | some w =>
      simp only [unpairF, hm]
      exact ⟨_, rfl⟩
    | none =>
      cases hW : W[i]? with
      | none =>
        rw [List.getElem?_eq_getElem hi] at hW
        exact Option.noConfusion hW
      | some r =>
        cases r with
        | void =>
          simp only [unpairF, hm, hW]
          exact ⟨_, rfl⟩
        | primitive p =>
          simp only [unpairF, hm, hW]
          exact ⟨_, rfl⟩
        | dateRec iso =>
          simp only [unpairF, hm, hW]
          exact ⟨_, rfl⟩
        | regexpRec src fl =>
          simp only [unpairF, hm, hW]
          exact ⟨_, rfl⟩
        | errorRec name msg =>
          simp only [unpairF, hm, hW]
          exact ⟨_, rfl⟩
        | boxedBoolRec b =>
          simp only [unpairF, hm, hW]
          exact ⟨_, rfl⟩
        | boxedNumRec n =>
          simp only [unpairF, hm, hW]
          exact ⟨_, rfl⟩
        | boxedStrRec st =>
          simp only [unpairF, hm, hW]
          exact ⟨_, rfl⟩
        | bigintRec st =>
          obtain ⟨b, hb⟩ := hbig i st (Or.inl hW)
          simp only [unpairF, hm, hW, hb]
          exact ⟨_, rfl⟩
        | boxedBigRec st =>
          obtain ⟨b, hb⟩ := hbig i st (Or.inr hW)
          simp only [unpairF, hm, hW, hb]
          exact ⟨_, rfl⟩
        | typedRec tag elems =>
          by_cases h1 : tag = "ArrayBuffer"
          · simp only [unpairF, hm, hW, if_pos h1]
            exact ⟨_, rfl⟩
          · by_cases h2 : tag = "DataView"
            · simp only [unpairF, hm, hW, if_neg h1, if_pos h2]
              exact ⟨_, rfl⟩
            · simp only [unpairF, hm, hW, if_neg h1, if_neg h2]
              exact ⟨_, rfl⟩
        | arrayRec idxs =>
          have hchild : ∀ j ∈ idxs, j < W.length := by
            intro j hj
            exact hrefs i _ hW j (by simpa [recRefs] using hj)
          have hcnt := unmemoCount_cons W s i (.ref s.heap.length)
            (s.heap ++ [.arr []]) hi hm
          have hB1 : fuel ≥ 1 + unmemoCount W
              ⟨(i, JSVal.ref s.heap.length) :: s.memo, s.heap ++ [.arr []]⟩ := by
            omega
          obtain ⟨⟨vs, s2⟩, hok⟩ :=
            decList_total (unpairF_frame W fuel) ih idxs _ hchild hB1
          simp only [unpairF, hm, hW, DSt.allocA, hok]
          exact ⟨_, rfl⟩
        | objectRec es =>
          have hchild : ∀ q ∈ es, q.1 < W.length ∧ q.2 < W.length := by
            intro q hq
            have hmem := mem_pairRefs hq
            exact ⟨hrefs i _ hW q.1 (by simpa [recRefs] using hmem.1),
              hrefs i _ hW q.2 (by simpa [recRefs] using hmem.2)⟩
          have hcnt := unmemoCount_cons W s i (.ref s.heap.length)
            (s.heap ++ [.obj [] none]) hi hm
          have hB1 : fuel ≥ 1 + unmemoCount W
              ⟨(i, JSVal.ref s.heap.length) :: s.memo,
               s.heap ++ [.obj [] none]⟩ := by
            omega
          obtain ⟨⟨ps, s2⟩, hok⟩ :=
            decPairs_total (unpairF_frame W fuel) ih es _ hchild hB1
          simp only [unpairF, hm, hW, DSt.allocA, hok]
          exact ⟨_, rfl⟩
        | mapRec es =>
          have hchild : ∀ q ∈ es, q.1 < W.length ∧ q.2 < W.length := by
            intro q hq
            have hmem := mem_pairRefs hq
            exact ⟨hrefs i _ hW q.1 (by simpa [recRefs] using hmem.1),
              hrefs i _ hW q.2 (by simpa [recRefs] using hmem.2)⟩
          have hcnt := unmemoCount_cons W s i (.ref s.heap.length)
            (s.heap ++ [.mapObj []]) hi hm
          have hB1 : fuel ≥ 1 + unmemoCount W
              ⟨(i, JSVal.ref s.heap.length) :: s.memo,
               s.heap ++ [.mapObj []]⟩ := by
            omega
          obtain ⟨⟨ps, s2⟩, hok⟩ :=
            decPairs_total (unpairF_frame W fuel) ih es _ hchild hB1
          simp only [unpairF, hm, hW, DSt.allocA, hok]
          exact ⟨_, rfl⟩
        | setRec idxs =>
          have hchild : ∀ j ∈ idxs, j < W.length := by
            intro j hj
            exact hrefs i _ hW j (by simpa [recRefs] using hj)
          have hcnt := unmemoCount_cons W s i (.ref s.heap.length)
            (s.heap ++ [.setObj []]) hi hm
          have hB1 : fuel ≥ 1 + unmemoCount W
              ⟨(i, JSVal.ref s.heap.length) :: s.memo,
               s.heap ++ [.setObj []]⟩ := by
            omega
          obtain ⟨⟨vs, s2⟩, hok⟩ :=
            decList_total (unpairF_frame W fuel) ih idxs _ hchild hB1
          simp only [unpairF, hm, hW, DSt.allocA, hok]
          exact ⟨_, rfl⟩

/-- Decoding slot 0 of a nonempty, well-formed wire succeeds with the
supplied fuel. -/
theorem deserializeW_total (W : List Record) (hrefs : wireRefsOK W)
    (hbig : wireBigOK W) (hne : 0 < W.length) :
    ∃ p, deserializeW W = .ok p := by
  have hfuel : decFuel W ≥ 1 + unmemoCount W ⟨[], []⟩ := by
    have := unmemoCount_le W ⟨[], []⟩
    simp only [decFuel]
    omega
  exact unpairF_total W hrefs hbig (decFuel W) 0 ⟨[], []⟩ hne hfuel

/-- A registered record tagged BIGINT carries a canonical decimal
payload. -/
theorem EncEntry_big {H : List JSObj} {m : List (JSVal × Nat)}
    {out : List Record} {x : JSVal} {k : Nat} {st : String}
    (he : EncEntry H m out x k)
    (hks : out[k]? = some (.bigintRec st) ∨ out[k]? = some (.boxedBigRec st)) :
    ∃ b : Int, st = intToDec b := by
  cases x with
  | prim p =>
    cases p <;> simp only [EncEntry] at he <;>
      first
      | exact he.elim
      | (rcases hks with hks | hks <;> rw [hks] at he <;>
          injection he with h1 <;>
          first
          | exact Record.noConfusion h1
          | (injection h1 with h2; exact ⟨_, h2⟩))
  | ref a =>
    simp only [EncEntry] at he
    obtain ⟨o, hO, ho⟩ := he
    cases o <;> simp only at ho <;>
      first
      | (obtain ⟨es2, hrec, hrest⟩ := ho
         rcases hks with hks | hks <;> rw [hks] at hrec <;>
           injection hrec with h1 <;> exact Record.noConfusion h1)
      | (rcases hks with hks | hks <;> rw [hks] at ho <;>
          injection ho with h1 <;>
          first
          | exact Record.noConfusion h1
          | (injection h1 with h2; exact ⟨_, h2⟩))

/-- A successful strict default-mode encoding emits only canonical
big-integer payloads: every slot is owned by some registered value
(surjectivity invariant) whose record carries `intToDec`. -/
theorem serializeW_bigOK {H : List JSObj} {v : JSVal} {i : Nat} {s' : SSt}
    (hok : serializeW H v false false = .ok (i, s')) : wireBigOK s'.out := by
  have hframe := pairF_frame true false H (encFuel H) v ⟨[], []⟩ i s' hok
    SInv_empty
  obtain ⟨hreg, hnew⟩ := pairF_entries H (encFuel H) v ⟨[], []⟩ i s' hok
    SInv_empty
  intro k st hks
  have hk : k < s'.out.length := by
    rcases hks with h | h <;> exact lt_length_of_getElem?_some h
  obtain ⟨x, hx⟩ := hframe.2.1.2.2.1 k hk
  have he : EncEntry H s'.idmap s'.out x k := by
    rcases hnew x k hx with h0 | ⟨_, he⟩
    · simp [alookup] at h0
    · exact he
  obtain ⟨b, hb⟩ := EncEntry_big he hks
  exact ⟨b, by rw [hb]; exact parseBigInt_intToDec b⟩

/-- Children of a function-free heap's objects are function-free
values. -/
theorem childVals_fnfree {H : List JSObj} {a : Nat} {o : JSObj} {w : JSVal}
    (hfn : heapFnFree H = true) (hO : H[a]? = some o)
    (hw : w ∈ childVals o) : valFnFree w = true := by
  have hofn : objFnFree o = true := by
    rw [heapFnFree, List.all_eq_true] at hfn
    exact hfn o (List.getElem?_mem hO)
  cases o with
  | arr es =>
    simp only [objFnFree, List.all_eq_true] at hofn
    exact hofn w hw
  | obj ps tj =>
    obtain ⟨p, hp, hc⟩ := mem_childVals_obj hw
    rcases hc with h1 | h2
    · subst h1; rfl
    · subst h2
      simp only [objFnFree, List.all_eq_true] at hofn
      exact hofn p hp
  | mapObj es =>
    obtain ⟨p, hp, hc⟩ := mem_childVals_map hw
    simp only [objFnFree, List.all_eq_true] at hofn
    have hb := hofn p hp
    rw [Bool.and_eq_true] at hb
    rcases hc with h1 | h2
    · subst h1; exact hb.1
    · subst h2; exact hb.2
  | setObj es =>
    simp only [objFnFree, List.all_eq_true] at hofn
    exact hofn w hw
  | date iso => exact absurd hw (List.not_mem_nil w)
  | regexp src fl => exact absurd hw (List.not_mem_nil w)
  | errObj name msg => exact absurd hw (List.not_mem_nil w)
  | boxedBool b => exact absurd hw (List.not_mem_nil w)
  | boxedNum n => exact absurd hw (List.not_mem_nil w)
  | boxedStr st => exact absurd hw (List.not_mem_nil w)
  | boxedBig b => exact absurd hw (List.not_mem_nil w)
  | typedArr tag es => exact absurd hw (List.not_mem_nil w)
  | arrayBuffer bs => exact absurd hw (List.not_mem_nil w)
  | dataView bs off len => exact absurd hw (List.not_mem_nil w)

/-- Nothing reachable from a function-free value over a function-free
heap is a function or symbol. -/
theorem reaches_fnfree {H : List JSObj} (hfn : heapFnFree H = true) :
    ∀ {v w : JSVal}, Reaches H v w → valFnFree v = true →
      shouldSkip w = false := by
  intro v w hr
  induction hr with
  | refl u =>
    intro hvfn
    cases u with
    | ref a => rfl
    | prim p =>
      cases p <;> first | rfl | simp [valFnFree, primFnSym] at hvfn
  | step hO hw _ ih =>
    intro _
    exact ih (childVals_fnfree hfn hO hw)

/-- C3: cycle safety.  In strict default mode, encoding any well-formed
function/symbol-free value terminates successfully within the fixed fuel
(each composite registers its slot in the identity map before its
children are encoded — the adequacy measure counts unregistered heap
addresses), and decoding the resulting wire likewise terminates
successfully (each container memoizes its slot before its children are
resolved).  For the canonical self-cycle (`a.self = a`) the serializer
emits a record whose value slot is the root's own slot, and the
reconstructed object's `self` property is a reference to the
reconstructed object's own address (`r.self === r`). -/
theorem cycle_roundtrip_safe (H : List JSObj) (v : JSVal)
    (hwf : heapWFb H = true) (hvok : valOKb H.length v = true)
    (hfn : heapFnFree H = true) (hvfn : valFnFree v = true) :
    (∃ W r, serialize H v false false = .ok W ∧ deserializeW W = .ok r) ∧
    serialize [.obj [("self", .ref 0)] none] (.ref 0) false false
      = .ok [.objectRec [(1, 0)], .primitive (.str "self")] ∧
    deserializeW [.objectRec [(1, 0)], .primitive (.str "self")]
      = .ok (.ref 0,
          ⟨[(1, .prim (.str "self")), (0, .ref 0)],
           [.obj [("self", .ref 0)] none]⟩) := by
  refine ⟨?_, rfl, rfl⟩
  have hfuel : encFuel H ≥ 1 + unregCount H ⟨[], []⟩ := by
    have hle : unregCount H (⟨[], []⟩ : SSt) ≤ H.length := by
      have h2 : (List.range H.length).countP
          (fun a => (alookup ([] : List (JSVal × Nat)) (JSVal.ref a)).isNone)
          ≤ (List.range H.length).length := List.countP_le_length _
      rw [List.length_range] at h2
      exact h2
    simp only [encFuel]
    omega
  rcases pairF_total true H hwf (encFuel H) v ⟨[], []⟩ SInv_empty hvok hfuel with
    ⟨⟨i, s2⟩, hok⟩ | htns
  · have hokW : serializeW H v false false = .ok (i, s2) := hok
    have hframe := pairF_frame true false H (encFuel H) v ⟨[], []⟩ i s2 hok
      SInv_empty
    have hrOK : wireRefsOK s2.out := hframe.2.1.2.1
    have hbOK : wireBigOK s2.out := serializeW_bigOK hokW
    have hne : 0 < s2.out.length := lt_of_le_of_lt (Nat.zero_le i) hframe.2.2
    obtain ⟨p, hdec⟩ := deserializeW_total s2.out hrOK hbOK hne
    refine ⟨s2.out, p, ?_, hdec⟩
    rw [serialize, hokW]
    rfl
  · obtain ⟨w, hrw, hsk⟩ := pairF_tns_reaches H (encFuel H) v ⟨[], []⟩ htns
    rw [reaches_fnfree hfn hrw hvfn] at hsk
    exact Bool.noConfusion hsk

/-- Witness for `cycle_roundtrip_safe` at the self-cycle `a.self = a`. -/
theorem cycle_roundtrip_safe_witness :
    (heapWFb [.obj [("self", .ref 0)] none] = true ∧
     valOKb ([JSObj.obj [("self", .ref 0)] none] : List JSObj).length
       (.ref 0) = true ∧
     heapFnFree [.obj [("self", .ref 0)] none] = true ∧
     valFnFree (.ref 0) = true) ∧
    ((∃ W r, serialize [.obj [("self", .ref 0)] none] (.ref 0) false false
        = .ok W ∧ deserializeW W = .ok r) ∧
     serialize [.obj [("self", .ref 0)] none] (.ref 0) false false
       = .ok [.objectRec [(1, 0)], .primitive (.str "self")] ∧
     deserializeW [.objectRec [(1, 0)], .primitive (.str "self")]
       = .ok (.ref 0,
           ⟨[(1, .prim (.str "self")), (0, .ref 0)],
            [.obj [("self", .ref 0)] none]⟩)) :=
  ⟨⟨by decide, by decide, by decide, by decide⟩,
   cycle_roundtrip_safe [.obj [("self", .ref 0)] none] (.ref 0)
     (by decide) (by decide) (by decide) (by decide)⟩

/-- C2 (refuted by the code): identity sharing survives the round-trip
for ordinary object kinds — below, a `Date` referenced by properties
`a` and `b` alike decodes to a single shared instance — but NOT for
`ArrayBuffer` or `DataView`.  The deserializer's `ArrayBuffer`/
`DataView` branches call `as(out, value)` instead of `as(out, index)`,
keying the memo by the payload array rather than the slot id, so the
slot is never memoized and each reference to it reconstructs a fresh
buffer: decoding the encoding of an object whose `a` and `b` hold one
and the same buffer yields an object whose `a` and `b` hold two
distinct objects (heap addresses 1 and 2). -/
theorem arrayBuffer_identity_lost :
    serialize [.obj [("a", .ref 1), ("b", .ref 1)] none, .arrayBuffer [1, 2, 3]]
        (.ref 0) false false
      = .ok [.objectRec [(1, 2), (3, 2)], .primitive (.str "a"),
             .typedRec "ArrayBuffer" [1, 2, 3], .primitive (.str "b")] ∧
    (∃ ds : DSt,
      deserializeW [.objectRec [(1, 2), (3, 2)], .primitive (.str "a"),
          .typedRec "ArrayBuffer" [1, 2, 3], .primitive (.str "b")]
        = .ok (.ref 0, ds) ∧
      ds.heap[0]? = some (.obj [("a", .ref 1), ("b", .ref 2)] none) ∧
      ds.heap[1]? = some (.arrayBuffer [1, 2, 3]) ∧
      ds.heap[2]? = some (.arrayBuffer [1, 2, 3]) ∧
      (JSVal.ref 1 : JSVal) ≠ .ref 2) ∧
    serialize [.obj [("a", .ref 1), ("b", .ref 1)] none, .dataView [1, 2, 3, 4] 0 4]
        (.ref 0) false false
      = .ok [.objectRec [(1, 2), (3, 2)], .primitive (.str "a"),
             .typedRec "DataView" [1, 2, 3, 4], .primitive (.str "b")] ∧
    (∃ ds2 : DSt,
      deserializeW [.objectRec [(1, 2), (3, 2)], .primitive (.str "a"),
          .typedRec "DataView" [1, 2, 3, 4], .primitive (.str "b")]
        = .ok (.ref 0, ds2) ∧
      ds2.heap[0]? = some (.obj [("a", .ref 1), ("b", .ref 2)] none) ∧
      ds2.heap[1]? = some (.dataView [1, 2, 3, 4] 0 4) ∧
      ds2.heap[2]? = some (.dataView [1, 2, 3, 4] 0 4)) ∧
    serialize [.obj [("a", .ref 1), ("b", .ref 1)] none,
        .date "2020-01-01T00:00:00.000Z"] (.ref 0) false false
      = .ok [.objectRec [(1, 2), (3, 2)], .primitive (.str "a"),
             .dateRec "2020-01-01T00:00:00.000Z", .primitive (.str "b")] ∧
    (∃ ds3 : DSt,
      deserializeW [.objectRec [(1, 2), (3, 2)], .primitive (.str "a"),
          .dateRec "2020-01-01T00:00:00.000Z", .primitive (.str "b")]
        = .ok (.ref 0, ds3) ∧
      ds3.heap[0]? = some (.obj [("a", .ref 1), ("b", .ref 1)] none)) :=
  ⟨rfl, ⟨_, rfl, rfl, rfl, rfl, by decide⟩, rfl,
   ⟨_, rfl, rfl, rfl, rfl⟩, rfl, ⟨_, rfl, rfl⟩⟩

/-! ## Decoder correspondence: what each decoded slot holds -/

/-- Is the record one of the mis-keyed `ArrayBuffer`/`DataView` kinds,
which the deserializer never memoizes (`as(out, value)`)? -/
def strayRec : Record → Bool
  | .typedRec tag _ => tag == "ArrayBuffer" || tag == "DataView"
  | _ => false

/-- Is the slot's record a stray (never-memoized) buffer record? -/
def strayAt (W : List Record) (q : Nat) : Bool :=
  match W[q]? with
  | some r => strayRec r
  | none => false

/-- Not a binary-buffer object.  Memoized cells never hold buffers:
buffer cells come only from the stray allocations. -/
def noBufKind : JSObj → Bool
  | .arrayBuffer _ => false
  | .dataView _ _ _ => false
  | _ => true

/-- The value obtained for slot `idx`, relative to the final memo `M`
and heap `Hd`: for the never-memoized buffer records, a reference to a
cell holding the right fresh buffer; for every other record, the
memoized value. -/
def SlotVal (W : List Record) (M : List (Nat × JSVal)) (Hd : List JSObj)
    (idx : Nat) (cv : JSVal) : Prop :=
  match W[idx]? with
  | some (.typedRec tag elems) =>
    if tag = "ArrayBuffer" then
      ∃ ad, cv = .ref ad ∧ Hd[ad]? = some (.arrayBuffer elems)
    else if tag = "DataView" then
      ∃ ad, cv = .ref ad ∧ Hd[ad]? = some (.dataView elems 0 elems.length)
    else mlookup M idx = some cv
  | some _ => mlookup M idx = some cv
  | none => False

/-- Stray buffer cells referenced by a child list appear in decode
order: a later stray child points at a strictly higher address (each
stray allocation is fresh). -/
def StrayOrder (W : List Record) (sl : List Nat) (cvs : List JSVal) : Prop :=
  ∀ (k1 k2 q1 q2 a1 a2 : Nat), k1 < k2 →
    sl[k1]? = some q1 → sl[k2]? = some q2 →
    strayAt W q1 = true → strayAt W q2 = true →
    cvs[k1]? = some (.ref a1) → cvs[k2]? = some (.ref a2) → a1 < a2

/-- All stray buffer cells referenced by a child list sit at or above
`base` (the heap length when the list's decoding started). -/
def StrayLB (W : List Record) (base : Nat) (sl : List Nat)
    (cvs : List JSVal) : Prop :=
  ∀ (k q a : Nat), sl[k]? = some q → strayAt W q = true →
    cvs[k]? = some (.ref a) → base ≤ a

/-- `StrayOrder` for the key column of decoded (key, value) rows. -/
def StrayOrderP (W : List Record) (sl : List (Nat × Nat))
    (kvs : List (JSVal × JSVal)) : Prop :=
  ∀ (k1 k2 : Nat) (q1 q2 : Nat × Nat) (kv1 kv2 : JSVal × JSVal)
    (a1 a2 : Nat), k1 < k2 →
    sl[k1]? = some q1 → sl[k2]? = some q2 →
    strayAt W q1.1 = true → strayAt W q2.1 = true →
    kvs[k1]? = some kv1 → kvs[k2]? = some kv2 →
    kv1.1 = .ref a1 → kv2.1 = .ref a2 → a1 < a2

/-- `StrayLB` for the key column of decoded (key, value) rows. -/
def StrayLBP (W : List Record) (base : Nat) (sl : List (Nat × Nat))
    (kvs : List (JSVal × JSVal)) : Prop :=
  ∀ (k : Nat) (q : Nat × Nat) (kv : JSVal × JSVal) (a : Nat),
    sl[k]? = some q → strayAt W q.1 = true →
    kvs[k]? = some kv → kv.1 = .ref a → base ≤ a

/-- What it means for the memoized value `u` of slot `j` to be the
correct decoding of the record at `j`, relative to the final memo and
heap: the structure the source's `unpair` builds, children resolved via
`SlotVal`, keyed containers built by the source's assignment folds. -/
def DecEntry (W : List Record) (M : List (Nat × JSVal)) (Hd : List JSObj) :
    Nat → JSVal → Prop := fun j u =>
  match W[j]? with
  | none => False
  | some r =>
    match r with
    | .void => u = .prim .undef
    | .primitive p => u = .prim p
    | .bigintRec st => ∃ b, parseBigInt st = some b ∧ u = .prim (.bigint b)
    | .dateRec iso => ∃ ad, u = .ref ad ∧ Hd[ad]? = some (.date iso)
    | .regexpRec src fl => ∃ ad, u = .ref ad ∧ Hd[ad]? = some (.regexp src fl)
    | .errorRec name msg =>
      ∃ ad, u = .ref ad ∧ Hd[ad]? = some (.errObj name msg)
    | .boxedBoolRec b => ∃ ad, u = .ref ad ∧ Hd[ad]? = some (.boxedBool b)
    | .boxedNumRec n => ∃ ad, u = .ref ad ∧ Hd[ad]? = some (.boxedNum n)
    | .boxedStrRec st => ∃ ad, u = .ref ad ∧ Hd[ad]? = some (.boxedStr st)
    | .boxedBigRec st =>
      ∃ b ad, parseBigInt st = some b ∧ u = .ref ad ∧
        Hd[ad]? = some (.boxedBig b)
    | .typedRec tag elems =>
      if tag = "ArrayBuffer" then
        ∃ ad, u = .ref ad ∧ Hd[ad]? = some (.arrayBuffer elems)
      else if tag = "DataView" then
        ∃ ad, u = .ref ad ∧ Hd[ad]? = some (.dataView elems 0 elems.length)
      else ∃ ad, u = .ref ad ∧ Hd[ad]? = some (.typedArr tag elems)
    | .arrayRec idxs =>
      ∃ ad vs, u = .ref ad ∧ Hd[ad]? = some (.arr vs) ∧
        List.Forall₂ (fun q cv => SlotVal W M Hd q cv) idxs vs
    | .objectRec es =>
      ∃ (ad : Nat) (kvs : List (JSVal × JSVal)), u = .ref ad ∧
        Hd[ad]? = some (.obj (kvs.foldl
          (fun acc p => objAssign acc (propKeyOf p.1) p.2) []) none) ∧
        List.Forall₂ (fun q kv =>
          SlotVal W M Hd q.1 kv.1 ∧ SlotVal W M Hd q.2 kv.2) es kvs
    | .mapRec es =>
      ∃ (ad : Nat) (kvs : List (JSVal × JSVal)), u = .ref ad ∧
        Hd[ad]? = some (.mapObj (kvs.foldl
          (fun acc p => mapAssign acc p.1 p.2) [])) ∧
        List.Forall₂ (fun q kv =>
          SlotVal W M Hd q.1 kv.1 ∧ SlotVal W M Hd q.2 kv.2) es kvs ∧
        StrayOrderP W es kvs
    | .setRec idxs =>
      ∃ (ad : Nat) (vs : List JSVal), u = .ref ad ∧
        Hd[ad]? = some (.setObj (vs.foldl setAdd [])) ∧
        List.Forall₂ (fun q cv => SlotVal W M Hd q cv) idxs vs ∧
        StrayOrder W idxs vs

/-- The decoder's state invariant: distinct slots own distinct cells,
owned cells are in range, memoized slots hold non-stray records, and
owned cells never hold buffers. -/
def DInvD (W : List Record) (s : DSt) : Prop :=
  (∀ j1 j2 a, mlookup s.memo j1 = some (.ref a) →
    mlookup s.memo j2 = some (.ref a) → j1 = j2) ∧
  (∀ j a, mlookup s.memo j = some (.ref a) → a < s.heap.length) ∧
  (∀ j u, mlookup s.memo j = some u →
    ∃ r, W[j]? = some r ∧ strayRec r = false) ∧
  (∀ j a, mlookup s.memo j = some (.ref a) →
    ∀ o, s.heap[a]? = some o → noBufKind o = true)

theorem mlookup_cons_self {M : List (Nat × JSVal)} {i : Nat} {v : JSVal} :
    mlookup ((i, v) :: M) i = some v := by simp [mlookup]

theorem mlookup_cons_split {M : List (Nat × JSVal)} {i j : Nat}
    {v u : JSVal} (h : mlookup ((i, v) :: M) j = some u) :
    (j = i ∧ u = v) ∨ mlookup M j = some u := by
  simp only [mlookup] at h
  split at h
  · rename_i hij
    injection h with h1
    exact Or.inl ⟨hij.symm, h1.symm⟩
  · exact Or.inr h

theorem DInvD_empty (W : List Record) : DInvD W ⟨[], []⟩ := by
  refine ⟨?_, ?_, ?_, ?_⟩ <;> intro j
  · intro j2 a h; simp [mlookup] at h
  · intro a h; simp [mlookup] at h
  · intro u h; simp [mlookup] at h
  · intro a h; simp [mlookup] at h

theorem SlotVal_mono {W : List Record} {M M2 : List (Nat × JSVal)}
    {Hd Hd2 : List JSObj} {idx : Nat} {cv : JSVal}
    (hsv : SlotVal W M Hd idx cv)
    (hM : ∀ j u, mlookup M j = some u → mlookup M2 j = some u)
    (hH : ∀ ad, ad < Hd.length → Hd2[ad]? = Hd[ad]?) :
    SlotVal W M2 Hd2 idx cv := by
  simp only [SlotVal] at hsv ⊢
  cases hW : W[idx]? with
  | none => rw [hW] at hsv; exact hsv
  | some r =>
    rw [hW] at hsv
    cases r with
    | typedRec tag elems =>
      simp only at hsv ⊢
      by_cases h1 : tag = "ArrayBuffer"
      · rw [if_pos h1] at hsv ⊢
        obtain ⟨ad, hcv, hcell⟩ := hsv
        exact ⟨ad, hcv, by
          rw [hH ad (lt_length_of_getElem?_some hcell)]; exact hcell⟩
      · rw [if_neg h1] at hsv ⊢
        by_cases h2 : tag = "DataView"
        · rw [if_pos h2] at hsv ⊢
          obtain ⟨ad, hcv, hcell⟩ := hsv
          exact ⟨ad, hcv, by
            rw [hH ad (lt_length_of_getElem?_some hcell)]; exact hcell⟩
        · rw [if_neg h2] at hsv ⊢
          exact hM _ _ hsv
    | void => exact hM _ _ hsv
    | primitive p => exact hM _ _ hsv
    | bigintRec st => exact hM _ _ hsv
    | dateRec iso => exact hM _ _ hsv
    | regexpRec src fl => exact hM _ _ hsv
    | errorRec name msg => exact hM _ _ hsv
    | boxedBoolRec b => exact hM _ _ hsv
    | boxedNumRec n => exact hM _ _ hsv
    | boxedStrRec st => exact hM _ _ hsv
    | boxedBigRec st => exact hM _ _ hsv
    | arrayRec idxs => exact hM _ _ hsv
    | objectRec es => exact hM _ _ hsv
    | mapRec es => exact hM _ _ hsv
    | setRec idxs => exact hM _ _ hsv

theorem DecEntry_mono {W : List Record} {M M2 : List (Nat × JSVal)}
    {Hd Hd2 : List JSObj} {j : Nat} {u : JSVal}
    (he : DecEntry W M Hd j u)
    (hM : ∀ j0 u0, mlookup M j0 = some u0 → mlookup M2 j0 = some u0)
    (hH : ∀ ad, ad < Hd.length → Hd2[ad]? = Hd[ad]?) :
    DecEntry W M2 Hd2 j u := by
  simp only [DecEntry] at he ⊢
  cases hW : W[j]? with
  | none => rw [hW] at he; exact he
  | some r =>
    rw [hW] at he
    cases r with
    | void => exact he
    | primitive p => exact he
    | bigintRec st => exact he
    | dateRec iso =>
      obtain ⟨ad, hu, hc⟩ := he
      exact ⟨ad, hu, by rw [hH ad (lt_length_of_getElem?_some hc)]; exact hc⟩
    | regexpRec src fl =>
      obtain ⟨ad, hu, hc⟩ := he
      exact ⟨ad, hu, by rw [hH ad (lt_length_of_getElem?_some hc)]; exact hc⟩
    | errorRec name msg =>
      obtain ⟨ad, hu, hc⟩ := he
      exact ⟨ad, hu, by rw [hH ad (lt_length_of_getElem?_some hc)]; exact hc⟩
    | boxedBoolRec b =>
      obtain ⟨ad, hu, hc⟩ := he
      exact ⟨ad, hu, by rw [hH ad (lt_length_of_getElem?_some hc)]; exact hc⟩
    | boxedNumRec n =>
      obtain ⟨ad, hu, hc⟩ := he
      exact ⟨ad, hu, by rw [hH ad (lt_length_of_getElem?_some hc)]; exact hc⟩
    | boxedStrRec st =>
      obtain ⟨ad, hu, hc⟩ := he
      exact ⟨ad, hu, by rw [hH ad (lt_length_of_getElem?_some hc)]; exact hc⟩
    | boxedBigRec st =>
      obtain ⟨b, ad, hb, hu, hc⟩ := he
      exact ⟨b, ad, hb, hu,
        by rw [hH ad (lt_length_of_getElem?_some hc)]; exact hc⟩
    | typedRec tag elems =>
      simp only at he ⊢
      by_cases h1 : tag = "ArrayBuffer"
      · rw [if_pos h1] at he ⊢
        obtain ⟨ad, hu, hc⟩ := he
        exact ⟨ad, hu, by rw [hH ad (lt_length_of_getElem?_some hc)]; exact hc⟩
      · rw [if_neg h1] at he ⊢
        by_cases h2 : tag = "DataView"
        · rw [if_pos h2] at he ⊢
          obtain ⟨ad, hu, hc⟩ := he
          exact ⟨ad, hu,
            by rw [hH ad (lt_length_of_getElem?_some hc)]; exact hc⟩
        · rw [if_neg h2] at he ⊢
          obtain ⟨ad, hu, hc⟩ := he
          exact ⟨ad, hu,
            by rw [hH ad (lt_length_of_getElem?_some hc)]; exact hc⟩
    | arrayRec idxs =>
      obtain ⟨ad, vs, hu, hc, hall⟩ := he
      exact ⟨ad, vs, hu,
        by rw [hH ad (lt_length_of_getElem?_some hc)]; exact hc,
        hall.imp (fun q cv h2 => SlotVal_mono h2 hM hH)⟩
    | objectRec es =>
      obtain ⟨ad, kvs, hu, hc, hall⟩ := he
      exact ⟨ad, kvs, hu,
        by rw [hH ad (lt_length_of_getElem?_some hc)]; exact hc,
        hall.imp (fun q kv h2 =>
          ⟨SlotVal_mono h2.1 hM hH, SlotVal_mono h2.2 hM hH⟩)⟩
    | mapRec es =>
      obtain ⟨ad, kvs, hu, hc, hall, hso⟩ := he
      exact ⟨ad, kvs, hu,
        by rw [hH ad (lt_length_of_getElem?_some hc)]; exact hc,
        hall.imp (fun q kv h2 =>
          ⟨SlotVal_mono h2.1 hM hH, SlotVal_mono h2.2 hM hH⟩), hso⟩
    | setRec idxs =>
      obtain ⟨ad, vs, hu, hc, hall, hso⟩ := he
      exact ⟨ad, vs, hu,
        by rw [hH ad (lt_length_of_getElem?_some hc)]; exact hc,
        hall.imp (fun q cv h2 => SlotVal_mono h2 hM hH), hso⟩

theorem SlotVal_patch {W : List Record} {M : List (Nat × JSVal)}
    {Hd : List JSObj} {idx : Nat} {cv : JSVal} {addr : Nat} {o2 : JSObj}
    (hsv : SlotVal W M Hd idx cv)
    (hpo : ∀ o, Hd[addr]? = some o → noBufKind o = true) :
    SlotVal W M (Hd.set addr o2) idx cv := by
  simp only [SlotVal] at hsv ⊢
  cases hW : W[idx]? with
  | none => rw [hW] at hsv; exact hsv
  | some r =>
    rw [hW] at hsv
    cases r with
    | typedRec tag elems =>
      simp only at hsv ⊢
      by_cases h1 : tag = "ArrayBuffer"
      · rw [if_pos h1] at hsv ⊢
        obtain ⟨ad, hcv, hcell⟩ := hsv
        have hne : addr ≠ ad := by
          intro hEq
          subst hEq
          exact Bool.noConfusion (hpo _ hcell)
        exact ⟨ad, hcv, by rw [List.getElem?_set_ne hne]; exact hcell⟩
      · rw [if_neg h1] at hsv ⊢
        by_cases h2 : tag = "DataView"
        · rw [if_pos h2] at hsv ⊢
          obtain ⟨ad, hcv, hcell⟩ := hsv
          have hne : addr ≠ ad := by
            intro hEq
            subst hEq
            exact Bool.noConfusion (hpo _ hcell)
          exact ⟨ad, hcv, by rw [List.getElem?_set_ne hne]; exact hcell⟩
        · rw [if_neg h2] at hsv ⊢
          exact hsv
    | void => exact hsv
    | primitive p => exact hsv
    | bigintRec st => exact hsv
    | dateRec iso => exact hsv
    | regexpRec src fl => exact hsv
    | errorRec name msg => exact hsv
    | boxedBoolRec b => exact hsv
    | boxedNumRec n => exact hsv
    | boxedStrRec st => exact hsv
    | boxedBigRec st => exact hsv
    | arrayRec idxs => exact hsv
    | objectRec es => exact hsv
    | mapRec es => exact hsv
    | setRec idxs => exact hsv

theorem DecEntry_patch {W : List Record} {M : List (Nat × JSVal)}
    {Hd : List JSObj} {j i : Nat} {u : JSVal} {addr : Nat} {o2 : JSObj}
    (he : DecEntry W M Hd j u)
    (hMj : mlookup M j = some u)
    (hMi : mlookup M i = some (.ref addr))
    (hne : j ≠ i)
    (hcinj : ∀ j1 j2 a, mlookup M j1 = some (.ref a) →
      mlookup M j2 = some (.ref a) → j1 = j2)
    (hpo : ∀ o, Hd[addr]? = some o → noBufKind o = true) :
    DecEntry W M (Hd.set addr o2) j u := by
  have hown : ∀ ad, u = .ref ad → addr ≠ ad := by
    intro ad hu hEq
    subst hEq
    rw [hu] at hMj
    exact hne (hcinj j i addr hMj hMi)
  simp only [DecEntry] at he ⊢
  cases hW : W[j]? with
  | none => rw [hW] at he; exact he
  | some r =>
    rw [hW] at he
    cases r with
    | void => exact he
    | primitive p => exact he
    | bigintRec st => exact he
    | dateRec iso =>
      obtain ⟨ad, hu, hc⟩ := he
      exact ⟨ad, hu, by rw [List.getElem?_set_ne (hown ad hu)]; exact hc⟩
    | regexpRec src fl =>
      obtain ⟨ad, hu, hc⟩ := he
      exact ⟨ad, hu, by rw [List.getElem?_set_ne (hown ad hu)]; exact hc⟩
    | errorRec name msg =>
      obtain ⟨ad, hu, hc⟩ := he
      exact ⟨ad, hu, by rw [List.getElem?_set_ne (hown ad hu)]; exact hc⟩
    | boxedBoolRec b =>
      obtain ⟨ad, hu, hc⟩ := he
      exact ⟨ad, hu, by rw [List.getElem?_set_ne (hown ad hu)]; exact hc⟩
    | boxedNumRec n =>
      obtain ⟨ad, hu, hc⟩ := he
      exact ⟨ad, hu, by rw [List.getElem?_set_ne (hown ad hu)]; exact hc⟩
    | boxedStrRec st =>
      obtain ⟨ad, hu, hc⟩ := he
      exact ⟨ad, hu, by rw [List.getElem?_set_ne (hown ad hu)]; exact hc⟩
    | boxedBigRec st =>
      obtain ⟨b, ad, hb, hu, hc⟩ := he
      exact ⟨b, ad, hb, hu,
        by rw [List.getElem?_set_ne (hown ad hu)]; exact hc⟩
    | typedRec tag elems =>
      simp only at he ⊢
      by_cases h1 : tag = "ArrayBuffer"
      · rw [if_pos h1] at he ⊢
        obtain ⟨ad, hu, hc⟩ := he
        exact ⟨ad, hu, by rw [List.getElem?_set_ne (hown ad hu)]; exact hc⟩
      · rw [if_neg h1] at he ⊢
        by_cases h2 : tag = "DataView"
        · rw [if_pos h2] at he ⊢
          obtain ⟨ad, hu, hc⟩ := he
          exact ⟨ad, hu, by rw [List.getElem?_set_ne (hown ad hu)]; exact hc⟩
        · rw [if_neg h2] at he ⊢
          obtain ⟨ad, hu, hc⟩ := he
          exact ⟨ad, hu, by rw [List.getElem?_set_ne (hown ad hu)]; exact hc⟩
    | arrayRec idxs =>
      obtain ⟨ad, vs, hu, hc, hall⟩ := he
      exact ⟨ad, vs, hu, by rw [List.getElem?_set_ne (hown ad hu)]; exact hc,
        hall.imp (fun q cv h2 => SlotVal_patch h2 hpo)⟩
    | objectRec es =>
      obtain ⟨ad, kvs, hu, hc, hall⟩ := he
      exact ⟨ad, kvs, hu, by rw [List.getElem?_set_ne (hown ad hu)]; exact hc,
        hall.imp (fun q kv h2 =>
          ⟨SlotVal_patch h2.1 hpo, SlotVal_patch h2.2 hpo⟩)⟩
    | mapRec es =>
      obtain ⟨ad, kvs, hu, hc, hall, hso⟩ := he
      exact ⟨ad, kvs, hu, by rw [List.getElem?_set_ne (hown ad hu)]; exact hc,
        hall.imp (fun q kv h2 =>
          ⟨SlotVal_patch h2.1 hpo, SlotVal_patch h2.2 hpo⟩), hso⟩
    | setRec idxs =>
      obtain ⟨ad, vs, hu, hc, hall, hso⟩ := he
      exact ⟨ad, vs, hu, by rw [List.getElem?_set_ne (hown ad hu)]; exact hc,
        hall.imp (fun q cv h2 => SlotVal_patch h2 hpo), hso⟩

theorem DInvD_reg {W : List Record} {s : DSt} {i : Nat} {p : JSPrim}
    {r : Record} (hinv : DInvD W s) (hW : W[i]? = some r)
    (hsr : strayRec r = false) :
    DInvD W ⟨(i, .prim p) :: s.memo, s.heap⟩ := by
  obtain ⟨hci, hmr, hms, hob⟩ := hinv
  refine ⟨?_, ?_, ?_, ?_⟩
  · intro j1 j2 a h1 h2
    rcases mlookup_cons_split h1 with ⟨hj1, hv1⟩ | h1b
    · exact JSVal.noConfusion hv1
    · rcases mlookup_cons_split h2 with ⟨hj2, hv2⟩ | h2b
      · exact JSVal.noConfusion hv2
      · exact hci j1 j2 a h1b h2b
  · intro j a h
    rcases mlookup_cons_split h with ⟨hj, hv⟩ | hb
    · exact JSVal.noConfusion hv
    · exact hmr j a hb
  · intro j u h
    rcases mlookup_cons_split h with ⟨hj, hv⟩ | hb
    · subst hj
      exact ⟨r, hW, hsr⟩
    · exact hms j u hb
  · intro j a h
    rcases mlookup_cons_split h with ⟨hj, hv⟩ | hb
    · exact JSVal.noConfusion hv
    · exact hob j a hb

theorem DInvD_alloc {W : List Record} {s : DSt} {i : Nat} {o : JSObj}
    {r : Record} (hinv : DInvD W s) (hW : W[i]? = some r)
    (hsr : strayRec r = false) (hnb : noBufKind o = true) :
    DInvD W ⟨(i, .ref s.heap.length) :: s.memo, s.heap ++ [o]⟩ := by
  obtain ⟨hci, hmr, hms, hob⟩ := hinv
  refine ⟨?_, ?_, ?_, ?_⟩
  · intro j1 j2 a h1 h2
    rcases mlookup_cons_split h1 with ⟨hj1, hv1⟩ | h1b
    · injection hv1 with ha1
      subst ha1
      rcases mlookup_cons_split h2 with ⟨hj2, hv2⟩ | h2b
      · rw [hj1, hj2]
      · have := hmr j2 _ h2b
        omega
    · rcases mlookup_cons_split h2 with ⟨hj2, hv2⟩ | h2b
      · injection hv2 with ha2
        subst ha2
        have := hmr j1 _ h1b
        omega
      · exact hci j1 j2 a h1b h2b
  · intro j a h
    simp only [List.length_append, List.length_singleton]
    rcases mlookup_cons_split h with ⟨hj, hv⟩ | hb
    · injection hv with ha
      omega
    · have := hmr j a hb
      omega
  · intro j u h
    rcases mlookup_cons_split h with ⟨hj, hv⟩ | hb
    · subst hj
      exact ⟨r, hW, hsr⟩
    · exact hms j u hb
  · intro j a h
    rcases mlookup_cons_split h with ⟨hj, hv⟩ | hb
    · injection hv with ha
      subst ha
      intro o0 ho0
      rw [List.getElem?_concat_length] at ho0
      injection ho0 with ho1
      subst ho1
      exact hnb
    · intro o0 ho0
      have hlt := hmr j a hb
      rw [List.getElem?_append_left hlt] at ho0
      exact hob j a hb o0 ho0

theorem DInvD_stray {W : List Record} {s : DSt} (o : JSObj)
    (hinv : DInvD W s) : DInvD W ⟨s.memo, s.heap ++ [o]⟩ := by
  obtain ⟨hci, hmr, hms, hob⟩ := hinv
  refine ⟨hci, ?_, hms, ?_⟩
  · intro j a h
    have := hmr j a h
    simp only [List.length_append, List.length_singleton]
    omega
  · intro j a h o0 ho0
    have hlt := hmr j a h
    rw [List.getElem?_append_left hlt] at ho0
    exact hob j a h o0 ho0

theorem DInvD_patch {W : List Record} {s : DSt} {i addr : Nat} {o2 : JSObj}
    (hinv : DInvD W s) (hMi : mlookup s.memo i = some (.ref addr))
    (hnb2 : noBufKind o2 = true) :
    DInvD W ⟨s.memo, s.heap.set addr o2⟩ := by
  obtain ⟨hci, hmr, hms, hob⟩ := hinv
  refine ⟨hci, ?_, hms, ?_⟩
  · intro j a h
    simp only [List.length_set]
    exact hmr j a h
  · intro j a h o0 ho0
    by_cases hEq : addr = a
    · subst hEq
      rw [List.getElem?_set_self (hmr i addr hMi)] at ho0
      injection ho0 with ho1
      subst ho1
      exact hnb2
    · rw [List.getElem?_set_ne hEq] at ho0
      exact hob j a h o0 ho0

/-- Full specification of one decoding step: the returned value is the
slot's value, stray buffer returns are freshly allocated, returned
references are in range, the invariant is preserved, and every memo
entry is inherited or correct relative to the final state. -/
def DecStr (W : List Record) (g : Nat → DSt → Except DErr (JSVal × DSt)) :
    Prop :=
  ∀ i s w s', g i s = .ok (w, s') → DInvD W s →
    SlotVal W s'.memo s'.heap i w ∧
    (strayAt W i = true → ∃ ad, w = .ref ad ∧ s.heap.length ≤ ad) ∧
    (∀ ad, w = .ref ad → ad < s'.heap.length) ∧
    DInvD W s' ∧
    (∀ j u, mlookup s'.memo j = some u →
      mlookup s.memo j = some u ∨ DecEntry W s'.memo s'.heap j u)

theorem decList_str {W : List Record}
    {g : Nat → DSt → Except DErr (JSVal × DSt)} (hgf : DecStepFrame g)
    (hg : DecStr W g) :
    ∀ (l : List Nat) (s : DSt) (vs : List JSVal) (s' : DSt),
      decList g l s = .ok (vs, s') → DInvD W s →
        List.Forall₂ (fun q cv => SlotVal W s'.memo s'.heap q cv) l vs ∧
        DInvD W s' ∧
        (∀ j u, mlookup s'.memo j = some u →
          mlookup s.memo j = some u ∨ DecEntry W s'.memo s'.heap j u) ∧
        StrayOrder W l vs ∧
        StrayLB W s.heap.length l vs := by
  intro l
  induction l with
  | nil =>
    intro s vs s' h hinv
    rw [decList] at h
    cases h
    refine ⟨List.Forall₂.nil, hinv, fun j u hj => Or.inl hj, ?_, ?_⟩
    · intro k1 k2 q1 q2 a1 a2 _ h1
      simp at h1
    · intro k q a h1
      simp at h1
  | cons hd tl ih =>
    intro s vs s' h hinv
    rw [decList] at h
    cases hok : g hd s with
    | error e => simp only [hok] at h; exact Except.noConfusion h
    | ok p =>
      obtain ⟨v1, s1⟩ := p
      simp only [hok] at h
      cases hl : decList g tl s1 with
      | error e => simp only [hl] at h; exact Except.noConfusion h
      | ok q =>
        obtain ⟨vs2, s2⟩ := q
        simp only [hl] at h
        cases h
        obtain ⟨c1, c2, c3, c4, c5⟩ := hg hd s v1 s1 hok hinv
        obtain ⟨t1, t2, t3, t4, t5⟩ := ih s1 vs2 _ hl c4
        have hext1 : DExt s s1 := hgf hd s v1 s1 hok
        have hext2 := decList_frame hgf tl s1 vs2 _ hl
        refine ⟨?_, t2, ?_, ?_, ?_⟩
        · exact List.Forall₂.cons (SlotVal_mono c1 hext2.1 hext2.2.2) t1
        · intro j u hj
          rcases t3 j u hj with hold | hnew
          · rcases c5 j u hold with hold2 | hnew2
            · exact Or.inl hold2
            · exact Or.inr (DecEntry_mono hnew2 hext2.1 hext2.2.2)
          · exact Or.inr hnew
        · intro k1 k2 q1 q2 a1 a2 hlt h1 h2 hs1 hs2 hv1 hv2
          cases k1 with
          | zero =>
            rw [List.getElem?_cons_zero] at h1 hv1
            injection h1 with hq1
            subst hq1
            injection hv1 with hv1b
            cases k2 with
            | zero => omega
            | succ k2b =>
              rw [List.getElem?_cons_succ] at h2 hv2
              obtain ⟨ad, had, hadge⟩ := c2 hs1
              rw [had] at hv1b
              injection hv1b with hab
              subst hab
              have ha1lt := c3 _ had
              have ha2ge := t5 k2b q2 a2 h2 hs2 hv2
              omega
          | succ k1b =>
            cases k2 with
            | zero => omega
            | succ k2b =>
              rw [List.getElem?_cons_succ] at h1 h2 hv1 hv2
              exact t4 k1b k2b q1 q2 a1 a2 (by omega) h1 h2 hs1 hs2 hv1 hv2
        · intro k qq a h1 hstray hv1
          cases k with
          | zero =>
            rw [List.getElem?_cons_zero] at h1 hv1
            injection h1 with hq1
            subst hq1
            injection hv1 with hv1b
            obtain ⟨ad, had, hadge⟩ := c2 hstray
            rw [had] at hv1b
            injection hv1b with hab
            subst hab
            exact hadge
          | succ kb =>
            rw [List.getElem?_cons_succ] at h1 hv1
            have hge := t5 kb qq a h1 hstray hv1
            have := hext1.2.1
            omega

theorem decPairs_str {W : List Record}
    {g : Nat → DSt → Except DErr (JSVal × DSt)} (hgf : DecStepFrame g)
    (hg : DecStr W g) :
    ∀ (l : List (Nat × Nat)) (s : DSt) (kvs : List (JSVal × JSVal))
      (s' : DSt),
      decPairs g l s = .ok (kvs, s') → DInvD W s →
        List.Forall₂ (fun q kv => SlotVal W s'.memo s'.heap q.1 kv.1 ∧
          SlotVal W s'.memo s'.heap q.2 kv.2) l kvs ∧
        DInvD W s' ∧
        (∀ j u, mlookup s'.memo j = some u →
          mlookup s.memo j = some u ∨ DecEntry W s'.memo s'.heap j u) ∧
        StrayOrderP W l kvs ∧
        StrayLBP W s.heap.length l kvs := by
  intro l
  induction l with
  | nil =>
    intro s kvs s' h hinv
    rw [decPairs] at h
    cases h
    refine ⟨List.Forall₂.nil, hinv, fun j u hj => Or.inl hj, ?_, ?_⟩
    · intro k1 k2 q1 q2 kv1 kv2 a1 a2 _ h1
      simp at h1
    · intro k q kv a h1
      simp at h1
  | cons hd tl ih =>
    obtain ⟨ki, vi⟩ := hd
    intro s kvs s' h hinv
    rw [decPairs] at h
    cases hok1 : g ki s with
    | error e => simp only [hok1] at h; exact Except.noConfusion h
    | ok p =>
      obtain ⟨k1v, s1⟩ := p
      simp only [hok1] at h
      cases hok2 : g vi s1 with
      | error e => simp only [hok2] at h; exact Except.noConfusion h
      | ok q =>
        obtain ⟨v1v, s2⟩ := q
        simp only [hok2] at h
        cases hl : decPairs g tl s2 with
        | error e => simp only [hl] at h; exact Except.noConfusion h
        | ok r =>
          obtain ⟨kvs2, s3⟩ := r
          simp only [hl] at h
          cases h
          obtain ⟨ck1, ck2, ck3, ck4, ck5⟩ := hg ki s k1v s1 hok1 hinv
          obtain ⟨cv1, cv2, cv3, cv4, cv5⟩ := hg vi s1 v1v s2 hok2 ck4
          obtain ⟨t1, t2, t3, t4, t5⟩ := ih s2 kvs2 _ hl cv4
          have hext1 : DExt s s1 := hgf ki s k1v s1 hok1
          have hext2 : DExt s1 s2 := hgf vi s1 v1v s2 hok2
          have hext3 := decPairs_frame hgf tl s2 kvs2 _ hl
          have hext23 := DExt_trans hext2 hext3
          refine ⟨?_, t2, ?_, ?_, ?_⟩
          · exact List.Forall₂.cons
              ⟨SlotVal_mono ck1 hext23.1 hext23.2.2,
               SlotVal_mono cv1 hext3.1 hext3.2.2⟩ t1
          · intro j u hj
            rcases t3 j u hj with hold3 | hnew3
            · rcases cv5 j u hold3 with hold2 | hnew2
              · rcases ck5 j u hold2 with hold1 | hnew1
                · exact Or.inl hold1
                · exact Or.inr (DecEntry_mono hnew1 hext23.1 hext23.2.2)
              · exact Or.inr (DecEntry_mono hnew2 hext3.1 hext3.2.2)
            · exact Or.inr hnew3
          · intro k1 k2 q1 q2 kv1 kv2 a1 a2 hlt h1 h2 hs1 hs2 hkv1 hkv2
              ha1 ha2
            cases k1 with
            | zero =>
              rw [List.getElem?_cons_zero] at h1 hkv1
              injection h1 with hq1
              subst hq1
              injection hkv1 with hkv1b
              cases k2 with
              | zero => omega
              | succ k2b =>
                rw [List.getElem?_cons_succ] at h2 hkv2
                obtain ⟨ad, had, hadge⟩ := ck2 hs1
                have hk1a : k1v = JSVal.ref a1 := by
                  rw [← hkv1b] at ha1
                  exact ha1
                rw [hk1a] at had
                injection had with hab
                subst hab
                have ha1lt : a1 < s1.heap.length := ck3 a1 hk1a
                have ha2ge := t5 k2b q2 kv2 a2 h2 hs2 hkv2 ha2
                have := hext2.2.1
                omega
            | succ k1b =>
              cases k2 with
              | zero => omega
              | succ k2b =>
                rw [List.getElem?_cons_succ] at h1 h2 hkv1 hkv2
                exact t4 k1b k2b q1 q2 kv1 kv2 a1 a2 (by omega) h1 h2
                  hs1 hs2 hkv1 hkv2 ha1 ha2
          · intro k qq kv a h1 hstray hkv ha
            cases k with
            | zero =>
              rw [List.getElem?_cons_zero] at h1 hkv
              injection h1 with hq1
              subst hq1
              injection hkv with hkvb
              obtain ⟨ad, had, hadge⟩ := ck2 hstray
              have hk1a : k1v = JSVal.ref a := by
                rw [← hkvb] at ha
                exact ha
              rw [hk1a] at had
              injection had with hab
              subst hab
              exact hadge
            | succ kb =>
              rw [List.getElem?_cons_succ] at h1 hkv
              have hge := t5 kb qq kv a h1 hstray hkv ha
              have := hext1.2.1
              have := hext2.2.1
              omega

theorem strayAt_eq {W : List Record} {i : Nat} {r : Record}
    (hW : W[i]? = some r) : strayAt W i = strayRec r := by
  simp [strayAt, hW]

/-- A memoized slot of a non-stray record has its memo value as slot
value. -/
theorem SlotVal_of_mlookup {W : List Record} {M : List (Nat × JSVal)}
    {Hd : List JSObj} {i : Nat} {w : JSVal} {r : Record}
    (hW : W[i]? = some r) (hsr : strayRec r = false)
    (hm : mlookup M i = some w) : SlotVal W M Hd i w := by
  simp only [SlotVal, hW]
  cases r with
  | typedRec tag elems =>
    simp only [strayRec, Bool.or_eq_true, beq_iff_eq] at hsr
    rw [Bool.or_eq_false_iff] at hsr
    have h1 : ¬ tag = "ArrayBuffer" := by
      intro hEq
      rw [hEq] at hsr
      simp at hsr
    have h2 : ¬ tag = "DataView" := by
      intro hEq
      rw [hEq] at hsr
      simp at hsr
    simp only
    rw [if_neg h1, if_neg h2]
    exact hm
  | void => exact hm
  | primitive p => exact hm
  | bigintRec st => exact hm
  | dateRec iso => exact hm
  | regexpRec src fl => exact hm
  | errorRec name msg => exact hm
  | boxedBoolRec b => exact hm
  | boxedNumRec n => exact hm
  | boxedStrRec st => exact hm
  | boxedBigRec st => exact hm
  | arrayRec idxs => exact hm
  | objectRec es => exact hm
  | mapRec es => exact hm
  | setRec idxs => exact hm

/-- `unpair` satisfies the full decoding-step specification at every
fuel. -/
theorem unpairF_str (W : List Record) :
    ∀ fuel, DecStr W (unpairF W fuel) := by
  intro fuel
  induction fuel with
  | zero => intro i s w s' h hinv; simp [unpairF] at h
  | succ fuel ih =>
    intro i s w s' h hinv
    cases hm : mlookup s.memo i with
    | some w0 =>
      simp only [unpairF, hm] at h
      cases h
      obtain ⟨r, hWr, hsr⟩ := hinv.2.2.1 i _ hm
      refine ⟨SlotVal_of_mlookup hWr hsr hm, ?_, ?_, hinv,
        fun j u hj => Or.inl hj⟩
      · intro hstray
        rw [strayAt_eq hWr, hsr] at hstray
        exact Bool.noConfusion hstray
      · intro ad hw
        exact hinv.2.1 i ad (hw ▸ hm)
    | none =>
      simp only [unpairF, hm] at h
      cases hW : W[i]? with
      | none => simp only [hW] at h; exact Except.noConfusion h
      | some r =>
        simp only [hW] at h
        cases r with
        | void =>
          simp only [DSt.reg] at h
          cases h
          refine ⟨SlotVal_of_mlookup hW rfl mlookup_cons_self, ?_, ?_,
            DInvD_reg hinv hW rfl, ?_⟩
          · intro hstray
            rw [strayAt_eq hW] at hstray
            exact Bool.noConfusion hstray
          · intro ad hw
            exact JSVal.noConfusion hw
          · intro j u hj
            rcases mlookup_cons_split hj with ⟨hji, hju⟩ | hb
            · subst hji
              refine Or.inr ?_
              simp only [DecEntry, hW]
              exact hju
            · exact Or.inl hb
        | primitive p =>
          simp only [DSt.reg] at h
          cases h
          refine ⟨SlotVal_of_mlookup hW rfl mlookup_cons_self, ?_, ?_,
            DInvD_reg hinv hW rfl, ?_⟩
          · intro hstray
            rw [strayAt_eq hW] at hstray
            exact Bool.noConfusion hstray
          · intro ad hw
            exact JSVal.noConfusion hw
          · intro j u hj
            rcases mlookup_cons_split hj with ⟨hji, hju⟩ | hb
            · subst hji
              refine Or.inr ?_
              simp only [DecEntry, hW]
              exact hju
            · exact Or.inl hb
        | bigintRec st =>
          cases hb : parseBigInt st with
          | none => simp only [hb] at h; exact Except.noConfusion h
          | some b =>
            simp only [hb, DSt.reg] at h
            cases h
            refine ⟨SlotVal_of_mlookup hW rfl mlookup_cons_self, ?_, ?_,
              DInvD_reg hinv hW rfl, ?_⟩
            · intro hstray
              rw [strayAt_eq hW] at hstray
              exact Bool.noConfusion hstray
            · intro ad hw
              exact JSVal.noConfusion hw
            · intro j u hj
              rcases mlookup_cons_split hj with ⟨hji, hju⟩ | hb2
              · subst hji
                refine Or.inr ?_
                simp only [DecEntry, hW]
                exact ⟨b, hb, hju⟩
              · exact Or.inl hb2
        | dateRec iso =>
          simp only [DSt.alloc] at h
          cases h
          refine ⟨SlotVal_of_mlookup hW rfl mlookup_cons_self, ?_, ?_,
            DInvD_alloc hinv hW rfl rfl, ?_⟩
          · intro hstray
            rw [strayAt_eq hW] at hstray
            exact Bool.noConfusion hstray
          · intro ad hw
            injection hw with hab
            subst hab
            simp
          · intro j u hj
            rcases mlookup_cons_split hj with ⟨hji, hju⟩ | hb
            · subst hji
              refine Or.inr ?_
              simp only [DecEntry, hW]
              exact ⟨s.heap.length, hju, by rw [List.getElem?_concat_length]⟩
            · exact Or.inl hb
        | regexpRec src fl =>
          simp only [DSt.alloc] at h
          cases h
          refine ⟨SlotVal_of_mlookup hW rfl mlookup_cons_self, ?_, ?_,
            DInvD_alloc hinv hW rfl rfl, ?_⟩
          · intro hstray
            rw [strayAt_eq hW] at hstray
            exact Bool.noConfusion hstray
          · intro ad hw
            injection hw with hab
            subst hab
            simp
          · intro j u hj
            rcases mlookup_cons_split hj with ⟨hji, hju⟩ | hb
            · subst hji
              refine Or.inr ?_
              simp only [DecEntry, hW]
              exact ⟨s.heap.length, hju, by rw [List.getElem?_concat_length]⟩
            · exact Or.inl hb
        | errorRec name msg =>
          simp only [DSt.alloc] at h
          cases h
          refine ⟨SlotVal_of_mlookup hW rfl mlookup_cons_self, ?_, ?_,
            DInvD_alloc hinv hW rfl rfl, ?_⟩
          · intro hstray
            rw [strayAt_eq hW] at hstray
            exact Bool.noConfusion hstray
          · intro ad hw
            injection hw with hab
            subst hab
            simp
          · intro j u hj
            rcases mlookup_cons_split hj with ⟨hji, hju⟩ | hb
            · subst hji
              refine Or.inr ?_
              simp only [DecEntry, hW]
              exact ⟨s.heap.length, hju, by rw [List.getElem?_concat_length]⟩
            · exact Or.inl hb
        | boxedBoolRec b =>
          simp only [DSt.alloc] at h
          cases h
          refine ⟨SlotVal_of_mlookup hW rfl mlookup_cons_self, ?_, ?_,
            DInvD_alloc hinv hW rfl rfl, ?_⟩
          · intro hstray
            rw [strayAt_eq hW] at hstray
            exact Bool.noConfusion hstray
          · intro ad hw
            injection hw with hab
            subst hab
            simp
          · intro j u hj
            rcases mlookup_cons_split hj with ⟨hji, hju⟩ | hb2
            · subst hji
              refine Or.inr ?_
              simp only [DecEntry, hW]
              exact ⟨s.heap.length, hju, by rw [List.getElem?_concat_length]⟩
            · exact Or.inl hb2
        | boxedNumRec n =>
          simp only [DSt.alloc] at h
          cases h
          refine ⟨SlotVal_of_mlookup hW rfl mlookup_cons_self, ?_, ?_,
            DInvD_alloc hinv hW rfl rfl, ?_⟩
          · intro hstray
            rw [strayAt_eq hW] at hstray
            exact Bool.noConfusion hstray
          · intro ad hw
            injection hw with hab
            subst hab
            simp
          · intro j u hj
            rcases mlookup_cons_split hj with ⟨hji, hju⟩ | hb
            · subst hji
              refine Or.inr ?_
              simp only [DecEntry, hW]
              exact ⟨s.heap.length, hju, by rw [List.getElem?_concat_length]⟩
            · exact Or.inl hb
        | boxedStrRec st =>
          simp only [DSt.alloc] at h
          cases h
          refine ⟨SlotVal_of_mlookup hW rfl mlookup_cons_self, ?_, ?_,
            DInvD_alloc hinv hW rfl rfl, ?_⟩
          · intro hstray
            rw [strayAt_eq hW] at hstray
            exact Bool.noConfusion hstray
          · intro ad hw
            injection hw with hab
            subst hab
            simp
          · intro j u hj
            rcases mlookup_cons_split hj with ⟨hji, hju⟩ | hb
            · subst hji
              refine Or.inr ?_
              simp only [DecEntry, hW]
              exact ⟨s.heap.length, hju, by rw [List.getElem?_concat_length]⟩
            · exact Or.inl hb
        | boxedBigRec st =>
          cases hb : parseBigInt st with
          | none => simp only [hb] at h; exact Except.noConfusion h
          | some b =>
            simp only [hb, DSt.alloc] at h
            cases h
            refine ⟨SlotVal_of_mlookup hW rfl mlookup_cons_self, ?_, ?_,
              DInvD_alloc hinv hW rfl rfl, ?_⟩
            · intro hstray
              rw [strayAt_eq hW] at hstray
              exact Bool.noConfusion hstray
            · intro ad hw
              injection hw with hab
              subst hab
              simp
            · intro j u hj
              rcases mlookup_cons_split hj with ⟨hji, hju⟩ | hb2
              · subst hji
                refine Or.inr ?_
                simp only [DecEntry, hW]
                exact ⟨b, s.heap.length, hb, hju,
                  by rw [List.getElem?_concat_length]⟩
              · exact Or.inl hb2
        | typedRec tag elems =>
          simp only [DSt.allocStray, DSt.alloc] at h
          split at h
          · rename_i htag
            cases h
            refine ⟨?_, ?_, ?_, DInvD_stray _ hinv, fun j u hj => Or.inl hj⟩
            · simp only [SlotVal, hW]
              rw [if_pos htag]
              exact ⟨s.heap.length, rfl, by rw [List.getElem?_concat_length]⟩
            · intro _
              exact ⟨s.heap.length, rfl, le_refl _⟩
            · intro ad hw
              injection hw with hab
              subst hab
              simp
          · rename_i htag1
            split at h
            · rename_i htag2
              cases h
              refine ⟨?_, ?_, ?_, DInvD_stray _ hinv, fun j u hj => Or.inl hj⟩
              · simp only [SlotVal, hW]
                rw [if_neg htag1, if_pos htag2]
                exact ⟨s.heap.length, rfl, by rw [List.getElem?_concat_length]⟩
              · intro _
                exact ⟨s.heap.length, rfl, le_refl _⟩
              · intro ad hw
                injection hw with hab
                subst hab
                simp
            · rename_i htag2
              cases h
              have hsr : strayRec (Record.typedRec tag elems) = false := by
                simp only [strayRec, Bool.or_eq_false_iff, beq_eq_false_iff_ne]
                exact ⟨htag1, htag2⟩
              refine ⟨SlotVal_of_mlookup hW hsr mlookup_cons_self, ?_, ?_,
                DInvD_alloc hinv hW hsr rfl, ?_⟩
              · intro hstray
                rw [strayAt_eq hW, hsr] at hstray
                exact Bool.noConfusion hstray
              · intro ad hw
                injection hw with hab
                subst hab
                simp
              · intro j u hj
                rcases mlookup_cons_split hj with ⟨hji, hju⟩ | hb
                · subst hji
                  refine Or.inr ?_
                  simp only [DecEntry, hW]
                  rw [if_neg htag1, if_neg htag2]
                  exact ⟨s.heap.length, hju,
                    by rw [List.getElem?_concat_length]⟩
                · exact Or.inl hb
        | arrayRec idxs =>
          simp only [DSt.allocA] at h
          cases hl : decList (unpairF W fuel) idxs
              ⟨(i, JSVal.ref s.heap.length) :: s.memo, s.heap ++ [.arr []]⟩ with
          | error e => simp only [hl] at h; exact Except.noConfusion h
          | ok q =>
            obtain ⟨vs, s2⟩ := q
            simp only [hl] at h
            cases h
            have hinv1 : DInvD W ⟨(i, JSVal.ref s.heap.length) :: s.memo,
                s.heap ++ [.arr []]⟩ := DInvD_alloc hinv hW rfl rfl
            obtain ⟨t1, t2, t3, t4, t5⟩ :=
              decList_str (unpairF_frame W fuel) ih idxs _ vs s2 hl hinv1
            have hext2 := decList_frame (unpairF_frame W fuel) idxs _ vs s2 hl
            have hMi2 : mlookup s2.memo i = some (.ref s.heap.length) :=
              hext2.1 i _ mlookup_cons_self
            have haddrlt : s.heap.length < s2.heap.length := by
              have := hext2.2.1
              simp only [List.length_append, List.length_singleton] at this
              omega
            have haddrcell : s2.heap[s.heap.length]? = some (.arr []) := by
              have hpre := hext2.2.2 s.heap.length (by
                simp only [List.length_append, List.length_singleton]
                omega)
              rw [hpre]
              rw [List.getElem?_concat_length]
            have hpo : ∀ o, s2.heap[s.heap.length]? = some o →
                noBufKind o = true := by
              intro o ho
              rw [haddrcell] at ho
              injection ho with ho1
              subst ho1
              rfl
            refine ⟨?_, ?_, ?_, DInvD_patch t2 hMi2 rfl, ?_⟩
            · simp only [SlotVal, hW, DSt.patch]
              exact hMi2
            · intro hstray
              rw [strayAt_eq hW] at hstray
              exact Bool.noConfusion hstray
            · intro ad hw
              injection hw with hab
              subst hab
              simp only [DSt.patch, List.length_set]
              omega
            · intro j u hj
              simp only [DSt.patch] at hj
              by_cases hji : j = i
              · subst hji
                rw [hMi2] at hj
                injection hj with hju
                refine Or.inr ?_
                simp only [DecEntry, hW]
                refine ⟨s.heap.length, vs, hju.symm, ?_, ?_⟩
                · simp only [DSt.patch]
                  rw [List.getElem?_set_self haddrlt]
                · exact t1.imp (fun q cv h2 => SlotVal_patch h2 hpo)
              · rcases t3 j u hj with hold1 | hnew
                · rcases mlookup_cons_split hold1 with ⟨hji2, _⟩ | holds
                  · exact absurd hji2 hji
                  · exact Or.inl holds
                · exact Or.inr (DecEntry_patch hnew hj hMi2 hji t2.1 hpo)
        | setRec idxs =>
          simp only [DSt.allocA] at h
          cases hl : decList (unpairF W fuel) idxs
              ⟨(i, JSVal.ref s.heap.length) :: s.memo,
               s.heap ++ [.setObj []]⟩ with
          | error e => simp only [hl] at h; exact Except.noConfusion h
          | ok q =>
            obtain ⟨vs, s2⟩ := q
            simp only [hl] at h
            cases h
            have hinv1 : DInvD W ⟨(i, JSVal.ref s.heap.length) :: s.memo,
                s.heap ++ [.setObj []]⟩ := DInvD_alloc hinv hW rfl rfl
            obtain ⟨t1, t2, t3, t4, t5⟩ :=
              decList_str (unpairF_frame W fuel) ih idxs _ vs s2 hl hinv1
            have hext2 := decList_frame (unpairF_frame W fuel) idxs _ vs s2 hl
            have hMi2 : mlookup s2.memo i = some (.ref s.heap.length) :=
              hext2.1 i _ mlookup_cons_self
            have haddrlt : s.heap.length < s2.heap.length := by
              have := hext2.2.1
              simp only [List.length_append, List.length_singleton] at this
              omega
            have haddrcell : s2.heap[s.heap.length]? = some (.setObj []) := by
              have hpre := hext2.2.2 s.heap.length (by
                simp only [List.length_append, List.length_singleton]
                omega)
              rw [hpre]
              rw [List.getElem?_concat_length]
            have hpo : ∀ o, s2.heap[s.heap.length]? = some o →
                noBufKind o = true := by
              intro o ho
              rw [haddrcell] at ho
              injection ho with ho1
              subst ho1
              rfl
            refine ⟨?_, ?_, ?_, DInvD_patch t2 hMi2 rfl, ?_⟩
            · simp only [SlotVal, hW, DSt.patch]
              exact hMi2
            · intro hstray
              rw [strayAt_eq hW] at hstray
              exact Bool.noConfusion hstray
            · intro ad hw
              injection hw with hab
              subst hab
              simp only [DSt.patch, List.length_set]
              omega
            · intro j u hj
              simp only [DSt.patch] at hj
              by_cases hji : j = i
              · subst hji
                rw [hMi2] at hj
                injection hj with hju
                refine Or.inr ?_
                simp only [DecEntry, hW]
                refine ⟨s.heap.length, vs, hju.symm, ?_, ?_, t4⟩
                · simp only [DSt.patch]
                  rw [List.getElem?_set_self haddrlt]
                · exact t1.imp (fun q cv h2 => SlotVal_patch h2 hpo)
              · rcases t3 j u hj with hold1 | hnew
                · rcases mlookup_cons_split hold1 with ⟨hji2, _⟩ | holds
                  · exact absurd hji2 hji
                  · exact Or.inl holds
                · exact Or.inr (DecEntry_patch hnew hj hMi2 hji t2.1 hpo)
        | objectRec es =>
          simp only [DSt.allocA] at h
          cases hl : decPairs (unpairF W fuel) es
              ⟨(i, JSVal.ref s.heap.length) :: s.memo,
               s.heap ++ [.obj [] none]⟩ with
          | error e => simp only [hl] at h; exact Except.noConfusion h
          | ok q =>
            obtain ⟨ps, s2⟩ := q
            simp only [hl] at h
            cases h
            have hinv1 : DInvD W ⟨(i, JSVal.ref s.heap.length) :: s.memo,
                s.heap ++ [.obj [] none]⟩ := DInvD_alloc hinv hW rfl rfl
            obtain ⟨t1, t2, t3, t4, t5⟩ :=
              decPairs_str (unpairF_frame W fuel) ih es _ ps s2 hl hinv1
            have hext2 := decPairs_frame (unpairF_frame W fuel) es _ ps s2 hl
            have hMi2 : mlookup s2.memo i = some (.ref s.heap.length) :=
              hext2.1 i _ mlookup_cons_self
            have haddrlt : s.heap.length < s2.heap.length := by
              have := hext2.2.1
              simp only [List.length_append, List.length_singleton] at this
              omega
            have haddrcell : s2.heap[s.heap.length]? = some (.obj [] none) := by
              have hpre := hext2.2.2 s.heap.length (by
                simp only [List.length_append, List.length_singleton]
                omega)
              rw [hpre]
              rw [List.getElem?_concat_length]
            have hpo : ∀ o, s2.heap[s.heap.length]? = some o →
                noBufKind o = true := by
              intro o ho
              rw [haddrcell] at ho
              injection ho with ho1
              subst ho1
              rfl
            refine ⟨?_, ?_, ?_, DInvD_patch t2 hMi2 rfl, ?_⟩
            · simp only [SlotVal, hW, DSt.patch]
              exact hMi2
            · intro hstray
              rw [strayAt_eq hW] at hstray
              exact Bool.noConfusion hstray
            · intro ad hw
              injection hw with hab
              subst hab
              simp only [DSt.patch, List.length_set]
              omega
            · intro j u hj
              simp only [DSt.patch] at hj
              by_cases hji : j = i
              · subst hji
                rw [hMi2] at hj
                injection hj with hju
                refine Or.inr ?_
                simp only [DecEntry, hW]
                refine ⟨s.heap.length, ps, hju.symm, ?_, ?_⟩
                · simp only [DSt.patch]
                  rw [List.getElem?_set_self haddrlt]
                · exact t1.imp (fun q kv h2 =>
                    ⟨SlotVal_patch h2.1 hpo, SlotVal_patch h2.2 hpo⟩)
              · rcases t3 j u hj with hold1 | hnew
                · rcases mlookup_cons_split hold1 with ⟨hji2, _⟩ | holds
                  · exact absurd hji2 hji
                  · exact Or.inl holds
                · exact Or.inr (DecEntry_patch hnew hj hMi2 hji t2.1 hpo)
        | mapRec es =>
          simp only [DSt.allocA] at h
          cases hl : decPairs (unpairF W fuel) es
              ⟨(i, JSVal.ref s.heap.length) :: s.memo,
               s.heap ++ [.mapObj []]⟩ with
          | error e => simp only [hl] at h; exact Except.noConfusion h
          | ok q =>
            obtain ⟨ps, s2⟩ := q
            simp only [hl] at h
            cases h
            have hinv1 : DInvD W ⟨(i, JSVal.ref s.heap.length) :: s.memo,
                s.heap ++ [.mapObj []]⟩ := DInvD_alloc hinv hW rfl rfl
            obtain ⟨t1, t2, t3, t4, t5⟩ :=
              decPairs_str (unpairF_frame W fuel) ih es _ ps s2 hl hinv1
            have hext2 := decPairs_frame (unpairF_frame W fuel) es _ ps s2 hl
            have hMi2 : mlookup s2.memo i = some (.ref s.heap.length) :=
              hext2.1 i _ mlookup_cons_self
            have haddrlt : s.heap.length < s2.heap.length := by
              have := hext2.2.1
              simp only [List.length_append, List.length_singleton] at this
              omega
            have haddrcell : s2.heap[s.heap.length]? = some (.mapObj []) := by
              have hpre := hext2.2.2 s.heap.length (by
                simp only [List.length_append, List.length_singleton]
                omega)
              rw [hpre]
              rw [List.getElem?_concat_length]
            have hpo : ∀ o, s2.heap[s.heap.length]? = some o →
                noBufKind o = true := by
              intro o ho
              rw [haddrcell] at ho
              injection ho with ho1
              subst ho1
              rfl
            refine ⟨?_, ?_, ?_, DInvD_patch t2 hMi2 rfl, ?_⟩
            · simp only [SlotVal, hW, DSt.patch]
              exact hMi2
            · intro hstray
              rw [strayAt_eq hW] at hstray
              exact Bool.noConfusion hstray
            · intro ad hw
              injection hw with hab
              subst hab
              simp only [DSt.patch, List.length_set]
              omega
            · intro j u hj
              simp only [DSt.patch] at hj
              by_cases hji : j = i
              · subst hji
                rw [hMi2] at hj
                injection hj with hju
                refine Or.inr ?_
                simp only [DecEntry, hW]
                refine ⟨s.heap.length, ps, hju.symm, ?_, ?_, t4⟩
                · simp only [DSt.patch]
                  rw [List.getElem?_set_self haddrlt]
                · exact t1.imp (fun q kv h2 =>
                    ⟨SlotVal_patch h2.1 hpo, SlotVal_patch h2.2 hpo⟩)
              · rcases t3 j u hj with hold1 | hnew
                · rcases mlookup_cons_split hold1 with ⟨hji2, _⟩ | holds
                  · exact absurd hji2 hji
                  · exact Or.inl holds
                · exact Or.inr (DecEntry_patch hnew hj hMi2 hji t2.1 hpo)

/-! ## List glue for the round-trip bisimulation -/

theorem forall2_comp {α β γ : Type} {R : α → β → Prop} {S : β → γ → Prop}
    {l1 : List α} {l2 : List β} {l3 : List γ}
    (h1 : List.Forall₂ R l1 l2) (h2 : List.Forall₂ S l2 l3) :
    List.Forall₂ (fun a c => ∃ b, R a b ∧ S b c) l1 l3 := by
  induction h1 generalizing l3 with
  | nil =>
    cases h2
    exact List.Forall₂.nil
  | cons hr htl ih =>
    cases h2 with
    | cons hs htl2 =>
      exact List.Forall₂.cons ⟨_, hr, hs⟩ (ih htl2)

theorem forall2_getElem {α β : Type} {R : α → β → Prop} {l1 : List α}
    {l2 : List β} (h : List.Forall₂ R l1 l2) :
    ∀ (k : Nat) (a : α), l1[k]? = some a →
      ∃ b, l2[k]? = some b ∧ R a b := by
  induction h with
  | nil => intro k a ha; simp at ha
  | cons hr htl ih =>
    intro k a ha
    cases k with
    | zero =>
      rw [List.getElem?_cons_zero] at ha
      injection ha with ha1
      subst ha1
      exact ⟨_, List.getElem?_cons_zero, hr⟩
    | succ kb =>
      rw [List.getElem?_cons_succ] at ha
      obtain ⟨b, hb, hab⟩ := ih kb a ha
      exact ⟨b, by rw [List.getElem?_cons_succ]; exact hb, hab⟩

theorem all2_of_forall2 {α β : Type} {f : α → β → Bool} {l1 : List α}
    {l2 : List β} (h : List.Forall₂ (fun a b => f a b = true) l1 l2) :
    all2 f l1 l2 = true := by
  induction h with
  | nil => rfl
  | cons hr htl ih =>
    simp only [all2, Bool.and_eq_true]
    exact ⟨hr, ih⟩

theorem all2_map_right {α β γ : Type} (f : α → γ → Bool) (g : β → γ)
    (l1 : List α) (l2 : List β) :
    all2 f l1 (l2.map g) = all2 (fun a b => f a (g b)) l1 l2 := by
  induction l1 generalizing l2 with
  | nil => cases l2 <;> rfl
  | cons hd tl ih =>
    cases l2 with
    | nil => rfl
    | cons hd2 tl2 =>
      simp only [List.map_cons, all2, ih]

/-- `nodupB` with lawful boolean equality gives positionwise
distinctness. -/
theorem nodupB_ne {α : Type} [BEq α] [LawfulBEq α] {l : List α}
    (h : nodupB (fun a b => a == b) l = true) :
    ∀ (k1 k2 : Nat) (a b : α), k1 < k2 → l[k1]? = some a →
      l[k2]? = some b → a ≠ b := by
  induction l with
  | nil => intro k1 k2 a b _ ha; simp at ha
  | cons hd tl ih =>
    simp only [nodupB, Bool.and_eq_true, Bool.not_eq_true] at h
    intro k1 k2 a b hlt ha hb hab
    cases k1 with
    | zero =>
      rw [List.getElem?_cons_zero] at ha
      injection ha with ha1
      subst ha1
      cases k2 with
      | zero => omega
      | succ k2b =>
        rw [List.getElem?_cons_succ] at hb
        subst hab
        have hmem : hd ∈ tl := List.mem_iff_getElem?.mpr ⟨k2b, hb⟩
        have hany : tl.any (fun x => hd == x) = true := by
          rw [List.any_eq_true]
          exact ⟨hd, hmem, by simp⟩
        rw [hany] at h
        exact Bool.noConfusion h.1
    | succ k1b =>
      cases k2 with
      | zero => omega
      | succ k2b =>
        rw [List.getElem?_cons_succ] at ha hb
        exact ih h.2 k1b k2b a b (by omega) ha hb hab

theorem mapAssign_fresh {ps : List (JSVal × JSVal)} {k v : JSVal}
    (h : k ∉ ps.map Prod.fst) : mapAssign ps k v = ps ++ [(k, v)] := by
  induction ps with
  | nil => rfl
  | cons hd tl ih =>
    simp only [List.map_cons, List.mem_cons] at h
    push_neg at h
    simp only [mapAssign]
    rw [if_neg (fun hc => h.1 hc.symm), ih h.2]
    rfl

theorem containsVal_eq_false {l : List JSVal} {v : JSVal} (h : v ∉ l) :
    containsVal l v = false := by
  induction l with
  | nil => rfl
  | cons hd tl ih =>
    simp only [List.mem_cons] at h
    push_neg at h
    simp only [containsVal]
    rw [if_neg (fun hc => h.1 hc.symm)]
    exact ih h.2

theorem setAdd_fresh {l : List JSVal} {v : JSVal} (h : v ∉ l) :
    setAdd l v = l ++ [v] := by
  simp only [setAdd, containsVal_eq_false h]
  rw [if_neg (fun hc => Bool.noConfusion hc)]

theorem foldl_objAssign_eq (kvs : List (JSVal × JSVal)) :
    ∀ (acc : List (String × JSVal)),
      (∀ kv ∈ kvs, propKeyOf kv.1 ∉ acc.map Prod.fst) →
      (∀ (k1 k2 : Nat) (kv1 kv2 : JSVal × JSVal), k1 < k2 →
        kvs[k1]? = some kv1 → kvs[k2]? = some kv2 →
        propKeyOf kv1.1 ≠ propKeyOf kv2.1) →
      kvs.foldl (fun acc2 p => objAssign acc2 (propKeyOf p.1) p.2) acc
        = acc ++ kvs.map (fun kv => (propKeyOf kv.1, kv.2)) := by
  induction kvs with
  | nil => intro acc _ _; simp
  | cons hd tl ih =>
    intro acc hdis hptw
    simp only [List.foldl_cons]
    rw [objAssign_fresh (hdis hd (List.mem_cons_self _ _))]
    have hdis2 : ∀ kv ∈ tl, propKeyOf kv.1 ∉
        (acc ++ [(propKeyOf hd.1, hd.2)]).map Prod.fst := by
      intro kv hkv
      simp only [List.map_append, List.mem_append, List.map_cons,
        List.map_nil, List.mem_singleton]
      intro hc
      rcases hc with hc1 | hc2
      · exact hdis kv (List.mem_cons_of_mem _ hkv) hc1
      · obtain ⟨kb, hkb⟩ := List.mem_iff_getElem?.mp hkv
        exact hptw 0 (kb + 1) hd kv (by omega) List.getElem?_cons_zero
          (by rw [List.getElem?_cons_succ]; exact hkb) hc2.symm
    have hptw2 : ∀ (k1 k2 : Nat) (kv1 kv2 : JSVal × JSVal), k1 < k2 →
        tl[k1]? = some kv1 → tl[k2]? = some kv2 →
        propKeyOf kv1.1 ≠ propKeyOf kv2.1 := by
      intro k1 k2 kv1 kv2 hlt h1 h2
      exact hptw (k1 + 1) (k2 + 1) kv1 kv2 (by omega)
        (by rw [List.getElem?_cons_succ]; exact h1)
        (by rw [List.getElem?_cons_succ]; exact h2)
    rw [ih (acc ++ [(propKeyOf hd.1, hd.2)]) hdis2 hptw2]
    simp

theorem foldl_mapAssign_eq (kvs : List (JSVal × JSVal)) :
    ∀ (acc : List (JSVal × JSVal)),
      (∀ kv ∈ kvs, kv.1 ∉ acc.map Prod.fst) →
      (∀ (k1 k2 : Nat) (kv1 kv2 : JSVal × JSVal), k1 < k2 →
        kvs[k1]? = some kv1 → kvs[k2]? = some kv2 → kv1.1 ≠ kv2.1) →
      kvs.foldl (fun acc2 p => mapAssign acc2 p.1 p.2) acc = acc ++ kvs := by
  induction kvs with
  | nil => intro acc _ _; simp
  | cons hd tl ih =>
    intro acc hdis hptw
    simp only [List.foldl_cons]
    rw [mapAssign_fresh (hdis hd (List.mem_cons_self _ _))]
    have hdis2 : ∀ kv ∈ tl, kv.1 ∉ (acc ++ [(hd.1, hd.2)]).map Prod.fst := by
      intro kv hkv
      simp only [List.map_append, List.mem_append, List.map_cons,
        List.map_nil, List.mem_singleton]
      intro hc
      rcases hc with hc1 | hc2
      · exact hdis kv (List.mem_cons_of_mem _ hkv) hc1
      · obtain ⟨kb, hkb⟩ := List.mem_iff_getElem?.mp hkv
        exact hptw 0 (kb + 1) hd kv (by omega) List.getElem?_cons_zero
          (by rw [List.getElem?_cons_succ]; exact hkb) hc2.symm
    have hptw2 : ∀ (k1 k2 : Nat) (kv1 kv2 : JSVal × JSVal), k1 < k2 →
        tl[k1]? = some kv1 → tl[k2]? = some kv2 → kv1.1 ≠ kv2.1 := by
      intro k1 k2 kv1 kv2 hlt h1 h2
      exact hptw (k1 + 1) (k2 + 1) kv1 kv2 (by omega)
        (by rw [List.getElem?_cons_succ]; exact h1)
        (by rw [List.getElem?_cons_succ]; exact h2)
    rw [ih (acc ++ [(hd.1, hd.2)]) hdis2 hptw2]
    simp

theorem foldl_setAdd_eq (vs : List JSVal) :
    ∀ (acc : List JSVal),
      (∀ v ∈ vs, v ∉ acc) →
      (∀ (k1 k2 : Nat) (v1 v2 : JSVal), k1 < k2 →
        vs[k1]? = some v1 → vs[k2]? = some v2 → v1 ≠ v2) →
      vs.foldl setAdd acc = acc ++ vs := by
  induction vs with
  | nil => intro acc _ _; simp
  | cons hd tl ih =>
    intro acc hdis hptw
    simp only [List.foldl_cons]
    rw [setAdd_fresh (hdis hd (List.mem_cons_self _ _))]
    have hdis2 : ∀ v ∈ tl, v ∉ acc ++ [hd] := by
      intro v hv
      simp only [List.mem_append, List.mem_singleton]
      intro hc
      rcases hc with hc1 | hc2
      · exact hdis v (List.mem_cons_of_mem _ hv) hc1
      · obtain ⟨kb, hkb⟩ := List.mem_iff_getElem?.mp hv
        exact hptw 0 (kb + 1) hd v (by omega) List.getElem?_cons_zero
          (by rw [List.getElem?_cons_succ]; exact hkb) hc2.symm
    have hptw2 : ∀ (k1 k2 : Nat) (v1 v2 : JSVal), k1 < k2 →
        tl[k1]? = some v1 → tl[k2]? = some v2 → v1 ≠ v2 := by
      intro k1 k2 v1 v2 hlt h1 h2
      exact hptw (k1 + 1) (k2 + 1) v1 v2 (by omega)
        (by rw [List.getElem?_cons_succ]; exact h1)
        (by rw [List.getElem?_cons_succ]; exact h2)
    rw [ih (acc ++ [hd]) hdis2 hptw2]
    simp

/-- Typed-array tags are constructor names; the classifier never
produces a typed array tagged as a raw buffer, so a faithful heap has
no such object. -/
def objTagOK : JSObj → Bool
  | .typedArr tag _ => !(tag == "ArrayBuffer" || tag == "DataView")
  | _ => true

/-- Every typed-array tag in the heap is a real constructor name. -/
def heapTagsOK (H : List JSObj) : Bool := H.all objTagOK

theorem tagOK_of {H : List JSObj} {a : Nat} {tag : String}
    {elems : List Int} (htag : heapTagsOK H = true)
    (hO : H[a]? = some (.typedArr tag elems)) :
    ¬ tag = "ArrayBuffer" ∧ ¬ tag = "DataView" := by
  rw [heapTagsOK, List.all_eq_true] at htag
  have := htag _ (List.getElem?_mem hO)
  simp only [objTagOK, Bool.not_eq_eq_eq_not, Bool.not_true,
    Bool.or_eq_false_iff, beq_eq_false_iff_ne] at this
  exact this

theorem strayRec_typedArr_false {tag : String} {elems : List Int}
    (h1 : ¬ tag = "ArrayBuffer") (h2 : ¬ tag = "DataView") :
    strayRec (.typedRec tag elems) = false := by
  simp only [strayRec, Bool.or_eq_false_iff, beq_eq_false_iff_ne]
  exact ⟨h1, h2⟩

/-- A non-stray slot's value is its memoized value. -/
theorem SlotVal_memo {W : List Record} {M : List (Nat × JSVal)}
    {Hd : List JSObj} {idx : Nat} {cv : JSVal} {r : Record}
    (hsv : SlotVal W M Hd idx cv) (hW : W[idx]? = some r)
    (hsr : strayRec r = false) : mlookup M idx = some cv := by
  simp only [SlotVal, hW] at hsv
  cases r with
  | typedRec tag elems =>
    simp only [strayRec, Bool.or_eq_false_iff, beq_eq_false_iff_ne] at hsr
    simp only at hsv
    rw [if_neg hsr.1, if_neg hsr.2] at hsv
    exact hsv
  | void => exact hsv
  | primitive p => exact hsv
  | bigintRec st => exact hsv
  | dateRec iso => exact hsv
  | regexpRec src fl => exact hsv
  | errorRec name msg => exact hsv
  | boxedBoolRec b => exact hsv
  | boxedNumRec n => exact hsv
  | boxedStrRec st => exact hsv
  | boxedBigRec st => exact hsv
  | arrayRec idxs => exact hsv
  | objectRec es => exact hsv
  | mapRec es => exact hsv
  | setRec idxs => exact hsv

theorem forall2_getElem_right {α β : Type} {R : α → β → Prop} {l1 : List α}
    {l2 : List β} (h : List.Forall₂ R l1 l2) :
    ∀ (k : Nat) (b : β), l2[k]? = some b →
      ∃ a, l1[k]? = some a ∧ R a b := by
  induction h with
  | nil => intro k b hb; simp at hb
  | cons hr htl ih =>
    intro k b hb
    cases k with
    | zero =>
      rw [List.getElem?_cons_zero] at hb
      injection hb with hb1
      subst hb1
      exact ⟨_, List.getElem?_cons_zero, hr⟩
    | succ kb =>
      rw [List.getElem?_cons_succ] at hb
      obtain ⟨a, ha, hab⟩ := ih kb b hb
      exact ⟨a, by rw [List.getElem?_cons_succ]; exact ha, hab⟩

/-- A registered primitive decodes to exactly itself. -/
theorem prim_slot_decoded {H : List JSObj} {W : List Record}
    {m : List (JSVal × Nat)} {M : List (Nat × JSVal)} {Hd : List JSObj}
    (hall : ∀ x j, alookup m x = some j → EncEntry H m W x j)
    (hdec : ∀ j u, mlookup M j = some u → DecEntry W M Hd j u)
    {p : JSPrim} {q : Nat} {cv : JSVal}
    (hx : alookup m (.prim p) = some q) (hsv : SlotVal W M Hd q cv) :
    cv = .prim p := by
  have he := hall _ _ hx
  cases p with
  | func id => exact absurd he not_false
  | symbol id => exact absurd he not_false
  | undef =>
    simp only [EncEntry] at he
    have hd := hdec q cv (SlotVal_memo hsv he rfl)
    simp only [DecEntry, he] at hd
    exact hd
  | null =>
    simp only [EncEntry] at he
    have hd := hdec q cv (SlotVal_memo hsv he rfl)
    simp only [DecEntry, he] at hd
    exact hd
  | bool b =>
    simp only [EncEntry] at he
    have hd := hdec q cv (SlotVal_memo hsv he rfl)
    simp only [DecEntry, he] at hd
    exact hd
  | num n =>
    simp only [EncEntry] at he
    have hd := hdec q cv (SlotVal_memo hsv he rfl)
    simp only [DecEntry, he] at hd
    exact hd
  | str st =>
    simp only [EncEntry] at he
    have hd := hdec q cv (SlotVal_memo hsv he rfl)
    simp only [DecEntry, he] at hd
    exact hd
  | bigint b =>
    simp only [EncEntry] at he
    have hd := hdec q cv (SlotVal_memo hsv he rfl)
    simp only [DecEntry, he] at hd
    obtain ⟨b2, hb2, hcv⟩ := hd
    rw [parseBigInt_intToDec b] at hb2
    injection hb2 with hb3
    rw [hcv, ← hb3]

/-- Trichotomy for the decoded value of a registered slot, by the shape
of the registered source value: a primitive decodes to itself; a
reference to a non-buffer object decodes to a memoized reference; a
reference to a buffer decodes to a stray reference at a buffer cell. -/
theorem key_decode_cases {H : List JSObj} {W : List Record}
    {m : List (JSVal × Nat)} {M : List (Nat × JSVal)} {Hd : List JSObj}
    (htag : heapTagsOK H = true)
    (hall : ∀ x j, alookup m x = some j → EncEntry H m W x j)
    (hdec : ∀ j u, mlookup M j = some u → DecEntry W M Hd j u)
    {x : JSVal} {q : Nat} {cv : JSVal}
    (hx : alookup m x = some q) (hsv : SlotVal W M Hd q cv) :
    (∃ p, x = .prim p ∧ cv = .prim p) ∨
    (∃ ad, cv = .ref ad ∧ mlookup M q = some cv) ∨
    (∃ ad oD, cv = .ref ad ∧ Hd[ad]? = some oD ∧ noBufKind oD = false ∧
      strayAt W q = true) := by
  cases x with
  | prim p => exact Or.inl ⟨p, rfl, prim_slot_decoded hall hdec hx hsv⟩
  | ref a =>
    have he := hall _ _ hx
    simp only [EncEntry] at he
    obtain ⟨o, hO, ho⟩ := he
    cases o with
    | arrayBuffer bytes =>
      simp only at ho
      refine Or.inr (Or.inr ?_)
      simp only [SlotVal, ho] at hsv
      simp only [if_true] at hsv
      obtain ⟨ad, hcv, hcell⟩ := hsv
      exact ⟨ad, _, hcv, hcell, rfl, by rw [strayAt_eq ho]; rfl⟩
    | dataView bytes off len =>
      simp only at ho
      refine Or.inr (Or.inr ?_)
      simp only [SlotVal, ho] at hsv
      rw [if_neg (by decide : ¬("DataView" = "ArrayBuffer"))] at hsv
      simp only [if_true] at hsv
      obtain ⟨ad, hcv, hcell⟩ := hsv
      exact ⟨ad, _, hcv, hcell, rfl, by rw [strayAt_eq ho]; rfl⟩
    | typedArr tag elems =>
      simp only at ho
      obtain ⟨h1, h2⟩ := tagOK_of htag hO
      have hsr : strayRec (.typedRec tag elems) = false :=
        strayRec_typedArr_false h1 h2
      have hmq := SlotVal_memo hsv ho hsr
      have hd := hdec q cv hmq
      simp only [DecEntry, ho] at hd
      rw [if_neg h1, if_neg h2] at hd
      obtain ⟨ad, hcv, _⟩ := hd
      exact Or.inr (Or.inl ⟨ad, hcv, hmq⟩)
    | date iso =>
      simp only at ho
      have hmq := SlotVal_memo hsv ho rfl
      have hd := hdec q cv hmq
      simp only [DecEntry, ho] at hd
      obtain ⟨ad, hcv, _⟩ := hd
      exact Or.inr (Or.inl ⟨ad, hcv, hmq⟩)
    | regexp src fl =>
      simp only at ho
      have hmq := SlotVal_memo hsv ho rfl
      have hd := hdec q cv hmq
      simp only [DecEntry, ho] at hd
      obtain ⟨ad, hcv, _⟩ := hd
      exact Or.inr (Or.inl ⟨ad, hcv, hmq⟩)
    | errObj name msg =>
      simp only at ho
      have hmq := SlotVal_memo hsv ho rfl
      have hd := hdec q cv hmq
      simp only [DecEntry, ho] at hd
      obtain ⟨ad, hcv, _⟩ := hd
      exact Or.inr (Or.inl ⟨ad, hcv, hmq⟩)
    | boxedBool b =>
      simp only at ho
      have hmq := SlotVal_memo hsv ho rfl
      have hd := hdec q cv hmq
      simp only [DecEntry, ho] at hd
      obtain ⟨ad, hcv, _⟩ := hd
      exact Or.inr (Or.inl ⟨ad, hcv, hmq⟩)
    | boxedNum n =>
      simp only at ho
      have hmq := SlotVal_memo hsv ho rfl
      have hd := hdec q cv hmq
      simp only [DecEntry, ho] at hd
      obtain ⟨ad, hcv, _⟩ := hd
      exact Or.inr (Or.inl ⟨ad, hcv, hmq⟩)
    | boxedStr st =>
      simp only at ho
      have hmq := SlotVal_memo hsv ho rfl
      have hd := hdec q cv hmq
      simp only [DecEntry, ho] at hd
      obtain ⟨ad, hcv, _⟩ := hd
      exact Or.inr (Or.inl ⟨ad, hcv, hmq⟩)
    | boxedBig b =>
      simp only at ho
      have hmq := SlotVal_memo hsv ho rfl
      have hd := hdec q cv hmq
      simp only [DecEntry, ho] at hd
      obtain ⟨b2, ad, _, hcv, _⟩ := hd
      exact Or.inr (Or.inl ⟨ad, hcv, hmq⟩)
    | arr elems =>
      simp only at ho
      obtain ⟨idxs, hrec, _⟩ := ho
      have hmq := SlotVal_memo hsv hrec rfl
      have hd := hdec q cv hmq
      simp only [DecEntry, hrec] at hd
      obtain ⟨ad, vs, hcv, _⟩ := hd
      exact Or.inr (Or.inl ⟨ad, hcv, hmq⟩)
    | obj ps tj =>
      simp only at ho
      obtain ⟨es, hrec, _⟩ := ho
      have hmq := SlotVal_memo hsv hrec rfl
      have hd := hdec q cv hmq
      simp only [DecEntry, hrec] at hd
      obtain ⟨ad, kvs, hcv, _⟩ := hd
      exact Or.inr (Or.inl ⟨ad, hcv, hmq⟩)
    | mapObj es0 =>
      simp only at ho
      obtain ⟨es, hrec, _⟩ := ho
      have hmq := SlotVal_memo hsv hrec rfl
      have hd := hdec q cv hmq
      simp only [DecEntry, hrec] at hd
      obtain ⟨ad, kvs, hcv, _⟩ := hd
      exact Or.inr (Or.inl ⟨ad, hcv, hmq⟩)
    | setObj es0 =>
      simp only at ho
      obtain ⟨idxs, hrec, _⟩ := ho
      have hmq := SlotVal_memo hsv hrec rfl
      have hd := hdec q cv hmq
      simp only [DecEntry, hrec] at hd
      obtain ⟨ad, vs, hcv, _⟩ := hd
      exact Or.inr (Or.inl ⟨ad, hcv, hmq⟩)

/-- The round-trip bisimulation: a source value registered at slot `j`
by a wire-correct identity map is deeply structurally equal, at every
depth, to the slot's decoded value. -/
theorem roundtrip_bisim {H : List JSObj} {W : List Record}
    {m : List (JSVal × Nat)} {M : List (Nat × JSVal)} {Hd : List JSObj}
    (hwf : heapWFb H = true) (hdv : heapDVFull H = true)
    (htag : heapTagsOK H = true)
    (hall : ∀ x j, alookup m x = some j → EncEntry H m W x j)
    (hinj : ∀ x y j, alookup m x = some j → alookup m y = some j → x = y)
    (hdec : ∀ j u, mlookup M j = some u → DecEntry W M Hd j u)
    (hcinj : ∀ j1 j2 a, mlookup M j1 = some (.ref a) →
      mlookup M j2 = some (.ref a) → j1 = j2)
    (hob : ∀ j a, mlookup M j = some (.ref a) →
      ∀ o, Hd[a]? = some o → noBufKind o = true) :
    ∀ (n : Nat) (x w : JSVal) (j : Nat), alookup m x = some j →
      SlotVal W M Hd j w → deepEqValF H Hd n x w = true := by
  intro n
  induction n with
  | zero => intro x w j _ _; rfl
  | succ n ihn =>
    intro x w j hx hsv
    have he := hall x j hx
    cases x with
    | prim p =>
      have hcv := prim_slot_decoded hall hdec hx hsv
      subst hcv
      simp [deepEqValF]
    | ref a =>
      simp only [EncEntry] at he
      obtain ⟨o, hO, ho⟩ := he
      have hobjOK := heapWFb_obj hwf hO
      cases o with
      | date iso =>
        simp only at ho
        have hd := hdec j w (SlotVal_memo hsv ho rfl)
        simp only [DecEntry, ho] at hd
        obtain ⟨ad, hw, hcell⟩ := hd
        subst hw
        simp [deepEqValF, hO, hcell, deepEqObjF]
      | regexp src fl =>
        simp only at ho
        have hd := hdec j w (SlotVal_memo hsv ho rfl)
        simp only [DecEntry, ho] at hd
        obtain ⟨ad, hw, hcell⟩ := hd
        subst hw
        simp [deepEqValF, hO, hcell, deepEqObjF]
      | errObj name msg =>
        simp only at ho
        have hd := hdec j w (SlotVal_memo hsv ho rfl)
        simp only [DecEntry, ho] at hd
        obtain ⟨ad, hw, hcell⟩ := hd
        subst hw
        simp [deepEqValF, hO, hcell, deepEqObjF]
      | boxedBool b =>
        simp only at ho
        have hd := hdec j w (SlotVal_memo hsv ho rfl)
        simp only [DecEntry, ho] at hd
        obtain ⟨ad, hw, hcell⟩ := hd
        subst hw
        simp [deepEqValF, hO, hcell, deepEqObjF]
      | boxedNum nv =>
        simp only at ho
        have hd := hdec j w (SlotVal_memo hsv ho rfl)
        simp only [DecEntry, ho] at hd
        obtain ⟨ad, hw, hcell⟩ := hd
        subst hw
        simp [deepEqValF, hO, hcell, deepEqObjF]
      | boxedStr st =>
        simp only at ho
        have hd := hdec j w (SlotVal_memo hsv ho rfl)
        simp only [DecEntry, ho] at hd
        obtain ⟨ad, hw, hcell⟩ := hd
        subst hw
        simp [deepEqValF, hO, hcell, deepEqObjF]
      | boxedBig b =>
        simp only at ho
        have hd := hdec j w (SlotVal_memo hsv ho rfl)
        simp only [DecEntry, ho] at hd
        obtain ⟨b2, ad, hb2, hw, hcell⟩ := hd
        rw [parseBigInt_intToDec b] at hb2
        injection hb2 with hb3
        subst hb3
        subst hw
        simp [deepEqValF, hO, hcell, deepEqObjF]
      | typedArr tag elems =>
        simp only at ho
        obtain ⟨h1, h2⟩ := tagOK_of htag hO
        have hsr : strayRec (.typedRec tag elems) = false :=
          strayRec_typedArr_false h1 h2
        have hd := hdec j w (SlotVal_memo hsv ho hsr)
        simp only [DecEntry, ho] at hd
        rw [if_neg h1, if_neg h2] at hd
        obtain ⟨ad, hw, hcell⟩ := hd
        subst hw
        simp [deepEqValF, hO, hcell, deepEqObjF]
      | arrayBuffer bytes =>
        simp only at ho
        simp only [SlotVal, ho] at hsv
        simp only [if_true] at hsv
        obtain ⟨ad, hw, hcell⟩ := hsv
        subst hw
        simp [deepEqValF, hO, hcell, deepEqObjF]
      | dataView bytes off len =>
        simp only at ho
        have hdvw : dvFullWindow (.dataView bytes off len) = true := by
          rw [heapDVFull, List.all_eq_true] at hdv
          exact hdv _ (List.getElem?_mem hO)
        simp only [dvFullWindow, Bool.and_eq_true, beq_iff_eq] at hdvw
        obtain ⟨hoff, hlen⟩ := hdvw
        subst hoff
        subst hlen
        simp only [SlotVal, ho] at hsv
        rw [if_neg (by decide : ¬("DataView" = "ArrayBuffer"))] at hsv
        simp only [if_true] at hsv
        obtain ⟨ad, hw, hcell⟩ := hsv
        subst hw
        simp [deepEqValF, hO, hcell, deepEqObjF]
      | arr elems =>
        simp only at ho
        obtain ⟨idxs, hrec, F1⟩ := ho
        have hd := hdec j w (SlotVal_memo hsv hrec rfl)
        simp only [DecEntry, hrec] at hd
        obtain ⟨ad, vs, hw, hcell, F2⟩ := hd
        subst hw
        simp only [deepEqValF, hO, hcell, deepEqObjF]
        apply all2_of_forall2
        refine (forall2_comp F1 F2).imp ?_
        intro e cv h3
        obtain ⟨q, hq, hsvq⟩ := h3
        exact ihn e cv q hq hsvq
      | obj ps tj =>
        simp only at ho
        obtain ⟨esW, hrec, F1⟩ := ho
        have hd := hdec j w (SlotVal_memo hsv hrec rfl)
        simp only [DecEntry, hrec] at hd
        obtain ⟨ad, kvs, hw, hcell, F2⟩ := hd
        subst hw
        have hrows : List.Forall₂
            (fun (p : String × JSVal) (kv : JSVal × JSVal) =>
              kv.1 = .prim (.str p.1) ∧
              deepEqValF H Hd n p.2 kv.2 = true) ps kvs := by
          refine (forall2_comp F1 F2).imp ?_
          intro p kv h3
          obtain ⟨q, ⟨hqk, hqv⟩, hsvk, hsvv⟩ := h3
          exact ⟨prim_slot_decoded hall hdec hqk hsvk, ihn _ _ _ hqv hsvv⟩
        have hkeysrc : nodupB (fun a b => a == b) (ps.map Prod.fst) = true := by
          simp only [objOKb, Bool.and_eq_true] at hobjOK
          exact hobjOK.1.2
        have hptw : ∀ (k1 k2 : Nat) (kv1 kv2 : JSVal × JSVal), k1 < k2 →
            kvs[k1]? = some kv1 → kvs[k2]? = some kv2 →
            propKeyOf kv1.1 ≠ propKeyOf kv2.1 := by
          intro k1 k2 kv1 kv2 hlt h1 h2
          obtain ⟨p1, hp1, hr1⟩ := forall2_getElem_right hrows k1 kv1 h1
          obtain ⟨p2, hp2, hr2⟩ := forall2_getElem_right hrows k2 kv2 h2
          have hne := nodupB_ne hkeysrc k1 k2 p1.1 p2.1 hlt
            (by rw [List.getElem?_map, hp1]; rfl)
            (by rw [List.getElem?_map, hp2]; rfl)
          rw [hr1.1, hr2.1]
          simp only [propKeyOf]
          exact hne
        rw [foldl_objAssign_eq kvs []
          (by intro kv _ hc; simp at hc) hptw] at hcell
        simp only [List.nil_append] at hcell
        simp only [deepEqValF, hO, hcell, deepEqObjF]
        rw [all2_map_right]
        apply all2_of_forall2
        refine hrows.imp ?_
        intro p kv h3
        rw [h3.1]
        simp only [propKeyOf]
        rw [Bool.and_eq_true]
        exact ⟨by simp, h3.2⟩
      | mapObj esrc =>
        simp only at ho
        obtain ⟨esW, hrec, F1⟩ := ho
        have hd := hdec j w (SlotVal_memo hsv hrec rfl)
        simp only [DecEntry, hrec] at hd
        obtain ⟨ad, kvs, hw, hcell, F2, hso⟩ := hd
        subst hw
        have hkeysrc : nodupB (fun a b => a == b) (esrc.map Prod.fst)
            = true := by
          simp only [objOKb, Bool.and_eq_true] at hobjOK
          exact hobjOK.2
        have hptw : ∀ (k1 k2 : Nat) (kv1 kv2 : JSVal × JSVal), k1 < k2 →
            kvs[k1]? = some kv1 → kvs[k2]? = some kv2 → kv1.1 ≠ kv2.1 := by
          intro k1 k2 kv1 kv2 hlt h1 h2
          obtain ⟨q1, hesW1, hsv1k, hsv1v⟩ := forall2_getElem_right F2 k1 kv1 h1
          obtain ⟨p1, hsrc1, hq1k, hq1v⟩ := forall2_getElem_right F1 k1 q1 hesW1
          obtain ⟨q2, hesW2, hsv2k, hsv2v⟩ := forall2_getElem_right F2 k2 kv2 h2
          obtain ⟨p2, hsrc2, hq2k, hq2v⟩ := forall2_getElem_right F1 k2 q2 hesW2
          have hpne : p1.1 ≠ p2.1 := nodupB_ne hkeysrc k1 k2 p1.1 p2.1 hlt
            (by rw [List.getElem?_map, hsrc1]; rfl)
            (by rw [List.getElem?_map, hsrc2]; rfl)
          have hqne : q1.1 ≠ q2.1 := by
            intro hc
            rw [← hc] at hq2k
            exact hpne (hinj p1.1 p2.1 q1.1 hq1k hq2k)
          intro hkvEq
          rcases key_decode_cases htag hall hdec hq1k hsv1k with
            ⟨pp1, hx1, hcv1⟩ | ⟨ad1, hcv1, hm1⟩ |
            ⟨ad1, oD1, hcv1, hcell1, hnb1, hst1⟩ <;>
            rcases key_decode_cases htag hall hdec hq2k hsv2k with
              ⟨pp2, hx2, hcv2⟩ | ⟨ad2, hcv2, hm2⟩ |
              ⟨ad2, oD2, hcv2, hcell2, hnb2, hst2⟩
          · rw [hcv1, hcv2] at hkvEq
            injection hkvEq with hpp
            rw [hx1, hx2, hpp] at hpne
            exact hpne rfl
          · rw [hcv1, hcv2] at hkvEq
            exact JSVal.noConfusion hkvEq
          · rw [hcv1, hcv2] at hkvEq
            exact JSVal.noConfusion hkvEq
          · rw [hcv1, hcv2] at hkvEq
            exact JSVal.noConfusion hkvEq
          · rw [hcv1, hcv2] at hkvEq
            injection hkvEq with hadEq
            rw [hcv1] at hm1
            rw [hcv2, ← hadEq] at hm2
            exact hqne (hcinj q1.1 q2.1 ad1 hm1 hm2)
          · rw [hcv1, hcv2] at hkvEq
            injection hkvEq with hadEq
            rw [hcv1] at hm1
            rw [← hadEq] at hcell2
            rw [hob q1.1 ad1 hm1 oD2 hcell2] at hnb2
            exact Bool.noConfusion hnb2
          · rw [hcv1, hcv2] at hkvEq
            exact JSVal.noConfusion hkvEq
          · rw [hcv1, hcv2] at hkvEq
            injection hkvEq with hadEq
            rw [hcv2] at hm2
            rw [hadEq] at hcell1
            rw [hob q2.1 ad2 hm2 oD1 hcell1] at hnb1
            exact Bool.noConfusion hnb1
          · have hv1 : kvs[k1]? = some kv1 := h1
            have hv2 : kvs[k2]? = some kv2 := h2
            have hlt2 := hso k1 k2 q1 q2 kv1 kv2 ad1 ad2 hlt hesW1 hesW2
              hst1 hst2 hv1 hv2 hcv1 hcv2
            rw [hcv1, hcv2] at hkvEq
            injection hkvEq with hadEq
            omega
        have hrows : List.Forall₂
            (fun (p : JSVal × JSVal) (kv : JSVal × JSVal) =>
              deepEqValF H Hd n p.1 kv.1 = true ∧
              deepEqValF H Hd n p.2 kv.2 = true) esrc kvs := by
          refine (forall2_comp F1 F2).imp ?_
          intro p kv h3
          obtain ⟨q, ⟨hqk, hqv⟩, hsvk, hsvv⟩ := h3
          exact ⟨ihn _ _ _ hqk hsvk, ihn _ _ _ hqv hsvv⟩
        rw [foldl_mapAssign_eq kvs []
          (by intro kv _ hc; simp at hc) hptw] at hcell
        simp only [List.nil_append] at hcell
        simp only [deepEqValF, hO, hcell, deepEqObjF]
        apply all2_of_forall2
        refine hrows.imp ?_
        intro p kv h3
        rw [Bool.and_eq_true]
        exact h3
      | setObj esrc =>
        simp only at ho
        obtain ⟨idxs, hrec, F1⟩ := ho
        have hd := hdec j w (SlotVal_memo hsv hrec rfl)
        simp only [DecEntry, hrec] at hd
        obtain ⟨ad, vs, hw, hcell, F2, hso⟩ := hd
        subst hw
        have helsrc : nodupB (fun a b => a == b) esrc = true := by
          simp only [objOKb, Bool.and_eq_true] at hobjOK
          exact hobjOK.2
        have hptw : ∀ (k1 k2 : Nat) (v1 v2 : JSVal), k1 < k2 →
            vs[k1]? = some v1 → vs[k2]? = some v2 → v1 ≠ v2 := by
          intro k1 k2 v1 v2 hlt h1 h2
          obtain ⟨q1, hidx1, hsv1⟩ := forall2_getElem_right F2 k1 v1 h1
          obtain ⟨p1, hsrc1, hq1⟩ := forall2_getElem_right F1 k1 q1 hidx1
          obtain ⟨q2, hidx2, hsv2⟩ := forall2_getElem_right F2 k2 v2 h2
          obtain ⟨p2, hsrc2, hq2⟩ := forall2_getElem_right F1 k2 q2 hidx2
          have hpne : p1 ≠ p2 :=
            nodupB_ne helsrc k1 k2 p1 p2 hlt hsrc1 hsrc2
          have hqne : q1 ≠ q2 := by
            intro hc
            rw [← hc] at hq2
            exact hpne (hinj p1 p2 q1 hq1 hq2)
          intro hvEq
          rcases key_decode_cases htag hall hdec hq1 hsv1 with
            ⟨pp1, hx1, hcv1⟩ | ⟨ad1, hcv1, hm1⟩ |
            ⟨ad1, oD1, hcv1, hcell1, hnb1, hst1⟩ <;>
            rcases key_decode_cases htag hall hdec hq2 hsv2 with
              ⟨pp2, hx2, hcv2⟩ | ⟨ad2, hcv2, hm2⟩ |
              ⟨ad2, oD2, hcv2, hcell2, hnb2, hst2⟩
          · rw [hcv1, hcv2] at hvEq
            injection hvEq with hpp
            rw [hx1, hx2, hpp] at hpne
            exact hpne rfl
          · rw [hcv1, hcv2] at hvEq
            exact JSVal.noConfusion hvEq
          · rw [hcv1, hcv2] at hvEq
            exact JSVal.noConfusion hvEq
          · rw [hcv1, hcv2] at hvEq
            exact JSVal.noConfusion hvEq
          · rw [hcv1, hcv2] at hvEq
            injection hvEq with hadEq
            rw [hcv1] at hm1
            rw [hcv2, ← hadEq] at hm2
            exact hqne (hcinj q1 q2 ad1 hm1 hm2)
          · rw [hcv1, hcv2] at hvEq
            injection hvEq with hadEq
            rw [hcv1] at hm1
            rw [← hadEq] at hcell2
            rw [hob q1 ad1 hm1 oD2 hcell2] at hnb2
            exact Bool.noConfusion hnb2
          · rw [hcv1, hcv2] at hvEq
            exact JSVal.noConfusion hvEq
          · rw [hcv1, hcv2] at hvEq
            injection hvEq with hadEq
            rw [hcv2] at hm2
            rw [hadEq] at hcell1
            rw [hob q2 ad2 hm2 oD1 hcell1] at hnb1
            exact Bool.noConfusion hnb1
          · have hlt2 := hso k1 k2 q1 q2 ad1 ad2 hlt hidx1 hidx2 hst1 hst2
              (by rw [h1, hcv1]) (by rw [h2, hcv2])
            rw [hcv1, hcv2] at hvEq
            injection hvEq with hadEq
            omega
        have hrows : List.Forall₂
            (fun (e : JSVal) (cv : JSVal) =>
              deepEqValF H Hd n e cv = true) esrc vs := by
          refine (forall2_comp F1 F2).imp ?_
          intro e cv h3
          obtain ⟨q, hq, hsvq⟩ := h3
          exact ihn _ _ _ hq hsvq
        rw [foldl_setAdd_eq vs []
          (by intro v _ hc; simp at hc) hptw] at hcell
        simp only [List.nil_append] at hcell
        simp only [deepEqValF, hO, hcell, deepEqObjF]
        exact all2_of_forall2 hrows

/-- Counterexample to C1 as literally stated: a `DataView` over bytes
[10,20,30,40] with byteOffset 1 and byteLength 2 round-trips to a
`DataView` over a fresh buffer with byteOffset 0 and byteLength 4 — the
encoder records only `new Uint8Array(view.buffer)` and the decoder runs
`new DataView(buffer)` — so the result is not deeply structurally equal
to the source. -/
theorem dataView_window_lost :
    serialize [.dataView [10, 20, 30, 40] 1 2] (.ref 0) false false
      = .ok [.typedRec "DataView" [10, 20, 30, 40]] ∧
    deserializeW [.typedRec "DataView" [10, 20, 30, 40]]
      = .ok (.ref 0, ⟨[], [.dataView [10, 20, 30, 40] 0 4]⟩) ∧
    deepEqValF [.dataView [10, 20, 30, 40] 1 2]
      [.dataView [10, 20, 30, 40] 0 4] 1 (.ref 0) (.ref 0) = false :=
  ⟨rfl, by simp [deserializeW, decFuel, unpairF, mlookup, DSt.allocStray],
   by decide⟩

/-- C1 (amended for the DataView window): for every well-formed heap
value built from the supported kinds with no function or symbol
reachable, whose `DataView`s span their whole underlying buffer (the
wire keeps only the buffer's bytes — `dataView_window_lost` shows a
proper sub-window does not survive) and whose typed-array tags are
genuine constructor names, `deserialize(serialize(v))` succeeds and is
deeply structurally equal to `v` at every depth; the model's error
objects carry exactly name and message, matching the Error proviso. -/
theorem roundtrip_deep_equal (H : List JSObj) (v : JSVal)
    (hwf : heapWFb H = true) (hvok : valOKb H.length v = true)
    (hfn : heapFnFree H = true) (hvfn : valFnFree v = true)
    (hdv : heapDVFull H = true) (htag : heapTagsOK H = true) :
    ∃ W vr ds, serialize H v false false = .ok W ∧
      deserializeW W = .ok (vr, ds) ∧ DeepEq H v ds.heap vr := by
  have hfuel : encFuel H ≥ 1 + unregCount H ⟨[], []⟩ := by
    have hle : unregCount H (⟨[], []⟩ : SSt) ≤ H.length := by
      have h2 : (List.range H.length).countP
          (fun a => (alookup ([] : List (JSVal × Nat)) (JSVal.ref a)).isNone)
          ≤ (List.range H.length).length := List.countP_le_length _
      rw [List.length_range] at h2
      exact h2
    simp only [encFuel]
    omega
  rcases pairF_total true H hwf (encFuel H) v ⟨[], []⟩ SInv_empty hvok hfuel with
    ⟨⟨i, s2⟩, hok⟩ | htns
  · have hi0 : i = 0 := pairF_root_zero true false H (encFuel H) v i s2 hok
    subst hi0
    have hokW : serializeW H v false false = .ok (0, s2) := hok
    have hframe := pairF_frame true false H (encFuel H) v ⟨[], []⟩ 0 s2 hok
      SInv_empty
    have hinv2 : SInv s2 := hframe.2.1
    obtain ⟨hreg, hnew⟩ := pairF_entries H (encFuel H) v ⟨[], []⟩ 0 s2 hok
      SInv_empty
    have hall : ∀ x j, alookup s2.idmap x = some j →
        EncEntry H s2.idmap s2.out x j := by
      intro x j hx
      rcases hnew x j hx with h0 | ⟨_, he⟩
      · simp [alookup] at h0
      · exact he
    have hrOK : wireRefsOK s2.out := hinv2.2.1
    have hbOK : wireBigOK s2.out := serializeW_bigOK hokW
    have hne : 0 < s2.out.length := hframe.2.2
    obtain ⟨⟨vr, ds⟩, hdecok⟩ := deserializeW_total s2.out hrOK hbOK hne
    obtain ⟨d1, d2, d3, d4, d5⟩ := unpairF_str s2.out (decFuel s2.out) 0
      ⟨[], []⟩ vr ds hdecok (DInvD_empty s2.out)
    have hdecAll : ∀ j u, mlookup ds.memo j = some u →
        DecEntry s2.out ds.memo ds.heap j u := by
      intro j u hj
      rcases d5 j u hj with h0 | he
      · simp [mlookup] at h0
      · exact he
    refine ⟨s2.out, vr, ds, ?_, hdecok, ?_⟩
    · rw [serialize, hokW]
      rfl
    · intro n
      exact roundtrip_bisim hwf hdv htag hall hinv2.2.2.2 hdecAll d4.1
        d4.2.2.2 n v vr 0 hreg d1
  · obtain ⟨w, hrw, hsk⟩ := pairF_tns_reaches H (encFuel H) v ⟨[], []⟩ htns
    rw [reaches_fnfree hfn hrw hvfn] at hsk
    exact Bool.noConfusion hsk

/-- Witness for `roundtrip_deep_equal` at the self-cycle heap. -/
theorem roundtrip_deep_equal_witness :
    (heapWFb [.obj [("self", .ref 0)] none] = true ∧
     valOKb ([JSObj.obj [("self", .ref 0)] none] : List JSObj).length
       (.ref 0) = true ∧
     heapFnFree [.obj [("self", .ref 0)] none] = true ∧
     valFnFree (.ref 0) = true ∧
     heapDVFull [.obj [("self", .ref 0)] none] = true ∧
     heapTagsOK [.obj [("self", .ref 0)] none] = true) ∧
    (∃ W vr ds, serialize [.obj [("self", .ref 0)] none] (.ref 0) false false
        = .ok W ∧ deserializeW W = .ok (vr, ds) ∧
      DeepEq [.obj [("self", .ref 0)] none] (.ref 0) ds.heap vr) :=
  ⟨⟨by decide, by decide, by decide, by decide, by decide, by decide⟩,
   roundtrip_deep_equal [.obj [("self", .ref 0)] none] (.ref 0)
     (by decide) (by decide) (by decide) (by decide) (by decide) (by decide)⟩

end Polyfills
